import Mathlib

/-!
# simple-data: the path-based mapping engine and its identity cache

A shallow embedding of `src/dist/simple-data.js`.

JavaScript objects are mutable and compared by identity, so the embedding
threads an explicit heap: a value is either a primitive or a reference to a
heap cell, and every operation of the source that mutates an object is a
function from heaps to heaps.  Numbers are integers (the claims never need
fractions or NaN).  Property reads on primitives yield `undefined`; members
inherited from a prototype are not modelled.

The Ember object system is a collaborator of the source: `create` and
`createWithMixins` are modelled as a shallow copy of the own fields of their
argument into a fresh cell tagged with the model type, `instanceof` as a test
of that tag, `ArrayProxy` as a cell whose `content` field refers to the
underlying array, and promises as immediately settled results.
-/

namespace SD

/-! ## Values and heap -/

/-- A JavaScript value: a primitive, or a reference to a heap cell. -/
inductive Val where
  | undef
  | null
  | bool (b : Bool)
  | num (n : Int)
  | str (s : String)
  | ref (a : Nat)
  deriving DecidableEq, Repr

/-- A model type (a class object): its identity, and the string the class
coerces to when it is used as a property key (`this._cache[this]`). -/
structure ModelType where
  id : Nat
  key : String
  deriving DecidableEq, Repr

/-- What a heap cell is: a plain object, an `Array`, an instance of a model
type (with or without `SD.ModelArrayHolderMixin`), or an
`SD.ModelArrayHolder`. -/
inductive Kind where
  | plain
  | array
  | inst (ty : Nat) (mixin : Bool)
  | holder
  deriving DecidableEq, Repr

/-- A heap cell: its kind, its own named fields in insertion order, and (for
an array) its elements. -/
structure Obj where
  kind : Kind
  fields : List (String × Val)
  elems : List Val
  deriving DecidableEq, Repr

abbrev Heap := List Obj

/-- Failures of the embedded code: a JavaScript `TypeError`, a rejected
collaborator promise, or the recursion budget of the model running out. -/
inductive Err where
  | typeError
  | rejected
  | outOfFuel
  deriving DecidableEq, Repr

/-! ## Property access -/

def lookup (k : String) : List (String × Val) → Val
  | [] => Val.undef
  | (k', v) :: rest => if k' = k then v else lookup k rest

def setField (k : String) (v : Val) : List (String × Val) → List (String × Val)
  | [] => [(k, v)]
  | (k', v') :: rest => if k' = k then (k', v) :: rest else (k', v') :: setField k v rest

def digitVal (c : Char) : Option Nat :=
  if c = '0' then some 0 else if c = '1' then some 1 else if c = '2' then some 2
  else if c = '3' then some 3 else if c = '4' then some 4 else if c = '5' then some 5
  else if c = '6' then some 6 else if c = '7' then some 7 else if c = '8' then some 8
  else if c = '9' then some 9 else none

def parseDigits : List Char → Nat → Option Nat
  | [], acc => some acc
  | c :: cs, acc =>
    match digitVal c with
    | some d => parseDigits cs (acc * 10 + d)
    | none => none

/-- The array index a property key denotes, if it is a canonical decimal
numeral ("0", "7", "12"; not "", "07", "x"). -/
def arrayIndex (k : String) : Option Nat :=
  match k.toList with
  | [] => none
  | [c] => digitVal c
  | c :: cs => if c = '0' then none else parseDigits (c :: cs) 0

def digitChar (n : Nat) : Char :=
  match n with
  | 0 => '0' | 1 => '1' | 2 => '2' | 3 => '3' | 4 => '4'
  | 5 => '5' | 6 => '6' | 7 => '7' | 8 => '8' | _ => '9'

def digitsAux : Nat → Nat → List Char → List Char
  | 0, _, acc => acc
  | fuel + 1, n, acc =>
    if n < 10 then digitChar n :: acc else digitsAux fuel (n / 10) (digitChar (n % 10) :: acc)

/-- The property key of array index `n`. -/
def indexKey (n : Nat) : String := String.mk (digitsAux (n + 1) n [])

/-- The read `o[k]` on a heap cell. -/
def Obj.get (o : Obj) (k : String) : Val :=
  match o.kind with
  | Kind.array =>
    if k = "length" then Val.num o.elems.length
    else match arrayIndex k with
      | some i => o.elems.getD i Val.undef
      | none => lookup k o.fields
  | _ => lookup k o.fields

/-- The write `o[k] = v` on a heap cell.  Writing an array past its end pads
it with `undefined`. -/
def Obj.put (o : Obj) (k : String) (v : Val) : Obj :=
  match o.kind with
  | Kind.array =>
    match arrayIndex k with
    | some i =>
      if i < o.elems.length then { o with elems := o.elems.set i v }
      else { o with elems := o.elems ++ List.replicate (i - o.elems.length) Val.undef ++ [v] }
    | none => { o with fields := setField k v o.fields }
  | _ => { o with fields := setField k v o.fields }

/-- The read `x[k]`: a `TypeError` on `undefined` and `null`, `undefined` on
the other primitives. -/
def getProp (h : Heap) (x : Val) (k : String) : Except Err Val :=
  match x with
  | Val.undef => Except.error Err.typeError
  | Val.null => Except.error Err.typeError
  | Val.ref a =>
    match h[a]? with
    | some o => Except.ok (o.get k)
    | none => Except.error Err.typeError
  | _ => Except.ok Val.undef

/-- The write `x[k] = v` (strict mode: a `TypeError` on every primitive). -/
def setProp (h : Heap) (x : Val) (k : String) (v : Val) : Except Err Heap :=
  match x with
  | Val.ref a =>
    match h[a]? with
    | some o => Except.ok (h.set a (o.put k v))
    | none => Except.error Err.typeError
  | _ => Except.error Err.typeError

def alloc (h : Heap) (o : Obj) : Val × Heap := (Val.ref h.length, h ++ [o])

/-- JavaScript truthiness. -/
def truthy : Val → Bool
  | Val.undef => false
  | Val.null => false
  | Val.bool b => b
  | Val.num n => n != 0
  | Val.str s => s != ""
  | Val.ref _ => true

/-- The test `x == undefined`. -/
def isNullish : Val → Bool
  | Val.undef => true
  | Val.null => true
  | _ => false

def kindOf (h : Heap) (x : Val) : Option Kind :=
  match x with
  | Val.ref a => (h[a]?).map Obj.kind
  | _ => none

/-- The test `x instanceof Array`. -/
def isArray (h : Heap) (x : Val) : Bool :=
  match kindOf h x with
  | some Kind.array => true
  | _ => false

/-- The test `x instanceof T` for a model type `T`. -/
def isInstanceOf (h : Heap) (x : Val) (t : ModelType) : Bool :=
  match kindOf h x with
  | some (Kind.inst ty _) => ty == t.id
  | _ => false

/-- The test `typeof x === "object"` for a truthy `x`. -/
def isObject : Val → Bool
  | Val.ref _ => true
  | Val.null => true
  | _ => false

/-! ## Path resolver -/

def splitAux : List Char → List Char → List String
  | [], acc => [String.mk acc.reverse]
  | c :: cs, acc =>
    if c = '.' then String.mk acc.reverse :: splitAux cs [] else splitAux cs (c :: acc)

/-- The call `path.split(".")`. -/
def split (path : String) : List String := splitAux path.toList []

/-- The loop of `findPath` over the remaining segments. -/
def findPathLoop (h : Heap) : Val → List String → Except Err Val
  | current, [] => Except.ok current
  | current, seg :: rest =>
    match getProp h current seg with
    | Except.error e => Except.error e
    | Except.ok v => if isNullish v then Except.ok Val.undef else findPathLoop h v rest

def findPath (h : Heap) (obj : Val) (path : String) : Except Err Val :=
  findPathLoop h obj (split path)

/-- The loop of `_setObjectPathToValue`: walk all segments but the last, then
assign the last one. -/
def setPathLoop (h : Heap) (value : Val) : Val → List String → Except Err Heap
  | _, [] => Except.ok h
  | parent, [last] => setProp h parent last value
  | parent, seg :: rest =>
    match getProp h parent seg with
    | Except.error e => Except.error e
    | Except.ok v => setPathLoop h value v rest

def _setObjectPathToValue (h : Heap) (obj value : Val) (path : String) : Except Err Heap :=
  setPathLoop h value obj (split path)

/-! ## Mapping engine -/

/-- The static `_mapping` object: for each class key, the declared
`path -> type` entries in declaration order. -/
abbrev Mapping := List (String × List (String × ModelType))

/-- The entries of `this._mapping[this]` (none when it is not defined). -/
def schemaOf : Mapping → ModelType → List (String × ModelType)
  | [], _ => []
  | (k, es) :: rest, t => if k = t.key then es else schemaOf rest t

def indexedFields : List Val → Nat → List (String × Val)
  | [], _ => []
  | v :: vs, i => (indexKey i, v) :: indexedFields vs (i + 1)

/-- The own enumerable properties of a value, the ones `create` copies. -/
def Obj.own (o : Obj) : List (String × Val) :=
  match o.kind with
  | Kind.array => indexedFields o.elems 0 ++ o.fields
  | _ => o.fields

def ownFields (h : Heap) (x : Val) : List (String × Val) :=
  match x with
  | Val.ref a =>
    match h[a]? with
    | some o => o.own
    | none => []
  | _ => []

/-- The call `T.create(object)`: a fresh instance of `T` holding a shallow
copy of the fields of `object`. -/
def create (h : Heap) (t : ModelType) (object : Val) : Val × Heap :=
  alloc h { kind := Kind.inst t.id false, fields := ownFields h object, elems := [] }

/-- The first statement of `applyMapping`: `object` itself when it is
already an instance of `T`, a fresh instance made from it otherwise. -/
def instantiate (h : Heap) (t : ModelType) (object : Val) : Val × Heap :=
  if isInstanceOf h object t then (object, h) else create h t object

/-- The first three statements of `applyMappingForArray`:
`T.createWithMixins(object, SD.ModelArrayHolderMixin)` followed by
`set("_parent", p)` and `set("_path", path)`. -/
def createWithMixins (h : Heap) (t : ModelType) (object p : Val) (path : String) : Val × Heap :=
  alloc h { kind := Kind.inst t.id true,
            fields := setField "_path" (Val.str path)
              (setField "_parent" p (ownFields h object)),
            elems := [] }

/-- The call `SD.ModelArrayHolder.create` with `_parent`, `_path` and
`content`. -/
def createHolder (h : Heap) (parent : Val) (path : String) (content : Val) : Val × Heap :=
  alloc h { kind := Kind.holder,
            fields := [("_parent", parent), ("_path", Val.str path), ("content", content)],
            elems := [] }

def elemsOf (h : Heap) (x : Val) : List Val :=
  match x with
  | Val.ref a =>
    match h[a]? with
    | some o => o.elems
    | none => []
  | _ => []

/-- The call `arr.map(f)`, for the indices still to visit: each element is
read when its turn comes, the results are collected in order. -/
def mapItems (f : Val → Heap → Except Err (Val × Heap)) (arr : Val) :
    List Nat → Heap → Except Err (List Val × Heap)
  | [], h => Except.ok ([], h)
  | i :: rest, h =>
    match f ((elemsOf h arr).getD i Val.undef) h with
    | Except.error e => Except.error e
    | Except.ok (v, h1) =>
      match mapItems f arr rest h1 with
      | Except.error e => Except.error e
      | Except.ok (vs, h2) => Except.ok (v :: vs, h2)

/-- The expression `SD.ModelArrayHolder.create` with
`content: arr.map(f)`: the mapped items go into a fresh array,
which becomes the content of a fresh Collection. -/
def mapToHolder (f : Val → Heap → Except Err (Val × Heap)) (parent : Val) (path : String)
    (arr : Val) (h : Heap) : Except Err (Val × Heap) :=
  match mapItems f arr (List.range (elemsOf h arr).length) h with
  | Except.error e => Except.error e
  | Except.ok (vs, h1) =>
    let (content, h2) := alloc h1 { kind := Kind.array, fields := [], elems := vs }
    Except.ok (createHolder h2 parent path content)

/-- The loop of `_applyMapping` over the declared entries, `step` being
`_deepFindAndApply` on the instance. -/
def forEntries (step : String → ModelType → Heap → Except Err Heap) :
    List (String × ModelType) → Heap → Except Err Heap
  | [], h => Except.ok h
  | (prop, model) :: rest, h =>
    match step prop model h with
    | Except.error e => Except.error e
    | Except.ok h1 => forEntries step rest h1

mutual

def applyMapping (S : Mapping) : Nat → ModelType → Val → Heap → Except Err (Val × Heap)
  | 0, _, _, _ => Except.error Err.outOfFuel
  | n + 1, t, object, h =>
    let (appliedModel, h1) := instantiate h t object
    if isArray h object then
      mapToHolder (fun item hh => applyMappingForArray S n t item appliedModel "this" hh)
        appliedModel "this" object h1
    else _applyMapping S n t appliedModel h1

def _applyMapping (S : Mapping) : Nat → ModelType → Val → Heap → Except Err (Val × Heap)
  | 0, _, _, _ => Except.error Err.outOfFuel
  | n + 1, t, appliedModel, h =>
    match forEntries (fun prop model hh => _deepFindAndApply S n appliedModel prop model hh)
        (schemaOf S t) h with
    | Except.error e => Except.error e
    | Except.ok h1 => Except.ok (appliedModel, h1)

def applyMappingForArray (S : Mapping) :
    Nat → ModelType → Val → Val → String → Heap → Except Err (Val × Heap)
  | 0, _, _, _, _, _ => Except.error Err.outOfFuel
  | n + 1, t, object, p, path, h =>
    let (applied, h1) := createWithMixins h t object p path
    _applyMapping S n t applied h1

def _deepFindAndApply (S : Mapping) :
    Nat → Val → String → ModelType → Heap → Except Err Heap
  | 0, _, _, _, _ => Except.error Err.outOfFuel
  | n + 1, obj, path, model, h =>
    match findPath h obj path with
    | Except.error e => Except.error e
    | Except.ok current =>
      if !truthy current then Except.ok h
      else
        let r : Except Err (Val × Heap) :=
          if isObject current then
            (if isArray h current then
              mapToHolder (fun item hh => applyMappingForArray S n model item obj path hh)
                obj path current h
            else applyMapping S n model current h)
          else Except.ok (Val.undef, h)
        match r with
        | Except.error e => Except.error e
        | Except.ok (value, h1) => _setObjectPathToValue h1 obj value path

end

/-! ## Collections and self-removing elements -/

/-- The method `getArrayRef` of `SD.ModelArrayHolderMixin`:
`SD.Model.findPath(this._parent, this._path)`; a `TypeError` when `_path`
is not a string. -/
def getArrayRef (h : Heap) (self : Val) : Except Err Val :=
  match getProp h self "_parent", getProp h self "_path" with
  | Except.ok p, Except.ok (Val.str path) => findPath h p path
  | Except.error e, _ => Except.error e
  | _, Except.error e => Except.error e
  | _, _ => Except.error Err.typeError

/-- The array behind a collection: the `content` of an
`SD.ModelArrayHolder`, or a native array itself. -/
def contentOf (h : Heap) (coll : Val) : Except Err Nat :=
  match coll with
  | Val.ref c =>
    match h[c]? with
    | some o =>
      match o.kind with
      | Kind.array => Except.ok c
      | Kind.holder =>
        match lookup "content" o.fields with
        | Val.ref d => if isArray h (Val.ref d) then Except.ok d else Except.error Err.typeError
        | _ => Except.error Err.typeError
      | _ => Except.error Err.typeError
    | none => Except.error Err.typeError
  | _ => Except.error Err.typeError

/-- The items of a collection, in order. -/
def itemsOf (h : Heap) (coll : Val) : Except Err (List Val) :=
  match contentOf h coll with
  | Except.error e => Except.error e
  | Except.ok d => Except.ok (elemsOf h (Val.ref d))

/-- The call `coll.removeObject(x)`: every occurrence of the very object
`x` is taken out of the collection, the other items keep their order. -/
def removeObject (h : Heap) (coll x : Val) : Except Err Heap :=
  match contentOf h coll with
  | Except.error e => Except.error e
  | Except.ok d =>
    match h[d]? with
    | some o => Except.ok (h.set d { o with elems := o.elems.filter (fun y => y != x) })
    | none => Except.error Err.typeError

/-- The method `removeFromArray`: `this.getArrayRef().removeObject(this)`. -/
def removeFromArray (h : Heap) (self : Val) : Except Err Heap :=
  match getArrayRef h self with
  | Except.error e => Except.error e
  | Except.ok coll => removeObject h coll self

/-- The static state shared by all model types: the heap, the `_cache`
object and the `_mapping` object, both indexed by class key. -/
structure World where
  heap : Heap
  cache : List (String × Val)
  mapping : Mapping
  deriving DecidableEq, Repr

/-- The default `serialize`: the payload itself. -/
def serialize (payload : Val) (h : Heap) : Val × Heap := (payload, h)

/-- The static method `preload`, `ser` being the type's `serialize`. -/
def preload (ser : Val → Heap → Val × Heap) (w : World) (t : ModelType) (data : Val) : World :=
  let (d, h1) := ser data w.heap
  if isArray h1 d then
    { w with heap := h1, cache := setField t.key d w.cache }
  else
    let (arr, h2) := alloc h1 { kind := Kind.array, fields := [], elems := [d] }
    { w with heap := h2, cache := setField t.key arr w.cache }

def setEntry (k : String) (v : ModelType) :
    List (String × ModelType) → List (String × ModelType)
  | [] => [(k, v)]
  | (k', v') :: rest => if k' = k then (k', v) :: rest else (k', v') :: setEntry k v rest

def setSchema (k : String) (es : List (String × ModelType)) : Mapping → Mapping
  | [] => [(k, es)]
  | (k', es') :: rest => if k' = k then (k', es) :: rest else (k', es') :: setSchema k es rest

/-- The static method `map`: declare `key -> type` in the schema of `t`;
the result is the new `_mapping` and `t` itself. -/
def map (w : World) (t : ModelType) (key : String) (type : ModelType) : World × ModelType :=
  ({ w with mapping := setSchema t.key (setEntry key type (schemaOf w.mapping t)) w.mapping }, t)

/-- The static method `invalidateCache`. -/
def invalidateCache (w : World) (t : ModelType) : World :=
  let (arr, h1) := alloc w.heap { kind := Kind.array, fields := [], elems := [] }
  { w with heap := h1, cache := setField t.key arr w.cache }

/-- The callback `find` hands to the cache scan: the item itself when no id
was given, `item.id && item.id === id` otherwise. -/
def matchesId (h : Heap) (id item : Val) : Except Err Bool :=
  if id = Val.undef then Except.ok (truthy item)
  else
    match getProp h item "id" with
    | Except.error e => Except.error e
    | Except.ok v => Except.ok (truthy v && decide (v = id))

/-- The call `items.find(callback)`: the first item the callback accepts,
`undefined` when there is none. -/
def scanCache (h : Heap) (id : Val) : List Val → Except Err Val
  | [] => Except.ok Val.undef
  | item :: rest =>
    match matchesId h id item with
    | Except.error e => Except.error e
    | Except.ok true => Except.ok item
    | Except.ok false => scanCache h id rest

/-- The first statement of `find`: an empty array becomes the cache entry of
the type when it has none. -/
def ensureCache (w : World) (t : ModelType) : World :=
  if truthy (lookup t.key w.cache) then w
  else
    let (arr, h1) := alloc w.heap { kind := Kind.array, fields := [], elems := [] }
    { w with heap := h1, cache := setField t.key arr w.cache }

/-- What a call of `find` did: the argument lists it passed to the
`findRecord` collaborator, in order, and how its promise settled. -/
structure FindResult where
  calls : List (List Val)
  outcome : Except Err (Val × World)

/-- The static method `find`, called with the argument list `args` (the id is
the first argument, `undefined` when there is none).  `findRecord` is the
type's collaborator: it yields the raw result of the fetch, or rejects. -/
def find (findRecord : List Val → Heap → Except Err (Val × Heap)) (fuel : Nat)
    (w : World) (t : ModelType) (args : List Val) : FindResult :=
  let id := args.headD Val.undef
  let w1 := ensureCache w t
  match scanCache w1.heap id (elemsOf w1.heap (lookup t.key w1.cache)) with
  | Except.error e => { calls := [], outcome := Except.error e }
  | Except.ok object =>
    if truthy object then
      match applyMapping w1.mapping fuel t object w1.heap with
      | Except.error e => { calls := [], outcome := Except.error e }
      | Except.ok (r, h2) => { calls := [], outcome := Except.ok (r, { w1 with heap := h2 }) }
    else
      match findRecord args w1.heap with
      | Except.error e => { calls := [args], outcome := Except.error e }
      | Except.ok (result, h2) =>
        match applyMapping w1.mapping fuel t result h2 with
        | Except.error e => { calls := [args], outcome := Except.error e }
        | Except.ok (r, h3) => { calls := [args], outcome := Except.ok (r, { w1 with heap := h3 }) }

/-! ## Footprints

A footprint is a set `F` of addresses of the heap `h0` an operation starts
from.  `Inv F h0 h` says that the heap `h` the operation has reached still
has every cell of `h0` with its kind, has not touched a cell of `h0` outside
`F`, and that the cells of `F` and the cells allocated since refer only to
cells of `F` and to cells allocated since. -/

/-- A value that is a primitive, a cell of the footprint or a cell allocated
since the heap had `n0` cells. -/
def InG (F : Nat → Prop) (n0 : Nat) (v : Val) : Prop :=
  ∀ a, v = Val.ref a → F a ∨ n0 ≤ a

/-- A cell all of whose fields and elements are `InG`. -/
def CellIn (F : Nat → Prop) (n0 : Nat) (o : Obj) : Prop :=
  (∀ kv ∈ o.fields, InG F n0 kv.2) ∧ (∀ v ∈ o.elems, InG F n0 v)

structure Inv (F : Nat → Prop) (h0 h : Heap) : Prop where
  len : h0.length ≤ h.length
  kind : ∀ (a : Nat) (o : Obj), h0[a]? = some o → ∃ o2 : Obj, h[a]? = some o2 ∧ o2.kind = o.kind
  frame : ∀ a : Nat, a < h0.length → ¬ F a → h[a]? = h0[a]?
  closed : ∀ (a : Nat) (o : Obj), h[a]? = some o → (F a ∨ h0.length ≤ a) → CellIn F h0.length o

def valIn (F : List Nat) : Val → Bool
  | Val.ref b => F.contains b
  | _ => true

/-- A footprint of `h`: a list of valid addresses closed under the
references of their cells. -/
def closedIn (h : Heap) (F : List Nat) : Bool :=
  F.all fun a =>
    match h[a]? with
    | some o => o.fields.all (fun kv => valIn F kv.2) && o.elems.all (valIn F)
    | none => false

/-- The cells `findPath` reads a property of, in order, on its way from
`obj` along the segments. -/
def pathCells (h : Heap) : Val → List String → List Nat
  | _, [] => []
  | Val.ref c, seg :: rest =>
    c :: (match h[c]? with
      | some o => pathCells h (o.get seg) rest
      | none => [])
  | _, _ :: _ => []

/-- An operation that keeps the footprint invariant and yields an `InG`
value. -/
def Pres (F : Nat → Prop) (h0 : Heap) (f : Heap → Except Err (Val × Heap)) : Prop :=
  ∀ h r h2, Inv F h0 h → f h = Except.ok (r, h2) → Inv F h0 h2 ∧ InG F h0.length r

/-! ## Scenario data -/

def User : ModelType := ⟨0, "User"⟩

def Address : ModelType := ⟨1, "Address"⟩

def emptyWorld : World := { heap := [], cache := [], mapping := [] }

/-- The schema after `User.map("address", Address)`. -/
def userSchema : Mapping := (map emptyWorld User "address" Address).1.mapping

/-- The payload `{id: 1, address: {city: "X"}}`, at address 0. -/
def userPayload : Heap :=
  [ { kind := Kind.plain, fields := [("id", Val.num 1), ("address", Val.ref 1)], elems := [] },
    { kind := Kind.plain, fields := [("city", Val.str "X")], elems := [] } ]

/-- The payload `{id: 1, address: "X"}`, at address 0. -/
def userPayloadText : Heap :=
  [ { kind := Kind.plain, fields := [("id", Val.num 1), ("address", Val.str "X")], elems := [] } ]

def Team : ModelType := ⟨2, "Team"⟩

/-- The schema after `Team.map("members", Address)`. -/
def teamSchema : Mapping := (map emptyWorld Team "members" Address).1.mapping

/-- An instance of `Team` at address 0 whose `members` is the raw array
`[{city: "X"}, {city: "Y"}]`. -/
def teamHeap : Heap :=
  [ { kind := Kind.inst 2 false, fields := [("name", Val.str "A"), ("members", Val.ref 1)],
      elems := [] },
    { kind := Kind.array, fields := [], elems := [Val.ref 2, Val.ref 3] },
    { kind := Kind.plain, fields := [("city", Val.str "X")], elems := [] },
    { kind := Kind.plain, fields := [("city", Val.str "Y")], elems := [] } ]

/-- The payload `[{id: 1}, {id: 2}]`, at address 0. -/
def pairPayload : Heap :=
  [ { kind := Kind.array, fields := [], elems := [Val.ref 1, Val.ref 2] },
    { kind := Kind.plain, fields := [("id", Val.num 1)], elems := [] },
    { kind := Kind.plain, fields := [("id", Val.num 2)], elems := [] } ]

/-- The world after `Team.preload([{id: 1}, {id: 2}])`. -/
def preloadedWorld : World :=
  preload serialize { heap := pairPayload, cache := [], mapping := [] } Team (Val.ref 0)

/-- The world after `Team.preload([{id: 0}])`. -/
def zeroIdWorld : World :=
  preload serialize
    { heap := [ { kind := Kind.array, fields := [], elems := [Val.ref 1] },
                { kind := Kind.plain, fields := [("id", Val.num 0)], elems := [] } ],
      cache := [], mapping := [] } Team (Val.ref 0)

/-- A `findRecord` collaborator that fetches the record `{id: <first argument>}`. -/
def fetchStub (args : List Val) (h : Heap) : Except Err (Val × Heap) :=
  Except.ok (alloc h { kind := Kind.plain, fields := [("id", args.headD Val.undef)], elems := [] })

/-- Two distinct classes that coerce to the same property key. -/
def AnonA : ModelType := ⟨10, "(unknown mixin)"⟩

def AnonB : ModelType := ⟨11, "(unknown mixin)"⟩

/-- The world in which `User.map("address", Address)` has been declared and
the payload `{address: {geo: {}}}` sits at address 0. -/
def geoWorld : World :=
  { heap := [ { kind := Kind.plain, fields := [("address", Val.ref 1)], elems := [] },
              { kind := Kind.plain, fields := [("geo", Val.ref 2)], elems := [] },
              { kind := Kind.plain, fields := [], elems := [] } ],
    cache := [], mapping := userSchema }

/-- The kind of object found at `path` in the result of
`t.applyMapping(payload)`, run in the world `w`. -/
def mappedKindAt (w : World) (fuel : Nat) (t : ModelType) (payload : Val) (path : String) :
    Option Kind :=
  match applyMapping w.mapping fuel t payload w.heap with
  | Except.ok (r, h2) =>
    match findPath h2 r path with
    | Except.ok v => kindOf h2 v
    | Except.error _ => none
  | Except.error _ => none

/-! ## Well-formed heaps and the resolver as the spec words it -/

/-- A value that is a primitive or refers to a cell of the heap. -/
def validVal (h : Heap) : Val → Bool
  | Val.ref a => decide (a < h.length)
  | _ => true

/-- A heap none of whose cells refers outside the heap. -/
def wellFormed (h : Heap) : Bool :=
  h.all fun o => o.fields.all (fun kv => validVal h kv.2) && o.elems.all (validVal h)

/-- Follows the spec's words: the value reached from `root` by reading the
segments one after the other; nothing (`undefined`) is reached through
`undefined` or `null`. -/
def reached (h : Heap) : Val → List String → Val
  | v, [] => v
  | v, seg :: rest =>
    match getProp h v seg with
    | Except.ok w => reached h w rest
    | Except.error _ => Val.undef

/-- Follows the spec's words: the result of `resolve(root, path)` is absent
as soon as the value reached by some non-empty prefix of the segments is
`undefined` or `null`, and is the value reached by all the segments
otherwise. -/
def resolveSpec (h : Heap) (root : Val) (segs : List String) : Val :=
  if (List.range segs.length).any (fun i => isNullish (reached h root (segs.take (i + 1))))
  then Val.undef
  else reached h root segs

/-- The payload `{a: {n: 0, s: "", f: false, z: null}}`, at address 0. -/
def falsyPayload : Heap :=
  [ { kind := Kind.plain, fields := [("a", Val.ref 1)], elems := [] },
    { kind := Kind.plain,
      fields := [("n", Val.num 0), ("s", Val.str ""), ("f", Val.bool false), ("z", Val.null)],
      elems := [] } ]

/-- Whether `_setObjectPathToValue` can assign through the segments from
`x`: every segment but the last leads from an object to an object, and the
last one is not the `length` of an array. -/
def assignable (h : Heap) : Val → List String → Bool
  | _, [] => false
  | Val.ref c, [last] =>
    match h[c]? with
    | some o => !(o.kind == Kind.array && last == "length")
    | none => false
  | Val.ref c, seg :: rest =>
    match h[c]? with
    | some o => assignable h (o.get seg) rest
    | none => false
  | _, _ :: _ => false

/-- An object that is its own `a`: `root.a === root`. -/
def selfLoop : Heap :=
  [ { kind := Kind.plain, fields := [("a", Val.ref 0)], elems := [] } ]

/-- Whether `x` is an instance of `t` that is completely mapped, to the
nesting depth `n`: every declared path of its type is falsy in it or holds an
instance of the target type that is completely mapped in turn. -/
def mapped (S : Mapping) (h : Heap) : Nat → ModelType → Val → Bool
  | 0, _, _ => false
  | n + 1, t, x =>
    isInstanceOf h x t &&
    (schemaOf S t).all fun e =>
      match findPath h x e.1 with
      | Except.ok v => !truthy v || mapped S h n e.2 v
      | Except.error _ => false

/-- The payload `{name: "A", members: [{city: "X"}]}`, at address 0. -/
def teamPayload : Heap :=
  [ { kind := Kind.plain, fields := [("name", Val.str "A"), ("members", Val.ref 1)],
      elems := [] },
    { kind := Kind.array, fields := [], elems := [Val.ref 2] },
    { kind := Kind.plain, fields := [("city", Val.str "X")], elems := [] } ]

/-- The read `this._mapping[this][path]` in the entries of a schema. -/
def targetOf : List (String × ModelType) → String → Option ModelType
  | [], _ => none
  | (k, t) :: rest, p => if k = p then some t else targetOf rest p

/-! ## The Collection invariant -/

/-- The keys the engine writes that hold references: `_parent` and
`content`. -/
def reserved (k : String) : Bool := k == "_parent" || k == "content"

/-- A schema whose declared paths name payload fields: no segment of a
declared path is `_parent` or `content`. -/
def plainPaths (S : Mapping) : Bool :=
  S.all fun e => e.2.all fun pe => (split pe.1).all fun s => !reserved s

/-- A value that is a primitive, or a reference to one of the first `n`
cells whose rank is below `bound`. -/
def refBelow (rk : Nat → Nat) (n bound : Nat) : Val → Bool
  | Val.ref d => decide (d < n) && decide (rk d < bound)
  | _ => true

/-- The rank of a value: the rank of the cell it refers to, 0 for a
primitive. -/
def base (rk : Nat → Nat) : Val → Nat
  | Val.ref d => rk d
  | _ => 0

/-- The property `ranked` as a statement about each cell. -/
def Ranked (rk : Nat → Nat) (h : Heap) : Prop :=
  ∀ (c : Nat) (o : Obj), h[c]? = some o →
    (∀ kv ∈ o.fields, reserved kv.1 = false → refBelow rk h.length (rk c) kv.2 = true) ∧
    (∀ v ∈ o.elems, refBelow rk h.length (rk c) v = true)

def Member : ModelType := ⟨3, "Member"⟩

/-- The first list of segments starts the second (or equals it). -/
def startsWith : List String → List String → Bool
  | [], _ => true
  | _ :: _, [] => false
  | a :: as, b :: bs => a == b && startsWith as bs

/-- The declared paths are pairwise apart: none equals, or is a segment-wise
beginning of, another. -/
def pathsApart : List (String × ModelType) → Bool
  | [] => true
  | e :: rest =>
    rest.all (fun e2 => !startsWith (split e.1) (split e2.1) &&
      !startsWith (split e2.1) (split e.1)) && pathsApart rest

/-- The schema after `User.map("a.c", Address)` and `User.map("b.c", Team)`. -/
def aliasSchemaAB : Mapping :=
  (map (map emptyWorld User "a.c" Address).1 User "b.c" Team).1.mapping

/-- The schema after `User.map("b.c", Team)` and `User.map("a.c", Address)`:
the same entries, iterated in the other order. -/
def aliasSchemaBA : Mapping :=
  (map (map emptyWorld User "b.c" Team).1 User "a.c" Address).1.mapping

/-- An instance of `User` at address 0 whose fields `a` and `b` hold the same
object `{c: {n: 1}}`. -/
def aliasHeap : Heap :=
  [ { kind := Kind.inst 0 false, fields := [("a", Val.ref 1), ("b", Val.ref 1)], elems := [] },
    { kind := Kind.plain, fields := [("c", Val.ref 2)], elems := [] },
    { kind := Kind.plain, fields := [("n", Val.num 1)], elems := [] } ]

/-! ## The same run, later in the heap

The objects a run allocates sit at the end of the heap, so the same run
started later, from a heap holding `δ` more cells, produces the same objects
`δ` addresses further up.  `shift n0 δ` is the renaming of addresses that
says so: the `n0` cells of the heap both runs started from keep their
address, the cells allocated since move up by `δ`. -/

def shift (n0 δ : Nat) (a : Nat) : Nat := if a < n0 then a else a + δ

def renVal (n0 δ : Nat) : Val → Val
  | Val.ref a => Val.ref (shift n0 δ a)
  | v => v

def renCell (n0 δ : Nat) (o : Obj) : Obj :=
  { kind := o.kind,
    fields := o.fields.map (fun kv => (kv.1, renVal n0 δ kv.2)),
    elems := o.elems.map (renVal n0 δ) }

/-- A value of the region a run works in: a primitive, a cell of the
footprint `F` or a cell allocated since the heap had `n0` cells; `len` is
the length of the heap. -/
def ValG (F : List Nat) (n0 len : Nat) (v : Val) : Prop :=
  ∀ a, v = Val.ref a → (a ∈ F ∨ n0 ≤ a) ∧ a < len

/-- A cell whose fields, the back reference `_parent` apart, and whose
elements are values of the region. -/
def CellG (F : List Nat) (n0 len : Nat) (o : Obj) : Prop :=
  (∀ kv ∈ o.fields, kv.1 ≠ "_parent" → ValG F n0 len kv.2) ∧
  (∀ v ∈ o.elems, ValG F n0 len v)

/-- The heap `h2` holds, `δ` addresses further up, the region of `h` a run
works in. -/
structure Sim (F : List Nat) (n0 δ : Nat) (h h2 : Heap) : Prop where
  len : h2.length = h.length + δ
  start : n0 ≤ h.length
  old : ∀ a ∈ F, a < n0
  cell : ∀ (a : Nat) (o : Obj), h[a]? = some o → (a ∈ F ∨ n0 ≤ a) →
    h2[shift n0 δ a]? = some (renCell n0 δ o) ∧ CellG F n0 h.length o

/-- Outside the region nothing has changed between `h` and `h2`. -/
def Outside (F : List Nat) (n0 δ : Nat) (h h2 : Heap) : Prop :=
  h.length ≤ h2.length ∧ ∀ b : Nat, b < n0 + δ → b ∉ F → h2[b]? = h[b]?

/-- Two runs that did the same, the second `δ` addresses further up. -/
def SimV (F : List Nat) (n0 δ : Nat) (h h' : Heap)
    (res res' : Except Err (Val × Heap)) : Prop :=
  match res with
  | Except.ok (r, h2) =>
    ∃ h2', res' = Except.ok (renVal n0 δ r, h2') ∧ Sim F n0 δ h2 h2' ∧
      ValG F n0 h2.length r ∧ Outside F n0 δ h' h2' ∧ h.length ≤ h2.length
  | Except.error e => res' = Except.error e

def SimH (F : List Nat) (n0 δ : Nat) (h h' : Heap) (res res' : Except Err Heap) : Prop :=
  match res with
  | Except.ok h2 =>
    ∃ h2', res' = Except.ok h2' ∧ Sim F n0 δ h2 h2' ∧ Outside F n0 δ h' h2' ∧
      h.length ≤ h2.length
  | Except.error e => res' = Except.error e

def SimL (F : List Nat) (n0 δ : Nat) (h h' : Heap)
    (res res' : Except Err (List Val × Heap)) : Prop :=
  match res with
  | Except.ok (vs, h2) =>
    ∃ h2', res' = Except.ok (vs.map (renVal n0 δ), h2') ∧ Sim F n0 δ h2 h2' ∧
      (∀ v ∈ vs, ValG F n0 h2.length v) ∧ Outside F n0 δ h' h2' ∧ h.length ≤ h2.length
  | Except.error e => res' = Except.error e

/-! ## What a mapped instance looks like

The addresses of the objects a run allocates depend on what was allocated
before; what a program can observe is the tree below a value: kinds, keys
and values, with the engine's own back reference `_parent` not followed. -/

inductive Tree where
  | prim (v : Val)
  | up
  | cut
  | node (kind : Kind) (fields : List (String × Tree)) (elems : List Tree)

/-- What is shown of the value of `_parent`: a primitive as it is, a
reference as `up`. -/
def hide : Val → Tree
  | Val.ref _ => Tree.up
  | v => Tree.prim v

/-- The tree below a value, `d` references deep. -/
def view (h : Heap) : Nat → Val → Tree
  | 0, Val.ref _ => Tree.cut
  | d + 1, Val.ref a =>
    match h[a]? with
    | some o =>
      Tree.node o.kind
        (o.fields.map fun kv =>
          (kv.1, if kv.1 = "_parent" then hide kv.2 else view h d kv.2))
        (o.elems.map fun v => view h d v)
    | none => Tree.cut
  | _, v => Tree.prim v

/-- The heap `h2` holds, `δ` addresses further up, the cells of the region
of `hs`. -/
def Region (F : List Nat) (n0 δ : Nat) (hs h2 : Heap) : Prop :=
  ∀ (a : Nat) (o : Obj), hs[a]? = some o → (a ∈ F ∨ n0 ≤ a) →
    h2[shift n0 δ a]? = some (renCell n0 δ o) ∧ CellG F n0 hs.length o

/-- The nested call of `_deepFindAndApply` on the value `cur` found at the
path: a Collection for an array, `applyMapping` for another object,
`undefined` for a primitive. -/
def nested (S : Mapping) (n : Nat) (model : ModelType) (obj : Val) (path : String) (cur : Val)
    (h : Heap) : Except Err (Val × Heap) :=
  if isObject cur then
    (if isArray h cur then
      mapToHolder (fun item hh => applyMappingForArray S n model item obj path hh)
        obj path cur h
    else applyMapping S n model cur h)
  else Except.ok (Val.undef, h)

/-! ## The reads of a declared path -/

/-- The reads `findPath` makes on its way from a value along the segments:
the cell read and the key, in order. -/
def steps (h : Heap) : Val → List String → List (Nat × String)
  | _, [] => []
  | Val.ref a, seg :: rest =>
    (a, seg) :: (match h[a]? with
      | some o => steps h (o.get seg) rest
      | none => [])
  | _, _ :: _ => []

/-- The last read of a declared path from the object at `c`: when the path
leads to a value, the field `_setObjectPathToValue` assigns. -/
def target (h : Heap) (c : Nat) (path : String) : Option (Nat × String) :=
  (steps h (Val.ref c) (split path)).getLast?

/-- What `findPath` returns when its last read yields `v`. -/
def asFound (v : Val) : Val := if isNullish v then Val.undef else v

/-- The declared paths of the entries `es` cross an object graph below the
object at `c` that is tidy: every path can be read; the objects read on the
way are not arrays; the footprint `fp` of each entry, a set of cells closed
under references, holds the value the path leads to; no footprint holds a
cell of another footprint or an object read on the way of a declared path;
and an entry that leads to a value assigns a field that no declared path
reads on its way. -/
structure Tidy (h : Heap) (c : Nat) (fp : String → List Nat)
    (es : List (String × ModelType)) : Prop where
  closed : ∀ e ∈ es, closedIn h (fp e.1) = true
  found : ∀ e ∈ es, ∃ cur, findPath h (Val.ref c) e.1 = Except.ok cur ∧
    valIn (fp e.1) cur = true
  spine : ∀ e ∈ es, ∀ p ∈ steps h (Val.ref c) (split e.1),
    (∃ o, h[p.1]? = some o ∧ o.kind ≠ Kind.array) ∧ ∀ e2 ∈ es, p.1 ∉ fp e2.1
  disj : ∀ e ∈ es, ∀ e2 ∈ es, e2.1 ≠ e.1 → ∀ a ∈ fp e.1, a ∉ fp e2.1
  other : ∀ e ∈ es, ∀ cur, findPath h (Val.ref c) e.1 = Except.ok cur → truthy cur = true →
    ∀ e2 ∈ es, e2.1 ≠ e.1 → ∀ p ∈ steps h (Val.ref c) (split e2.1), target h c e.1 ≠ some p
  inner : ∀ e ∈ es, ∀ cur, findPath h (Val.ref c) e.1 = Except.ok cur → truthy cur = true →
    ∀ p ∈ (steps h (Val.ref c) (split e.1)).dropLast, target h c e.1 ≠ some p

/-- The state of the loop of `_applyMapping` over the entries, started on
the object at `c` of the heap `h`, when the entries `done` have assigned
their field and the entries `todo` are still to come: the objects on the way
of the declared paths are as they were but for the fields assigned, the
footprints still to be mapped are as they were, and each field assigned
holds, some addresses further up, what `_deepFindAndApply` alone puts there
when run on `h`. -/
structure Loop (S : Mapping) (n : Nat) (h : Heap) (c : Nat) (fp : String → List Nat)
    (all done todo : List (String × ModelType)) (H : Heap) : Prop where
  len : h.length ≤ H.length
  spine : ∀ e ∈ all, ∀ p ∈ steps h (Val.ref c) (split e.1), ∃ o o2,
    h[p.1]? = some o ∧ H[p.1]? = some o2 ∧ o2.kind = o.kind ∧
    ∀ k, (∀ e2 ∈ done, target h c e2.1 ≠ some (p.1, k)) → o2.get k = o.get k
  rest : ∀ e ∈ todo, ∀ a ∈ fp e.1, H[a]? = h[a]?
  past : ∀ e ∈ done, ∃ (hs : Heap) (δ : Nat) (v : Val) (P : Nat) (last : String) (o2 : Obj),
    _deepFindAndApply S n (Val.ref c) e.1 e.2 h = Except.ok hs ∧
    Region (fp e.1) h.length δ hs H ∧
    findPath hs (Val.ref c) e.1 = Except.ok v ∧
    target h c e.1 = some (P, last) ∧ H[P]? = some o2 ∧
    asFound (o2.get last) = renVal h.length δ v ∧
    ValG (fp e.1) h.length hs.length v ∧ hs.length + δ ≤ H.length ∧
    ∃ cur, findPath h (Val.ref c) e.1 = Except.ok cur ∧ truthy cur = true

/-- The reads of `steps`, each with the segments read before it: the cell
read, the path that led to it, and the key. -/
def reads (h : Heap) : Val → List String → List String → List (Nat × List String × String)
  | _, [], _ => []
  | Val.ref a, seg :: rest, pre =>
    (a, pre, seg) :: (match h[a]? with
      | some o => reads h (o.get seg) rest (pre ++ [seg])
      | none => [])
  | _, _ :: _, _ => []

/-- The object at `c` is the root of a tree, as far as the declared paths
go: every declared path can be read; the objects read on the way are not
arrays, and none of them is reached by two different paths; the footprint
`fp` of each entry, a set of cells closed under references, holds the value
the path leads to; no footprint holds an object read on the way of a
declared path or a cell of the footprint of another entry. -/
def onTree (h : Heap) (c : Nat) (fp : String → List Nat)
    (es : List (String × ModelType)) : Bool :=
  es.all fun e =>
    closedIn h (fp e.1) &&
    (match findPath h (Val.ref c) e.1 with
     | Except.ok cur => valIn (fp e.1) cur
     | Except.error _ => false) &&
    (reads h (Val.ref c) (split e.1) []).all (fun r =>
      (match h[r.1]? with
       | some o => (match o.kind with
         | Kind.array => false
         | _ => true)
       | none => false) &&
      es.all (fun e2 => !(fp e2.1).contains r.1)) &&
    es.all (fun e2 => e2.1 == e.1 || (fp e.1).all (fun a => !(fp e2.1).contains a)) &&
    es.all (fun e2 =>
      (reads h (Val.ref c) (split e.1) []).all fun r =>
        (reads h (Val.ref c) (split e2.1) []).all fun r2 => r.1 != r2.1 || r.2.1 == r2.2.1)

/-- The schema after `User.map("address.geo", Address)`,
`User.map("address.owner", Team)` and `User.map("friends", Member)`. -/
def treeSchema : Mapping :=
  (map (map (map emptyWorld User "address.geo" Address).1 User "address.owner" Team).1
    User "friends" Member).1.mapping

/-- An instance of `User` at address 0 made from the payload
`{id: 1, address: {city: "X", geo: {lat: 5}, owner: {name: "O"}},
friends: [{name: "B"}]}`. -/
def treeHeap : Heap :=
  [ { kind := Kind.inst 0 false,
      fields := [("id", Val.num 1), ("address", Val.ref 1), ("friends", Val.ref 4)],
      elems := [] },
    { kind := Kind.plain,
      fields := [("city", Val.str "X"), ("geo", Val.ref 2), ("owner", Val.ref 3)],
      elems := [] },
    { kind := Kind.plain, fields := [("lat", Val.num 5)], elems := [] },
    { kind := Kind.plain, fields := [("name", Val.str "O")], elems := [] },
    { kind := Kind.array, fields := [], elems := [Val.ref 5] },
    { kind := Kind.plain, fields := [("name", Val.str "B")], elems := [] } ]

/-- The cells below the values the declared paths of `treeSchema` lead to in
`treeHeap`. -/
def treeFp (path : String) : List Nat :=
  if path = "address.geo" then [2]
  else if path = "address.owner" then [3]
  else if path = "friends" then [4, 5]
  else []

/-! ## Basic facts about fields and cells -/

theorem InG_prim {F : Nat → Prop} {n0 : Nat} {v : Val} (hv : ∀ a, v ≠ Val.ref a) :
    InG F n0 v := fun a ha => absurd ha (hv a)

theorem InG_lookup {F : Nat → Prop} {n0 : Nat} (k : String) (fs : List (String × Val))
    (hfs : ∀ kv ∈ fs, InG F n0 kv.2) : InG F n0 (lookup k fs) := by
  induction fs with
  | nil => exact InG_prim (fun a => by simp [lookup])
  | cons kv rest ih =>
    obtain ⟨k', v⟩ := kv
    unfold lookup
    split
    · exact hfs (k', v) (List.mem_cons_self _ _)
    · exact ih (fun kv hkv => hfs kv (List.mem_cons_of_mem _ hkv))

theorem InG_setField {F : Nat → Prop} {n0 : Nat} (k : String) (v : Val)
    (fs : List (String × Val)) (hfs : ∀ kv ∈ fs, InG F n0 kv.2) (hv : InG F n0 v) :
    ∀ kv ∈ setField k v fs, InG F n0 kv.2 := by
  induction fs with
  | nil =>
    intro kv hkv
    simp [setField] at hkv
    subst hkv
    exact hv
  | cons kv0 rest ih =>
    obtain ⟨k', v'⟩ := kv0
    intro kv hkv
    unfold setField at hkv
    split at hkv
    · rcases List.mem_cons.mp hkv with h1 | h1
      · subst h1; exact hv
      · exact hfs kv (List.mem_cons_of_mem _ h1)
    · rcases List.mem_cons.mp hkv with h1 | h1
      · subst h1; exact hfs (k', v') (List.mem_cons_self _ _)
      · exact ih (fun kv hkv => hfs kv (List.mem_cons_of_mem _ hkv)) kv h1

theorem lookup_setField (k : String) (v : Val) (fs : List (String × Val)) :
    lookup k (setField k v fs) = v := by
  induction fs with
  | nil => simp [setField, lookup]
  | cons kv rest ih =>
    obtain ⟨k', v'⟩ := kv
    by_cases hk : k' = k
    · simp [setField, lookup, hk]
    · simp [setField, lookup, hk, ih]

theorem lookup_setField_ne (k k2 : String) (v : Val) (fs : List (String × Val)) (hne : k2 ≠ k) :
    lookup k2 (setField k v fs) = lookup k2 fs := by
  induction fs with
  | nil => simp [setField, lookup, Ne.symm hne]
  | cons kv rest ih =>
    obtain ⟨k', v'⟩ := kv
    by_cases hk : k' = k
    · subst hk
      simp [setField, lookup, Ne.symm hne]
    · by_cases hk2 : k' = k2
      · subst hk2
        simp [setField, lookup, hk]
      · simp [setField, lookup, hk, hk2, ih]

theorem kind_put (o : Obj) (k : String) (v : Val) : (o.put k v).kind = o.kind := by
  unfold Obj.put
  split
  · split
    · split <;> rfl
    · rfl
  · rfl

theorem InG_get {F : Nat → Prop} {n0 : Nat} (o : Obj) (k : String) (ho : CellIn F n0 o) :
    InG F n0 (o.get k) := by
  unfold Obj.get
  split
  · split
    · exact InG_prim (fun a => by simp)
    · split
      · rename_i i _
        intro a ha
        by_cases hi : i < o.elems.length
        · have hmem : o.elems.getD i Val.undef ∈ o.elems := by
            rw [List.getD_eq_getElem _ _ hi]
            exact List.getElem_mem _
          exact ho.2 _ hmem a ha
        · rw [List.getD_eq_default _ _ (Nat.le_of_not_lt hi)] at ha
          cases ha
      · exact InG_lookup k _ ho.1
  · exact InG_lookup k _ ho.1

theorem CellIn_put {F : Nat → Prop} {n0 : Nat} (o : Obj) (k : String) (v : Val)
    (ho : CellIn F n0 o) (hv : InG F n0 v) : CellIn F n0 (o.put k v) := by
  unfold Obj.put
  split
  · split
    · split
      · refine ⟨ho.1, ?_⟩
        intro x hx
        rcases List.mem_or_eq_of_mem_set hx with h1 | h1
        · exact ho.2 x h1
        · subst h1; exact hv
      · refine ⟨ho.1, ?_⟩
        intro x hx
        simp only [List.mem_append, List.mem_replicate, List.mem_singleton] at hx
        rcases hx with (h1 | h1) | h1
        · exact ho.2 x h1
        · rw [h1.2]; exact InG_prim (fun a => by simp)
        · subst h1; exact hv
    · exact ⟨InG_setField k v _ ho.1 hv, ho.2⟩
  · exact ⟨InG_setField k v _ ho.1 hv, ho.2⟩

theorem get_put_self (o : Obj) (k : String) (v : Val) (a : Nat) (hget : o.get k = Val.ref a) :
    (o.put k v).get k = v := by
  obtain ⟨kind, fields, elems⟩ := o
  cases kind with
  | array =>
    simp only [Obj.get] at hget
    by_cases hlen : k = "length"
    · simp [hlen] at hget
    · simp only [hlen, if_false] at hget
      cases hi : arrayIndex k with
      | none => simp [Obj.get, Obj.put, hi, hlen, lookup_setField]
      | some i =>
        simp only [hi] at hget
        have hlt : i < elems.length := by
          by_contra hcon
          rw [List.getD_eq_default _ _ (Nat.le_of_not_lt hcon)] at hget
          cases hget
        simp [Obj.get, Obj.put, hi, hlen, hlt]
  | plain => simp [Obj.get, Obj.put, lookup_setField]
  | inst ty m => simp [Obj.get, Obj.put, lookup_setField]
  | holder => simp [Obj.get, Obj.put, lookup_setField]

/-! ## The footprint invariant through the primitive operations -/

theorem getElem?_lt {h : Heap} {a : Nat} {o : Obj} (hget : h[a]? = some o) : a < h.length := by
  obtain ⟨hlt, _⟩ := List.getElem?_eq_some_iff.mp hget
  exact hlt

theorem Inv.cell {F : Nat → Prop} {h0 h : Heap} (hI : Inv F h0 h) {a : Nat} {o : Obj}
    (hx : InG F h0.length (Val.ref a)) (hget : h[a]? = some o) : CellIn F h0.length o :=
  hI.closed a o hget (hx a rfl)

theorem Inv.getProp {F : Nat → Prop} {h0 h : Heap} (hI : Inv F h0 h) {x v : Val} {k : String}
    (hx : InG F h0.length x) (hg : getProp h x k = Except.ok v) : InG F h0.length v := by
  unfold SD.getProp at hg
  split at hg
  · cases hg
  · cases hg
  · split at hg
    · rename_i a o ho
      cases hg
      exact InG_get o k (hI.cell hx ho)
    · cases hg
  · cases hg
    exact InG_prim (fun a => by simp)

theorem Inv.setCell {F : Nat → Prop} {h0 h : Heap} (hI : Inv F h0 h) {a : Nat} {o o2 : Obj}
    (hx : InG F h0.length (Val.ref a)) (hget : h[a]? = some o) (hk : o2.kind = o.kind)
    (ho2 : CellIn F h0.length o2) : Inv F h0 (h.set a o2) := by
  refine ⟨by simpa using hI.len, ?_, ?_, ?_⟩
  · intro a0 o0 h0get
    obtain ⟨o', ho', hkind⟩ := hI.kind a0 o0 h0get
    by_cases ha : a = a0
    · subst ha
      refine ⟨o2, ?_, ?_⟩
      · rw [List.getElem?_set]; simp [getElem?_lt hget]
      · rw [hk]
        rw [hget] at ho'
        cases ho'
        exact hkind
    · exact ⟨o', by rw [List.getElem?_set_ne ha]; exact ho', hkind⟩
  · intro a0 hlt hF
    have hne : a ≠ a0 := by
      intro heq
      subst heq
      rcases hx a rfl with h1 | h1
      · exact hF h1
      · omega
    rw [List.getElem?_set_ne hne]
    exact hI.frame a0 hlt hF
  · intro a0 o0 hget0 hG
    by_cases ha : a = a0
    · subst ha
      rw [List.getElem?_set] at hget0
      simp [getElem?_lt hget] at hget0
      subst hget0
      exact ho2
    · rw [List.getElem?_set_ne ha] at hget0
      exact hI.closed a0 o0 hget0 hG

theorem Inv.setProp {F : Nat → Prop} {h0 h h2 : Heap} (hI : Inv F h0 h) {x v : Val}
    {k : String} (hx : InG F h0.length x) (hv : InG F h0.length v)
    (hs : setProp h x k v = Except.ok h2) : Inv F h0 h2 := by
  unfold SD.setProp at hs
  split at hs
  · split at hs
    · rename_i a o ho
      cases hs
      exact hI.setCell hx ho (kind_put o k v) (CellIn_put o k v (hI.cell hx ho) hv)
    · cases hs
  · cases hs

theorem Inv.alloc {F : Nat → Prop} {h0 h : Heap} (hI : Inv F h0 h) {o : Obj}
    (ho : CellIn F h0.length o) :
    Inv F h0 (alloc h o).2 ∧ InG F h0.length (alloc h o).1 := by
  refine ⟨⟨?_, ?_, ?_, ?_⟩, ?_⟩
  · simp only [SD.alloc, List.length_append, List.length_singleton]
    have := hI.len
    omega
  · intro a0 o0 h0get
    obtain ⟨o', ho', hkind⟩ := hI.kind a0 o0 h0get
    refine ⟨o', ?_, hkind⟩
    simp only [SD.alloc]
    rw [List.getElem?_append_left (getElem?_lt ho')]
    exact ho'
  · intro a0 hlt hF
    simp only [SD.alloc]
    rw [List.getElem?_append_left (Nat.lt_of_lt_of_le hlt hI.len)]
    exact hI.frame a0 hlt hF
  · intro a0 o0 hget0 hG
    simp only [SD.alloc] at hget0
    by_cases hlt : a0 < h.length
    · rw [List.getElem?_append_left hlt] at hget0
      exact hI.closed a0 o0 hget0 hG
    · have hlen : (h ++ [o]).length = h.length + 1 := by simp
      have h1 := getElem?_lt hget0
      have heq : a0 = h.length := by omega
      subst heq
      rw [List.getElem?_concat_length] at hget0
      cases hget0
      exact ho
  · intro a ha
    simp only [SD.alloc] at ha
    cases ha
    exact Or.inr hI.len

theorem InG_indexedFields {F : Nat → Prop} {n0 : Nat} (vs : List Val) (i : Nat)
    (hvs : ∀ v ∈ vs, InG F n0 v) : ∀ kv ∈ indexedFields vs i, InG F n0 kv.2 := by
  induction vs generalizing i with
  | nil => intro kv hkv; simp [indexedFields] at hkv
  | cons v rest ih =>
    intro kv hkv
    simp only [indexedFields, List.mem_cons] at hkv
    rcases hkv with h1 | h1
    · subst h1; exact hvs v (List.mem_cons_self _ _)
    · exact ih (i + 1) (fun v hv => hvs v (List.mem_cons_of_mem _ hv)) kv h1

theorem InG_own {F : Nat → Prop} {n0 : Nat} (o : Obj) (ho : CellIn F n0 o) :
    ∀ kv ∈ o.own, InG F n0 kv.2 := by
  unfold Obj.own
  split
  · intro kv hkv
    rcases List.mem_append.mp hkv with h1 | h1
    · exact InG_indexedFields _ _ ho.2 kv h1
    · exact ho.1 kv h1
  · exact ho.1

theorem Inv.ownFields {F : Nat → Prop} {h0 h : Heap} (hI : Inv F h0 h) {x : Val}
    (hx : InG F h0.length x) : ∀ kv ∈ ownFields h x, InG F h0.length kv.2 := by
  unfold SD.ownFields
  split
  · split
    · rename_i a o ho
      exact InG_own o (hI.cell hx ho)
    · intro kv hkv; simp at hkv
  · intro kv hkv; simp at hkv

theorem Inv.findPathLoop {F : Nat → Prop} {h0 h : Heap} (hI : Inv F h0 h) (segs : List String) :
    ∀ {x v : Val}, InG F h0.length x → findPathLoop h x segs = Except.ok v →
      InG F h0.length v := by
  induction segs with
  | nil =>
    intro x v hx hf
    simp only [SD.findPathLoop] at hf
    cases hf
    exact hx
  | cons seg rest ih =>
    intro x v hx hf
    simp only [SD.findPathLoop] at hf
    split at hf
    · cases hf
    · rename_i w hw
      split at hf
      · cases hf
        exact InG_prim (fun a => by simp)
      · exact ih (hI.getProp hx hw) hf

theorem Inv.setPathLoop {F : Nat → Prop} {h0 h : Heap} (hI : Inv F h0 h) {value : Val}
    (hv : InG F h0.length value) (segs : List String) :
    ∀ {x : Val} {h2 : Heap}, InG F h0.length x →
      setPathLoop h value x segs = Except.ok h2 → Inv F h0 h2 := by
  induction segs with
  | nil =>
    intro x h2 _ hs
    simp only [SD.setPathLoop] at hs
    cases hs
    exact hI
  | cons seg rest ih =>
    intro x h2 hx hs
    cases rest with
    | nil =>
      simp only [SD.setPathLoop] at hs
      exact hI.setProp hx hv hs
    | cons seg2 rest2 =>
      simp only [SD.setPathLoop] at hs
      split at hs
      · cases hs
      · rename_i w hw
        exact ih (hI.getProp hx hw) hs

theorem Inv.create {F : Nat → Prop} {h0 h : Heap} (hI : Inv F h0 h) (t : ModelType)
    {object : Val} (hx : InG F h0.length object) :
    Inv F h0 (create h t object).2 ∧ InG F h0.length (create h t object).1 :=
  hI.alloc ⟨hI.ownFields hx, by intro v hv; simp at hv⟩

theorem Inv.instantiate {F : Nat → Prop} {h0 h : Heap} (hI : Inv F h0 h) (t : ModelType)
    {object : Val} (hx : InG F h0.length object) :
    Inv F h0 (instantiate h t object).2 ∧ InG F h0.length (instantiate h t object).1 := by
  unfold SD.instantiate
  split
  · exact ⟨hI, hx⟩
  · exact hI.create t hx

theorem Inv.createWithMixins {F : Nat → Prop} {h0 h : Heap} (hI : Inv F h0 h) (t : ModelType)
    {object p : Val} (path : String) (hx : InG F h0.length object) (hp : InG F h0.length p) :
    Inv F h0 (createWithMixins h t object p path).2 ∧
      InG F h0.length (createWithMixins h t object p path).1 :=
  hI.alloc ⟨InG_setField _ _ _ (InG_setField _ _ _ (hI.ownFields hx) hp)
    (InG_prim (fun a => by simp)), by intro v hv; simp at hv⟩

theorem Inv.createHolder {F : Nat → Prop} {h0 h : Heap} (hI : Inv F h0 h)
    {parent content : Val} (path : String) (hp : InG F h0.length parent)
    (hc : InG F h0.length content) :
    Inv F h0 (createHolder h parent path content).2 ∧
      InG F h0.length (createHolder h parent path content).1 := by
  refine hI.alloc ⟨?_, by intro v hv; simp at hv⟩
  intro kv hkv
  simp only [List.mem_cons, List.mem_singleton, List.not_mem_nil, or_false] at hkv
  rcases hkv with h1 | h1 | h1
  · subst h1; exact hp
  · subst h1; exact InG_prim (fun a => by simp)
  · subst h1; exact hc

theorem mem_elemsOf {h : Heap} {arr v : Val} (hmem : v ∈ elemsOf h arr) :
    ∃ c o, arr = Val.ref c ∧ h[c]? = some o ∧ v ∈ o.elems := by
  unfold elemsOf at hmem
  split at hmem
  · split at hmem
    · rename_i c _ o ho
      exact ⟨c, o, rfl, ho, hmem⟩
    · simp at hmem
  · simp at hmem

theorem Inv.elemAt {F : Nat → Prop} {h0 h : Heap} (hI : Inv F h0 h) {arr : Val}
    (ha : InG F h0.length arr) (i : Nat) : InG F h0.length ((elemsOf h arr).getD i Val.undef) := by
  intro a hget
  by_cases hi : i < (elemsOf h arr).length
  · have hmem : (elemsOf h arr).getD i Val.undef ∈ elemsOf h arr := by
      rw [List.getD_eq_getElem _ _ hi]
      exact List.getElem_mem _
    obtain ⟨c, o, hc, ho, hmem2⟩ := mem_elemsOf hmem
    subst hc
    exact (hI.cell ha ho).2 _ hmem2 a hget
  · rw [List.getD_eq_default _ _ (Nat.le_of_not_lt hi)] at hget
    cases hget

theorem Inv.mapItems {F : Nat → Prop} {h0 : Heap} (f : Val → Heap → Except Err (Val × Heap))
    {arr : Val} (ha : InG F h0.length arr)
    (hf : ∀ item, InG F h0.length item → Pres F h0 (f item)) (idxs : List Nat) :
    ∀ {h h2 : Heap} {vs : List Val}, Inv F h0 h →
      mapItems f arr idxs h = Except.ok (vs, h2) →
      Inv F h0 h2 ∧ ∀ v ∈ vs, InG F h0.length v := by
  induction idxs with
  | nil =>
    intro h h2 vs hI hm
    simp only [SD.mapItems] at hm
    cases hm
    exact ⟨hI, by intro v hv; simp at hv⟩
  | cons i rest ih =>
    intro h h2 vs hI hm
    simp only [SD.mapItems] at hm
    split at hm
    · cases hm
    · rename_i v h1 hv
      split at hm
      · cases hm
      · rename_i vs2 h3 hrest
        cases hm
        obtain ⟨hI1, hv1⟩ := hf _ (hI.elemAt ha i) h v h1 hI hv
        obtain ⟨hI3, hvs⟩ := ih hI1 hrest
        refine ⟨hI3, ?_⟩
        intro x hx
        rcases List.mem_cons.mp hx with h4 | h4
        · subst h4; exact hv1
        · exact hvs x h4

theorem Inv.mapToHolder {F : Nat → Prop} {h0 : Heap} (f : Val → Heap → Except Err (Val × Heap))
    {arr parent : Val} (path : String) (ha : InG F h0.length arr)
    (hp : InG F h0.length parent)
    (hf : ∀ item, InG F h0.length item → Pres F h0 (f item)) :
    Pres F h0 (mapToHolder f parent path arr) := by
  intro h r h2 hI hm
  simp only [SD.mapToHolder] at hm
  split at hm
  · cases hm
  · rename_i vs h1 hmap
    obtain ⟨hI1, hvs⟩ := Inv.mapItems f ha hf _ hI hmap
    have hA := hI1.alloc (o := { kind := Kind.array, fields := [], elems := vs })
      ⟨by intro kv hkv; simp at hkv, hvs⟩
    have hH := hA.1.createHolder path hp hA.2
    cases hm
    exact hH

theorem Inv.forEntries {F : Nat → Prop} {h0 : Heap}
    (step : String → ModelType → Heap → Except Err Heap)
    (hstep : ∀ prop model h h2, Inv F h0 h → step prop model h = Except.ok h2 → Inv F h0 h2)
    (es : List (String × ModelType)) :
    ∀ {h h2 : Heap}, Inv F h0 h → forEntries step es h = Except.ok h2 → Inv F h0 h2 := by
  induction es with
  | nil =>
    intro h h2 hI hfe
    simp only [SD.forEntries] at hfe
    cases hfe
    exact hI
  | cons e rest ih =>
    obtain ⟨prop, model⟩ := e
    intro h h2 hI hfe
    simp only [SD.forEntries] at hfe
    split at hfe
    · cases hfe
    · rename_i h1 hs
      exact ih (hstep prop model h h1 hI hs) hfe

/-! ## The footprint invariant through the mapping engine -/

theorem engine_inv (S : Mapping) (F : Nat → Prop) (h0 : Heap) (n : Nat) :
    (∀ t object, InG F h0.length object → Pres F h0 (applyMapping S n t object)) ∧
    (∀ t m, InG F h0.length m → Pres F h0 (_applyMapping S n t m)) ∧
    (∀ t object p path, InG F h0.length object → InG F h0.length p →
      Pres F h0 (applyMappingForArray S n t object p path)) ∧
    (∀ obj path model h h2, InG F h0.length obj → Inv F h0 h →
      _deepFindAndApply S n obj path model h = Except.ok h2 → Inv F h0 h2) := by
  induction n with
  | zero =>
    refine ⟨?_, ?_, ?_, ?_⟩
    · intro t object _ h r h2 _ hrun
      simp [applyMapping] at hrun
    · intro t m _ h r h2 _ hrun
      simp [_applyMapping] at hrun
    · intro t object p path _ _ h r h2 _ hrun
      simp [applyMappingForArray] at hrun
    · intro obj path model h h2 _ _ hrun
      simp [_deepFindAndApply] at hrun
  | succ n ih =>
    obtain ⟨ihA, ihM, ihArr, ihD⟩ := ih
    refine ⟨?_, ?_, ?_, ?_⟩
    · intro t object hx h r h2 hI hrun
      simp only [applyMapping] at hrun
      have hinst := hI.instantiate t hx
      split at hrun
      · exact Inv.mapToHolder _ "this" hx hinst.2
          (fun item hitem => ihArr t item _ "this" hitem hinst.2) _ r h2 hinst.1 hrun
      · exact ihM t _ hinst.2 _ r h2 hinst.1 hrun
    · intro t m hm h r h2 hI hrun
      simp only [_applyMapping] at hrun
      split at hrun
      · cases hrun
      · rename_i h1 hfe
        cases hrun
        exact ⟨Inv.forEntries _ (fun prop model hh hh2 hIh hs => ihD m prop model hh hh2 hm hIh hs)
          _ hI hfe, hm⟩
    · intro t object p path hx hp h r h2 hI hrun
      simp only [applyMappingForArray] at hrun
      have hc := hI.createWithMixins t path hx hp
      exact ihM t _ hc.2 _ r h2 hc.1 hrun
    · intro obj path model h h2 hobj hI hrun
      simp only [_deepFindAndApply] at hrun
      split at hrun
      · cases hrun
      · rename_i current hcur
        have hcurG : InG F h0.length current := hI.findPathLoop _ hobj hcur
        split at hrun
        · cases hrun; exact hI
        · split at hrun
          · cases hrun
          · rename_i value h1 hr
            have hres : Inv F h0 h1 ∧ InG F h0.length value := by
              split at hr
              · split at hr
                · exact Inv.mapToHolder _ path hcurG hobj
                    (fun item hitem => ihArr model item obj path hitem hobj) h value h1 hI hr
                · exact ihA model current hcurG h value h1 hI hr
              · cases hr
                exact ⟨hI, InG_prim (fun a => by simp)⟩
            exact hres.1.setPathLoop hres.2 _ hobj hrun

/-! ## Writing a path and reading it back -/

theorem getProp_ref_of_not_nullish {h : Heap} {x v : Val} {k : String}
    (hg : getProp h x k = Except.ok v) (hv : isNullish v = false) :
    ∃ c o, x = Val.ref c ∧ h[c]? = some o ∧ v = o.get k := by
  unfold getProp at hg
  split at hg
  · cases hg
  · cases hg
  · split at hg
    · rename_i c _ o ho
      cases hg
      exact ⟨c, o, rfl, ho, rfl⟩
    · cases hg
  · cases hg
    simp [isNullish] at hv

theorem findPathLoop_cons_ref {h : Heap} {x : Val} {seg : String} {rest : List String} {a : Nat}
    (hf : findPathLoop h x (seg :: rest) = Except.ok (Val.ref a)) :
    ∃ c o, x = Val.ref c ∧ h[c]? = some o ∧ isNullish (o.get seg) = false ∧
      findPathLoop h (o.get seg) rest = Except.ok (Val.ref a) := by
  simp only [findPathLoop] at hf
  split at hf
  · cases hf
  · rename_i w hw
    split at hf
    · cases hf
    · rename_i hn
      have hn2 : isNullish w = false := by simpa using hn
      obtain ⟨c, o, hx, ho, hwo⟩ := getProp_ref_of_not_nullish hw hn2
      subst hwo
      exact ⟨c, o, hx, ho, hn2, hf⟩

theorem kindOf_set_put (h : Heap) (P : Nat) (o : Obj) (k : String) (v : Val)
    (hP : h[P]? = some o) (y : Val) : kindOf (h.set P (o.put k v)) y = kindOf h y := by
  cases y with
  | ref c =>
    simp only [kindOf]
    by_cases hc : P = c
    · subst hc
      rw [List.getElem?_set]
      simp [getElem?_lt hP, hP, kind_put]
    · rw [List.getElem?_set_ne hc]
  | _ => rfl

theorem walk_stable (h h1 : Heap) (segs : List String) :
    ∀ x : Val, (∀ c ∈ pathCells h x segs, h1[c]? = h[c]?) →
      findPathLoop h1 x segs = findPathLoop h x segs ∧
      pathCells h1 x segs = pathCells h x segs := by
  induction segs with
  | nil => intro x _; exact ⟨rfl, by simp [pathCells]⟩
  | cons seg rest ih =>
    intro x hx
    cases x with
    | ref c =>
      have hc : h1[c]? = h[c]? := hx c (by simp [pathCells])
      cases ho : h[c]? with
      | none => simp [findPathLoop, getProp, pathCells, hc, ho]
      | some o =>
        have hrest := ih (o.get seg) (fun d hd => hx d (by simp [pathCells, ho, hd]))
        simp only [findPathLoop, getProp, pathCells, hc, ho, hrest.1, hrest.2, and_self]
    | undef => simp [findPathLoop, getProp, pathCells]
    | null => simp [findPathLoop, getProp, pathCells]
    | bool b => simp [findPathLoop, getProp, pathCells, isNullish]
    | num n => simp [findPathLoop, getProp, pathCells, isNullish]
    | str s => simp [findPathLoop, getProp, pathCells, isNullish]

theorem set_then_find (h : Heap) (value : Val) (a : Nat) (hv : isNullish value = false)
    (segs : List String) :
    ∀ x : Val, segs ≠ [] → findPathLoop h x segs = Except.ok (Val.ref a) →
      (pathCells h x segs).Nodup →
      ∃ h2, setPathLoop h value x segs = Except.ok h2 ∧
        findPathLoop h2 x segs = Except.ok value ∧
        (∀ c : Nat, c ∉ pathCells h x segs → h2[c]? = h[c]?) ∧
        (∀ y, kindOf h2 y = kindOf h y) ∧ h2.length = h.length := by
  induction segs with
  | nil => intro x hne; exact absurd rfl hne
  | cons seg rest ih =>
    intro x _ hf hnd
    obtain ⟨c, o, hx, ho, hn, hrest⟩ := findPathLoop_cons_ref hf
    subst hx
    have hcells : pathCells h (Val.ref c) (seg :: rest) = c :: pathCells h (o.get seg) rest := by
      simp [pathCells, ho]
    rw [hcells] at hnd
    cases rest with
    | nil =>
      simp only [findPathLoop] at hrest
      have hget : o.get seg = Val.ref a := by injection hrest
      refine ⟨h.set c (o.put seg value), ?_, ?_, ?_, ?_, ?_⟩
      · simp [setPathLoop, setProp, ho]
      · have h2c : (h.set c (o.put seg value))[c]? = some (o.put seg value) := by
          rw [List.getElem?_set]; simp [getElem?_lt ho]
        simp [findPathLoop, getProp, h2c, get_put_self o seg value a hget, hv]
      · intro d hd
        rw [hcells] at hd
        have hne : c ≠ d := by
          intro heq; subst heq; exact hd (List.mem_cons_self _ _)
        rw [List.getElem?_set_ne hne]
      · exact kindOf_set_put h c o seg value ho
      · simp
    | cons seg2 rest2 =>
      obtain ⟨hcn, hnd2⟩ := List.nodup_cons.mp hnd
      obtain ⟨h2, hset, hfind, hframe, hkind, hlen⟩ :=
        ih (o.get seg) (by simp) hrest hnd2
      have h2c : h2[c]? = some o := by rw [hframe c hcn]; exact ho
      refine ⟨h2, ?_, ?_, ?_, hkind, hlen⟩
      · simp only [setPathLoop, getProp, ho]
        exact hset
      · simp only [findPathLoop, getProp, h2c, hn]
        exact hfind
      · intro d hd
        rw [hcells] at hd
        exact hframe d (fun hmem => hd (List.mem_cons_of_mem _ hmem))

theorem splitAux_ne_nil (cs acc : List Char) : splitAux cs acc ≠ [] := by
  induction cs generalizing acc with
  | nil => simp [splitAux]
  | cons c rest ih =>
    unfold splitAux
    split
    · simp
    · exact ih _

theorem split_ne_nil (path : String) : split path ≠ [] := splitAux_ne_nil _ _

theorem pathCells_valid (h : Heap) (a : Nat) (segs : List String) :
    ∀ x : Val, findPathLoop h x segs = Except.ok (Val.ref a) →
      ∀ c ∈ pathCells h x segs, c < h.length := by
  induction segs with
  | nil => intro x _ c hc; simp [pathCells] at hc
  | cons seg rest ih =>
    intro x hf c hc
    obtain ⟨c0, o, hx, ho, _, hrest⟩ := findPathLoop_cons_ref hf
    subst hx
    simp only [pathCells, ho, List.mem_cons] at hc
    rcases hc with h1 | h1
    · subst h1; exact getElem?_lt ho
    · exact ih _ hrest c h1

theorem Inv_true (h : Heap) : Inv (fun _ => True) h h :=
  ⟨Nat.le_refl _, fun _ o ho => ⟨o, ho, rfl⟩, fun _ _ hF => absurd trivial hF,
    fun _ _ _ _ => ⟨fun _ _ _ _ => Or.inl trivial, fun _ _ _ _ => Or.inl trivial⟩⟩

theorem valIn_iff {F : List Nat} {v : Val} (hv : valIn F v = true) :
    ∀ b, v = Val.ref b → b ∈ F := by
  intro b hb
  subst hb
  simpa [valIn] using hv

theorem closedIn_cell {h : Heap} {F : List Nat} (hF : closedIn h F = true) {a : Nat}
    (ha : a ∈ F) : ∃ o, h[a]? = some o ∧
      (∀ kv ∈ o.fields, ∀ b, kv.2 = Val.ref b → b ∈ F) ∧
      (∀ v ∈ o.elems, ∀ b, v = Val.ref b → b ∈ F) := by
  unfold closedIn at hF
  rw [List.all_eq_true] at hF
  have h1 := hF a ha
  split at h1
  · rename_i o ho
    rw [Bool.and_eq_true, List.all_eq_true, List.all_eq_true] at h1
    exact ⟨o, ho, fun kv hkv => valIn_iff (h1.1 kv hkv), fun v hv => valIn_iff (h1.2 v hv)⟩
  · cases h1

/-- A footprint of `h` is still one in a heap that agrees with `h` on it. -/
theorem Inv_of_closedIn {h h2 : Heap} {F : List Nat} (hF : closedIn h F = true)
    (hsame : ∀ c ∈ F, h2[c]? = h[c]?) : Inv (fun c => c ∈ F) h2 h2 := by
  refine ⟨Nat.le_refl _, fun _ o ho => ⟨o, ho, rfl⟩, fun _ _ _ => rfl, ?_⟩
  intro a o ho hG
  rcases hG with hG | hG
  · obtain ⟨o2, ho2, hfs, hes⟩ := closedIn_cell hF hG
    rw [hsame a hG, ho2] at ho
    cases ho
    exact ⟨fun kv hkv b hb => Or.inl (hfs kv hkv b hb), fun v hv b hb => Or.inl (hes v hv b hb)⟩
  · have := getElem?_lt ho
    omega

theorem Inv.kindOf {F : Nat → Prop} {h0 h : Heap} (hI : Inv F h0 h) {x : Val} {k : Kind}
    (hk : kindOf h0 x = some k) : kindOf h x = some k := by
  cases x with
  | ref c =>
    simp only [SD.kindOf, Option.map_eq_some'] at hk ⊢
    obtain ⟨o, ho, hok⟩ := hk
    obtain ⟨o2, ho2, hk2⟩ := hI.kind c o ho
    exact ⟨o2, ho2, by rw [hk2, hok]⟩
  | _ => simp [SD.kindOf] at hk

theorem isInstanceOf_of_kindOf {h h2 : Heap} {x : Val} {t : ModelType}
    (hk : ∀ k, kindOf h x = some k → kindOf h2 x = some k)
    (hi : isInstanceOf h x t = true) : isInstanceOf h2 x t = true := by
  unfold isInstanceOf at hi ⊢
  split at hi
  · rename_i ty m hkind
    rw [hk _ hkind]
    exact hi
  · cases hi

theorem isInstanceOf_instantiate (h : Heap) (t : ModelType) (x : Val) :
    isInstanceOf (instantiate h t x).2 (instantiate h t x).1 t = true := by
  unfold instantiate
  split
  · rename_i hi; exact hi
  · simp [create, alloc, isInstanceOf, kindOf]

theorem _applyMapping_fst {S : Mapping} {n : Nat} {t : ModelType} {m r : Val} {h h2 : Heap}
    (hrun : _applyMapping S n t m h = Except.ok (r, h2)) : r = m := by
  cases n with
  | zero => simp [_applyMapping] at hrun
  | succ n =>
    simp only [_applyMapping] at hrun
    split at hrun
    · cases hrun
    · cases hrun; rfl

/-- On a payload that is not an array, `applyMapping` yields the instance its
first statement made, and that instance is of the type. -/
theorem applyMapping_scalar {S : Mapping} {n : Nat} {t : ModelType} {x r : Val} {h h2 : Heap}
    (hx : isArray h x = false) (hrun : applyMapping S n t x h = Except.ok (r, h2)) :
    r = (instantiate h t x).1 ∧ isInstanceOf h2 r t = true := by
  cases n with
  | zero => simp [applyMapping] at hrun
  | succ n =>
    simp only [applyMapping, hx] at hrun
    have hr := _applyMapping_fst hrun
    subst hr
    refine ⟨rfl, ?_⟩
    have hI := ((engine_inv S (fun _ => True) (instantiate h t x).2 n).2.1 t
      (instantiate h t x).1 (fun _ _ => Or.inl trivial) _ _ _ (Inv_true _) hrun).1
    exact isInstanceOf_of_kindOf (fun k hk => hI.kindOf hk) (isInstanceOf_instantiate h t x)

theorem not_nullish_of_instance {h : Heap} {v : Val} {t : ModelType}
    (hi : isInstanceOf h v t = true) : isNullish v = false := by
  cases v <;> simp [isInstanceOf, kindOf, isNullish] at hi ⊢

/-- The assignment that ends `_deepFindAndApply` succeeds, and the path then
resolves to the value assigned, when the cells on the path are pairwise
distinct and the computation of the value kept them as they were. -/
theorem write_back {h h1 : Heap} {obj value : Val} {path : String} {a : Nat}
    (hfind : findPath h obj path = Except.ok (Val.ref a))
    (hnd : (pathCells h obj (split path)).Nodup)
    (hstable : ∀ c ∈ pathCells h obj (split path), h1[c]? = h[c]?)
    (hv : isNullish value = false) :
    ∃ h2, _setObjectPathToValue h1 obj value path = Except.ok h2 ∧
      findPath h2 obj path = Except.ok value ∧
      (∀ c : Nat, c ∉ pathCells h obj (split path) → h2[c]? = h1[c]?) ∧
      (∀ y, kindOf h2 y = kindOf h1 y) ∧ h2.length = h1.length := by
  unfold findPath at hfind
  have hst := walk_stable h h1 (split path) obj hstable
  have hres := set_then_find h1 value a hv (split path) obj (split_ne_nil path)
    (by rw [hst.1]; exact hfind) (by rw [hst.2]; exact hnd)
  rw [hst.2] at hres
  exact hres

/-- The branch of `_deepFindAndApply` taken for a value that is an object
but not an array. -/
theorem _deepFindAndApply_object {S : Mapping} {n : Nat} {h h1 : Heap} {obj value : Val}
    {path : String} {model : ModelType} {a : Nat}
    (hfind : findPath h obj path = Except.ok (Val.ref a))
    (harr : isArray h (Val.ref a) = false)
    (hrun : applyMapping S n model (Val.ref a) h = Except.ok (value, h1)) :
    _deepFindAndApply S (n + 1) obj path model h = _setObjectPathToValue h1 obj value path := by
  simp [_deepFindAndApply, hfind, truthy, isObject, harr, hrun]

/-- The instance `applyMapping` makes of a payload that is not an array sees,
along a path that resolves in the payload, what the payload sees. -/
theorem instantiate_view {h : Heap} {t : ModelType} {p : Val} {a : Nat} {F : List Nat}
    (hF : closedIn h F = true) (hp : isArray h p = false) (seg : String) (rest : List String)
    (hfind : findPathLoop h p (seg :: rest) = Except.ok (Val.ref a))
    (hnd : (pathCells h p (seg :: rest)).Nodup)
    (hdisj : ∀ c ∈ pathCells h p (seg :: rest), c ∉ F) :
    findPathLoop (instantiate h t p).2 (instantiate h t p).1 (seg :: rest)
        = Except.ok (Val.ref a) ∧
      (pathCells (instantiate h t p).2 (instantiate h t p).1 (seg :: rest)).Nodup ∧
      (∀ c ∈ pathCells (instantiate h t p).2 (instantiate h t p).1 (seg :: rest), c ∉ F) ∧
      (∀ c : Nat, c < h.length → (instantiate h t p).2[c]? = h[c]?) := by
  unfold instantiate
  split
  · exact ⟨hfind, hnd, hdisj, fun _ _ => rfl⟩
  · obtain ⟨pa, po, hpa, hpo, hn, hrest⟩ := findPathLoop_cons_ref hfind
    subst hpa
    have hkind : po.kind ≠ Kind.array := by
      intro hk
      simp [isArray, kindOf, hpo, hk] at hp
    have hown : ownFields h (Val.ref pa) = po.fields := by
      simp only [ownFields, hpo, Obj.own]
    have hgetpo : po.get seg = lookup seg po.fields := by
      simp only [Obj.get]
    have hsame : ∀ c : Nat, c < h.length → (create h t (Val.ref pa)).2[c]? = h[c]? := by
      intro c hc
      simp only [create, alloc]
      exact List.getElem?_append_left hc
    have hnew : (create h t (Val.ref pa)).2[h.length]? =
        some { kind := Kind.inst t.id false, fields := po.fields, elems := [] } := by
      simp only [create, alloc, hown]
      exact List.getElem?_concat_length _ _
    have hgetnew : ({ kind := Kind.inst t.id false, fields := po.fields, elems := [] } : Obj).get seg
        = po.get seg := by
      rw [hgetpo]; rfl
    have hcells : pathCells h (Val.ref pa) (seg :: rest) = pa :: pathCells h (po.get seg) rest := by
      simp [pathCells, hpo]
    rw [hcells] at hnd hdisj
    have htailvalid := pathCells_valid h a rest _ hrest
    have hst := walk_stable h (create h t (Val.ref pa)).2 rest (po.get seg)
      (fun c hc => hsame c (htailvalid c hc))
    have hfst : (create h t (Val.ref pa)).1 = Val.ref h.length := rfl
    have hcells2 : pathCells (create h t (Val.ref pa)).2 (create h t (Val.ref pa)).1 (seg :: rest)
        = h.length :: pathCells h (po.get seg) rest := by
      rw [hfst]
      simp only [pathCells, hnew, hgetnew, hst.2]
    refine ⟨?_, ?_, ?_, hsame⟩
    · rw [hfst]
      simp only [findPathLoop, getProp, hnew, hgetnew, hn, hst.1]
      exact hrest
    · rw [hcells2]
      refine List.nodup_cons.mpr ⟨?_, (List.nodup_cons.mp hnd).2⟩
      intro hmem
      exact Nat.lt_irrefl _ (htailvalid _ hmem)
    · rw [hcells2]
      intro c hc
      rcases List.mem_cons.mp hc with h1 | h1
      · subst h1
        intro hcF
        obtain ⟨o, ho, _⟩ := closedIn_cell hF hcF
        exact Nat.lt_irrefl _ (getElem?_lt ho)
      · exact hdisj c (List.mem_cons_of_mem _ h1)

/-- C1 (as stated, refuted): with `User.map("address", Address)` and the
payload `{id: 1, address: "X"}` the value at `address` exists, yet in
`User.applyMapping(payload)` the path `address` resolves to `undefined`, not
to an instance of `Address`. -/
theorem c1_counterexample :
    findPath userPayloadText (Val.ref 0) "address" = Except.ok (Val.str "X") ∧
    ∃ r h2, applyMapping userSchema 10 User (Val.ref 0) userPayloadText = Except.ok (r, h2) ∧
      findPath h2 r "address" = Except.ok Val.undef := by
  exact ⟨rfl, Val.ref 1, _, rfl, rfl⟩

/-- C1 (amended): let the schema of `M` be the single entry `path -> T`, let
`p` be a payload that is not an array, and let `path` resolve in `p` to an
object `v` that is not an array, through pairwise distinct objects none of
which is reachable from `v` (`F` is a set of objects closed under reference
that holds `v`).  If `T.applyMapping(v)`, run once the instance of `M` has
been made, returns `value`, then `M.applyMapping(p)` returns that instance,
`path` resolves in it to `value`, and `value` is an instance of `T`: `v` itself
when `v` already was one, a fresh instance made from `v` otherwise. -/
theorem c1_declared_object (S : Mapping) (M T : ModelType) (path : String) (p : Val)
    (h : Heap) (a : Nat) (F : List Nat) (n : Nat) (value : Val) (h1 : Heap)
    (hschema : schemaOf S M = [(path, T)])
    (hscalar : isArray h p = false)
    (hfind : findPath h p path = Except.ok (Val.ref a))
    (hobj : isArray h (Val.ref a) = false)
    (hF : closedIn h F = true) (ha : a ∈ F)
    (hnd : (pathCells h p (split path)).Nodup)
    (hdisj : ∀ c ∈ pathCells h p (split path), c ∉ F)
    (hT : applyMapping S n T (Val.ref a) (instantiate h M p).2 = Except.ok (value, h1)) :
    ∃ h2, applyMapping S (n + 3) M p h = Except.ok ((instantiate h M p).1, h2) ∧
      findPath h2 (instantiate h M p).1 path = Except.ok value ∧
      isInstanceOf h2 value T = true ∧
      value = (instantiate (instantiate h M p).2 T (Val.ref a)).1 := by
  have hsplit : ∃ seg rest, split path = seg :: rest := by
    cases hs : split path with
    | nil => exact absurd hs (split_ne_nil path)
    | cons seg rest => exact ⟨seg, rest, rfl⟩
  obtain ⟨seg, rest, hs⟩ := hsplit
  unfold findPath at hfind
  rw [hs] at hfind hnd hdisj
  obtain ⟨hfind2, hnd2, hdisj2, hsame⟩ := instantiate_view (t := M) hF hscalar seg rest hfind hnd hdisj
  rw [← hs] at hfind2 hnd2 hdisj2
  have hvalidF : ∀ c ∈ F, c < h.length := by
    intro c hc
    obtain ⟨o, ho, _⟩ := closedIn_cell hF hc
    exact getElem?_lt ho
  have harr2 : isArray (instantiate h M p).2 (Val.ref a) = false := by
    simp only [isArray, kindOf, hsame a (hvalidF a ha)]
    simpa [isArray, kindOf] using hobj
  have hI0 : Inv (fun c => c ∈ F) (instantiate h M p).2 (instantiate h M p).2 :=
    Inv_of_closedIn hF (fun c hc => hsame c (hvalidF c hc))
  have hI1 := ((engine_inv S (fun c => c ∈ F) (instantiate h M p).2 n).1 T (Val.ref a)
    (fun b hb => by cases hb; exact Or.inl ha) _ _ _ hI0 hT).1
  obtain ⟨hval, hinst⟩ := applyMapping_scalar harr2 hT
  have hvalid2 := pathCells_valid _ a _ _ hfind2
  obtain ⟨h2, hset, hfind3, _, hkind, _⟩ :=
    write_back hfind2 hnd2 (fun c hc => hI1.frame c (hvalid2 c hc) (hdisj2 c hc))
      (not_nullish_of_instance hinst)
  have hstep : _deepFindAndApply S (n + 1) (instantiate h M p).1 path T (instantiate h M p).2
      = _setObjectPathToValue h1 (instantiate h M p).1 value path :=
    _deepFindAndApply_object hfind2 harr2 hT
  rw [hset] at hstep
  refine ⟨h2, ?_, hfind3, ?_, hval⟩
  · simp only [applyMapping, hscalar, _applyMapping, hschema, forEntries, hstep]
    simp
  · exact isInstanceOf_of_kindOf (fun k hk => by rw [hkind]; exact hk) hinst

/-- C1 (witness): `User.map("address", Address)` and the payload
`{id: 1, address: {city: "X"}}` give an instance whose `address` is
an instance of `Address` with `city === "X"`. -/
theorem c1_declared_object_witness :
    (∃ h2, applyMapping userSchema 5 User (Val.ref 0) userPayload
        = Except.ok ((instantiate userPayload User (Val.ref 0)).1, h2) ∧
      findPath h2 (instantiate userPayload User (Val.ref 0)).1 "address"
        = Except.ok (Val.ref 3) ∧
      isInstanceOf h2 (Val.ref 3) Address = true ∧
      Val.ref 3 = (instantiate (instantiate userPayload User (Val.ref 0)).2 Address (Val.ref 1)).1) ∧
    (∃ r h2, applyMapping userSchema 5 User (Val.ref 0) userPayload = Except.ok (r, h2) ∧
      findPath h2 r "address.city" = Except.ok (Val.str "X")) :=
  ⟨c1_declared_object userSchema User Address "address" (Val.ref 0) userPayload 1 [1] 2
    (Val.ref 3)
    [ { kind := Kind.plain, fields := [("id", Val.num 1), ("address", Val.ref 1)], elems := [] },
      { kind := Kind.plain, fields := [("city", Val.str "X")], elems := [] },
      { kind := Kind.inst 0 false, fields := [("id", Val.num 1), ("address", Val.ref 1)],
        elems := [] },
      { kind := Kind.inst 1 false, fields := [("city", Val.str "X")], elems := [] } ]
    rfl rfl rfl rfl rfl (by decide) (by decide) (by decide) rfl,
   _, _, rfl, rfl⟩

/-- C4 (the code at `Team.applyMapping([{id: 1}, {id: 2}])`): the result is a
Collection of two elements whose `_parent` is the fresh instance 3 and whose
`_path` is `"this"`; nothing is stored under `this` in that instance, so
`getArrayRef` of the first element is `undefined`, not the Collection, and
its `removeFromArray` raises a `TypeError`. -/
theorem c4_top_level_unresolved :
    ∃ h2, applyMapping [] 3 Team (Val.ref 0) pairPayload = Except.ok (Val.ref 7, h2) ∧
      itemsOf h2 (Val.ref 7) = Except.ok [Val.ref 4, Val.ref 5] ∧
      getProp h2 (Val.ref 4) "_parent" = Except.ok (Val.ref 3) ∧
      getProp h2 (Val.ref 4) "_path" = Except.ok (Val.str "this") ∧
      getArrayRef h2 (Val.ref 4) = Except.ok Val.undef ∧
      removeFromArray h2 (Val.ref 4) = Except.error Err.typeError :=
  ⟨_, rfl, rfl, rfl, rfl, rfl, rfl⟩

/-! ## C5: an element removes itself from its Collection -/

theorem scanCache_hit (h : Heap) (id record : Val) (pre post : List Val)
    (hid : truthy id = true)
    (hpre : ∀ x ∈ pre, ∃ v, getProp h x "id" = Except.ok v ∧ v ≠ id)
    (hrec : getProp h record "id" = Except.ok id) :
    scanCache h id (pre ++ record :: post) = Except.ok record := by
  have hne : id ≠ Val.undef := by
    intro hu; subst hu; simp [truthy] at hid
  induction pre with
  | nil => simp [scanCache, matchesId, hne, hrec, hid]
  | cons x rest ih =>
    obtain ⟨v, hv, hvne⟩ := hpre x (List.mem_cons_self _ _)
    simp only [List.cons_append, scanCache, matchesId, hne, if_false, hv]
    simp only [hvne, decide_False, Bool.and_false]
    exact ih (fun y hy => hpre y (List.mem_cons_of_mem _ hy))

theorem truthy_of_elems {h : Heap} {x : Val} {items : List Val} (hx : elemsOf h x = items)
    (hne : items ≠ []) : truthy x = true := by
  cases x with
  | ref c => rfl
  | _ => simp [elemsOf] at hx; exact absurd hx hne

theorem truthy_of_getProp {h : Heap} {x v : Val} {k : String}
    (hg : getProp h x k = Except.ok v) (hv : truthy v = true) : truthy x = true := by
  cases x with
  | ref c => rfl
  | undef => simp [getProp] at hg
  | null => simp [getProp] at hg
  | bool b => simp [getProp] at hg; subst hg; simp [truthy] at hv
  | num n => simp [getProp] at hg; subst hg; simp [truthy] at hv
  | str s => simp [getProp] at hg; subst hg; simp [truthy] at hv

/-- C6 (as stated, refuted): after `Team.preload([{id: 0}])` a cached record
has the requested id `0`, yet `find(0)` does not take it from the cache: it
invokes `findRecord` with the arguments of the call. -/
theorem c6_counterexample :
    (∃ rec, rec ∈ elemsOf zeroIdWorld.heap (lookup Team.key zeroIdWorld.cache) ∧
      getProp zeroIdWorld.heap rec "id" = Except.ok (Val.num 0)) ∧
    (find fetchStub 5 zeroIdWorld Team [Val.num 0]).calls = [[Val.num 0]] :=
  ⟨⟨Val.ref 1, by decide, rfl⟩, rfl⟩

/-- C6 (amended): if the requested id is truthy, a cached record has an `id`
strictly equal to it, and the entries cached before that record all allow
the read of `id` and hold another one, then `find(id, ...)` never invokes
`findRecord` and resolves with `M.applyMapping` of that record (provided
that call returns). -/
theorem c6_cache_hit (findRecord : List Val → Heap → Except Err (Val × Heap)) (fuel : Nat)
    (w : World) (M : ModelType) (id : Val) (more pre post : List Val) (record r : Val)
    (h2 : Heap)
    (hid : truthy id = true)
    (hcache : elemsOf w.heap (lookup M.key w.cache) = pre ++ record :: post)
    (hpre : ∀ x ∈ pre, ∃ v, getProp w.heap x "id" = Except.ok v ∧ v ≠ id)
    (hrec : getProp w.heap record "id" = Except.ok id)
    (hmap : applyMapping w.mapping fuel M record w.heap = Except.ok (r, h2)) :
    (find findRecord fuel w M (id :: more)).calls = [] ∧
    (find findRecord fuel w M (id :: more)).outcome = Except.ok (r, { w with heap := h2 }) := by
  have htr : truthy (lookup M.key w.cache) = true := truthy_of_elems hcache (by simp)
  have hscan := scanCache_hit w.heap id record pre post hid hpre hrec
  have hrt : truthy record = true := truthy_of_getProp hrec hid
  simp only [find, ensureCache, htr, if_true, List.headD_cons, hcache, hscan, hrt, hmap, and_self]

/-- C6 (witness): `preload([{id: 1}, {id: 2}])` then `find(1)`. -/
theorem c6_cache_hit_witness :
    (find fetchStub 2 preloadedWorld Team [Val.num 1]).calls = [] ∧
    (find fetchStub 2 preloadedWorld Team [Val.num 1]).outcome
      = Except.ok (Val.ref 3, { preloadedWorld with
          heap := pairPayload ++
            [ { kind := Kind.inst 2 false, fields := [("id", Val.num 1)], elems := [] } ] }) :=
  c6_cache_hit fetchStub 2 preloadedWorld Team (Val.num 1) [] [] [Val.ref 2] (Val.ref 1)
    (Val.ref 3) _ rfl rfl (by intro x hx; cases hx) rfl rfl

/-- C8: after `M.invalidateCache()`, whatever was preloaded before, a call of
`M.find` with any argument list (an omitted id included) misses the cache and
invokes `findRecord` once, with the arguments of the call. -/
theorem c8_invalidate_then_find (findRecord : List Val → Heap → Except Err (Val × Heap))
    (fuel : Nat) (w : World) (M : ModelType) (args : List Val) :
    elemsOf (invalidateCache w M).heap (lookup M.key (invalidateCache w M).cache) = [] ∧
    (find findRecord fuel (invalidateCache w M) M args).calls = [args] := by
  have hlook : lookup M.key (invalidateCache w M).cache = Val.ref w.heap.length := by
    simp [invalidateCache, alloc, lookup_setField]
  have hel : elemsOf (invalidateCache w M).heap (Val.ref w.heap.length) = [] := by
    simp [invalidateCache, alloc, elemsOf]
  refine ⟨by rw [hlook, hel], ?_⟩
  have htr : truthy (Val.ref w.heap.length) = true := rfl
  have hu : truthy Val.undef = false := rfl
  simp only [find, ensureCache, hlook, htr, if_true, hel, scanCache, hu]
  cases hf : findRecord args (invalidateCache w M).heap with
  | error e => simp
  | ok res =>
    obtain ⟨result, h2⟩ := res
    cases hm : applyMapping (invalidateCache w M).mapping fuel M result h2 with
    | error e => simp [hm]
    | ok res2 => simp [hm]

/-! ## C9: preload -/

/-- C9: after `M.preload(data)` the cache entry of `M` is `serialize(data)`
itself when that is an array, and a fresh array holding just
`serialize(data)` otherwise, whatever the entry was before; the default
`serialize` returns its argument. -/
theorem c9_preload_replaces (ser : Val → Heap → Val × Heap) (w : World) (M : ModelType)
    (data : Val) :
    lookup M.key (preload ser w M data).cache
      = (if isArray (ser data w.heap).2 (ser data w.heap).1 then (ser data w.heap).1
         else Val.ref (ser data w.heap).2.length) ∧
    elemsOf (preload ser w M data).heap (lookup M.key (preload ser w M data).cache)
      = (if isArray (ser data w.heap).2 (ser data w.heap).1
         then elemsOf (ser data w.heap).2 (ser data w.heap).1
         else [(ser data w.heap).1]) ∧
    serialize data w.heap = (data, w.heap) := by
  refine ⟨?_, ?_, rfl⟩
  · unfold preload
    by_cases harr : isArray (ser data w.heap).2 (ser data w.heap).1 = true
    · simp [harr, lookup_setField]
    · simp [harr, lookup_setField, alloc]
  · unfold preload
    by_cases harr : isArray (ser data w.heap).2 (ser data w.heap).1 = true
    · simp [harr, lookup_setField]
    · simp [harr, lookup_setField, alloc, elemsOf]

/-! ## C10: per-type state -/

theorem schemaOf_setSchema_ne (k : String) (es : List (String × ModelType)) (S : Mapping)
    (B : ModelType) (hne : k ≠ B.key) : schemaOf (setSchema k es S) B = schemaOf S B := by
  induction S with
  | nil => simp [setSchema, schemaOf, hne]
  | cons e rest ih =>
    obtain ⟨k2, es2⟩ := e
    by_cases hk : k2 = k
    · subst hk
      simp [setSchema, schemaOf, hne]
    · by_cases hk2 : k2 = B.key
      · subst hk2
        simp [setSchema, schemaOf, hk]
      · simp [setSchema, schemaOf, hk, hk2, ih]

/-- Whether `find` calls the collaborator is decided by the scan of the
cache alone. -/
theorem find_calls (findRecord : List Val → Heap → Except Err (Val × Heap)) (fuel : Nat)
    (w : World) (M : ModelType) (args : List Val) :
    (find findRecord fuel w M args).calls =
      (match scanCache (ensureCache w M).heap (args.headD Val.undef)
          (elemsOf (ensureCache w M).heap (lookup M.key (ensureCache w M).cache)) with
        | Except.ok o => if truthy o then [] else [args]
        | Except.error _ => []) := by
  simp only [find]
  cases hs : scanCache (ensureCache w M).heap (args.headD Val.undef)
      (elemsOf (ensureCache w M).heap (lookup M.key (ensureCache w M).cache)) with
  | error e => rfl
  | ok o =>
    by_cases ht : truthy o = true
    · simp only [ht, if_true]
      cases hm : applyMapping (ensureCache w M).mapping fuel M o (ensureCache w M).heap with
      | error e => rfl
      | ok res => rfl
    · simp only [ht, if_false]
      cases hf : findRecord args (ensureCache w M).heap with
      | error e => rfl
      | ok res =>
        obtain ⟨result, h2⟩ := res
        simp only []
        cases hm : applyMapping (ensureCache w M).mapping fuel M result h2 with
        | error e => rfl
        | ok res2 => rfl

theorem getProp_ext {h h2 : Heap} (hext : ∀ c : Nat, c < h.length → h2[c]? = h[c]?)
    {x v : Val} {k : String} (hg : getProp h x k = Except.ok v) :
    getProp h2 x k = Except.ok v := by
  cases x with
  | ref c =>
    simp only [getProp] at hg ⊢
    cases ho : h[c]? with
    | none => simp [ho] at hg
    | some o =>
      rw [hext c (getElem?_lt ho), ho]
      simpa [ho] using hg
  | undef => simp [getProp] at hg
  | null => simp [getProp] at hg
  | bool b => simpa [getProp] using hg
  | num n => simpa [getProp] using hg
  | str s => simpa [getProp] using hg

theorem scanCache_ext {h h2 : Heap} (hext : ∀ c : Nat, c < h.length → h2[c]? = h[c]?)
    (id : Val) (items : List Val) :
    ∀ {v : Val}, scanCache h id items = Except.ok v → scanCache h2 id items = Except.ok v := by
  induction items with
  | nil => intro v hs; simpa [scanCache] using hs
  | cons x rest ih =>
    intro v hs
    simp only [scanCache] at hs ⊢
    by_cases hid : id = Val.undef
    · simp only [matchesId, hid, if_true] at hs ⊢
      cases ht : truthy x with
      | true => simpa [ht] using hs
      | false =>
        simp only [ht] at hs ⊢
        exact hid ▸ ih (hid ▸ hs)
    · simp only [matchesId, hid, if_false] at hs ⊢
      cases hg : getProp h x "id" with
      | error e => simp [hg] at hs
      | ok w0 =>
        rw [getProp_ext hext hg]
        simp only [hg] at hs
        cases hb : (truthy w0 && decide (w0 = id)) with
        | true => simpa [hb] using hs
        | false =>
          simp only [hb] at hs ⊢
          exact ih hs

theorem elemsOf_ext {h h2 : Heap} (hext : ∀ c : Nat, c < h.length → h2[c]? = h[c]?)
    {x : Val} (hvalid : ∀ c, x = Val.ref c → c < h.length) : elemsOf h2 x = elemsOf h x := by
  cases x with
  | ref c => simp only [elemsOf, hext c (hvalid c rfl)]
  | _ => rfl

/-- Two worlds that agree on the cache entry of `B` and on the cells that
entry can reach make `B.find` take the same branch. -/
theorem find_calls_congr (findRecord : List Val → Heap → Except Err (Val × Heap)) (fuel : Nat)
    (w w2 : World) (B : ModelType) (args : List Val) (v : Val)
    (hcache : lookup B.key w2.cache = lookup B.key w.cache)
    (hext : ∀ c : Nat, c < w.heap.length → w2.heap[c]? = w.heap[c]?)
    (hvalid : ∀ c, lookup B.key w.cache = Val.ref c → c < w.heap.length)
    (hscan : scanCache (ensureCache w B).heap (args.headD Val.undef)
      (elemsOf (ensureCache w B).heap (lookup B.key (ensureCache w B).cache)) = Except.ok v) :
    (find findRecord fuel w2 B args).calls = (find findRecord fuel w B args).calls := by
  rw [find_calls, find_calls, hscan]
  by_cases ht : truthy (lookup B.key w.cache) = true
  · have he1 : ensureCache w B = w := by simp [ensureCache, ht]
    have he2 : ensureCache w2 B = w2 := by simp [ensureCache, hcache, ht]
    rw [he1] at hscan
    rw [he2, hcache, elemsOf_ext hext hvalid, scanCache_ext hext _ _ hscan]
  · have hundef : ∀ ww : World, truthy (lookup B.key ww.cache) ≠ true →
        scanCache (ensureCache ww B).heap (args.headD Val.undef)
          (elemsOf (ensureCache ww B).heap (lookup B.key (ensureCache ww B).cache))
          = Except.ok Val.undef := by
      intro ww hww
      simp [ensureCache, hww, alloc, lookup_setField, elemsOf, scanCache]
    have h1 := hundef w ht
    have h2 := hundef w2 (by rw [hcache]; exact ht)
    rw [h1] at hscan
    cases hscan
    rw [h2]

/-- C10 (as stated, refuted): two distinct model types that coerce to the
same property key share one schema and one cache entry, so `A.map`,
`A.preload` and `A.invalidateCache` each change what `B` reads; and even
between `Address` and `User`, whose keys differ, `Address.map("geo", Team)`
changes the result of `User.applyMapping`, because the schema of `User` maps
a path to `Address`. -/
theorem c10_counterexample :
    (AnonA ≠ AnonB ∧
      schemaOf (map emptyWorld AnonA "address" Address).1.mapping AnonB
        ≠ schemaOf emptyWorld.mapping AnonB ∧
      lookup AnonB.key (preload serialize emptyWorld AnonA (Val.num 1)).cache
        ≠ lookup AnonB.key emptyWorld.cache ∧
      lookup AnonB.key (invalidateCache preloadedWorld AnonA).cache
        ≠ lookup AnonB.key preloadedWorld.cache) ∧
    (Address ≠ User ∧
      mappedKindAt geoWorld 8 User (Val.ref 0) "address.geo" = some Kind.plain ∧
      mappedKindAt (map geoWorld Address "geo" Team).1 8 User (Val.ref 0) "address.geo"
        = some (Kind.inst Team.id false)) := by
  refine ⟨⟨by decide, by decide, by decide, by decide⟩, by decide, rfl, rfl⟩

/-- C10 (amended): for two model types whose class keys differ, `A.map`,
`A.preload` and `A.invalidateCache` leave the schema of `B` and the cache
entry of `B` as they were and do not touch a cell of the heap that existed
before the call (`A.map` touches neither the caches nor the heap, the other
two touch no schema); hence a call of `B.find` whose scan of the cache
raises no error takes the same branch, hit or miss, after the call as
before it. -/
theorem c10_state_isolation (findRecord : List Val → Heap → Except Err (Val × Heap))
    (fuel : Nat) (w : World) (A B T : ModelType) (path : String) (data : Val)
    (args : List Val) (v : Val)
    (hkey : A.key ≠ B.key)
    (hvalid : ∀ c, lookup B.key w.cache = Val.ref c → c < w.heap.length)
    (hscan : scanCache (ensureCache w B).heap (args.headD Val.undef)
      (elemsOf (ensureCache w B).heap (lookup B.key (ensureCache w B).cache)) = Except.ok v) :
    (schemaOf (map w A path T).1.mapping B = schemaOf w.mapping B ∧
      (map w A path T).1.cache = w.cache ∧ (map w A path T).1.heap = w.heap ∧
      (find findRecord fuel (map w A path T).1 B args).calls
        = (find findRecord fuel w B args).calls) ∧
    (lookup B.key (preload serialize w A data).cache = lookup B.key w.cache ∧
      (preload serialize w A data).mapping = w.mapping ∧
      (∀ c : Nat, c < w.heap.length → (preload serialize w A data).heap[c]? = w.heap[c]?) ∧
      (find findRecord fuel (preload serialize w A data) B args).calls
        = (find findRecord fuel w B args).calls) ∧
    (lookup B.key (invalidateCache w A).cache = lookup B.key w.cache ∧
      (invalidateCache w A).mapping = w.mapping ∧
      (∀ c : Nat, c < w.heap.length → (invalidateCache w A).heap[c]? = w.heap[c]?) ∧
      (find findRecord fuel (invalidateCache w A) B args).calls
        = (find findRecord fuel w B args).calls) := by
  have hp1 : lookup B.key (preload serialize w A data).cache = lookup B.key w.cache := by
    unfold preload serialize
    by_cases harr : isArray w.heap data = true
    · simp [harr, lookup_setField_ne _ _ _ _ (Ne.symm hkey)]
    · simp [harr, lookup_setField_ne _ _ _ _ (Ne.symm hkey)]
  have hp2 : (preload serialize w A data).mapping = w.mapping := by
    unfold preload serialize
    by_cases harr : isArray w.heap data = true
    · simp [harr]
    · simp [harr]
  have hp3 : ∀ c : Nat, c < w.heap.length →
      (preload serialize w A data).heap[c]? = w.heap[c]? := by
    intro c hc
    unfold preload serialize
    by_cases harr : isArray w.heap data = true
    · simp [harr]
    · simp [harr, alloc, List.getElem?_append_left hc]
  have hi1 : lookup B.key (invalidateCache w A).cache = lookup B.key w.cache := by
    simp [invalidateCache, lookup_setField_ne _ _ _ _ (Ne.symm hkey)]
  have hi3 : ∀ c : Nat, c < w.heap.length → (invalidateCache w A).heap[c]? = w.heap[c]? := by
    intro c hc
    simp [invalidateCache, alloc, List.getElem?_append_left hc]
  exact ⟨⟨schemaOf_setSchema_ne _ _ _ _ hkey, rfl, rfl,
      find_calls_congr findRecord fuel w _ B args v rfl (fun _ _ => rfl) hvalid hscan⟩,
    ⟨hp1, hp2, hp3, find_calls_congr findRecord fuel w _ B args v hp1 hp3 hvalid hscan⟩,
    ⟨hi1, rfl, hi3, find_calls_congr findRecord fuel w _ B args v hi1 hi3 hvalid hscan⟩⟩

/-- C10 (witness): `User.map`, `User.preload` and `User.invalidateCache`
seen from `Team`, after `Team.preload([{id: 1}, {id: 2}])`, with the call
`Team.find(1)`. -/
theorem c10_state_isolation_witness :
    (schemaOf (map preloadedWorld User "address" Address).1.mapping Team
        = schemaOf preloadedWorld.mapping Team ∧
      (map preloadedWorld User "address" Address).1.cache = preloadedWorld.cache ∧
      (map preloadedWorld User "address" Address).1.heap = preloadedWorld.heap ∧
      (find fetchStub 2 (map preloadedWorld User "address" Address).1 Team [Val.num 1]).calls
        = (find fetchStub 2 preloadedWorld Team [Val.num 1]).calls) ∧
    (lookup Team.key (preload serialize preloadedWorld User (Val.num 1)).cache
        = lookup Team.key preloadedWorld.cache ∧
      (preload serialize preloadedWorld User (Val.num 1)).mapping = preloadedWorld.mapping ∧
      (∀ c : Nat, c < preloadedWorld.heap.length →
        (preload serialize preloadedWorld User (Val.num 1)).heap[c]?
          = preloadedWorld.heap[c]?) ∧
      (find fetchStub 2 (preload serialize preloadedWorld User (Val.num 1)) Team [Val.num 1]).calls
        = (find fetchStub 2 preloadedWorld Team [Val.num 1]).calls) ∧
    (lookup Team.key (invalidateCache preloadedWorld User).cache
        = lookup Team.key preloadedWorld.cache ∧
      (invalidateCache preloadedWorld User).mapping = preloadedWorld.mapping ∧
      (∀ c : Nat, c < preloadedWorld.heap.length →
        (invalidateCache preloadedWorld User).heap[c]? = preloadedWorld.heap[c]?) ∧
      (find fetchStub 2 (invalidateCache preloadedWorld User) Team [Val.num 1]).calls
        = (find fetchStub 2 preloadedWorld Team [Val.num 1]).calls) :=
  c10_state_isolation fetchStub 2 preloadedWorld User Team Address "address" (Val.num 1)
    [Val.num 1] (Val.ref 1) (by decide)
    (by
      intro c hc
      have hc2 : Val.ref 0 = Val.ref c := hc
      cases hc2
      decide)
    rfl

/-! ## C11: path resolution -/

theorem wellFormed_cell {h : Heap} (hwf : wellFormed h = true) {a : Nat} {o : Obj}
    (ho : h[a]? = some o) :
    (∀ kv ∈ o.fields, validVal h kv.2 = true) ∧ (∀ v ∈ o.elems, validVal h v = true) := by
  unfold wellFormed at hwf
  rw [List.all_eq_true] at hwf
  have hmem : o ∈ h := by
    obtain ⟨hlt, heq⟩ := List.getElem?_eq_some_iff.mp ho
    rw [← heq]
    exact List.getElem_mem _
  have h1 := hwf o hmem
  rw [Bool.and_eq_true, List.all_eq_true, List.all_eq_true] at h1
  exact h1

theorem validVal_lookup {h : Heap} (k : String) (fs : List (String × Val))
    (hfs : ∀ kv ∈ fs, validVal h kv.2 = true) : validVal h (lookup k fs) = true := by
  induction fs with
  | nil => rfl
  | cons kv rest ih =>
    obtain ⟨k2, v⟩ := kv
    unfold lookup
    split
    · exact hfs (k2, v) (List.mem_cons_self _ _)
    · exact ih (fun kv hkv => hfs kv (List.mem_cons_of_mem _ hkv))

theorem validVal_get {h : Heap} (o : Obj) (k : String)
    (ho : (∀ kv ∈ o.fields, validVal h kv.2 = true) ∧ (∀ v ∈ o.elems, validVal h v = true)) :
    validVal h (o.get k) = true := by
  unfold Obj.get
  split
  · split
    · rfl
    · split
      · rename_i i _
        by_cases hi : i < o.elems.length
        · rw [List.getD_eq_getElem _ _ hi]
          exact ho.2 _ (List.getElem_mem _)
        · rw [List.getD_eq_default _ _ (Nat.le_of_not_lt hi)]
          rfl
      · exact validVal_lookup k _ ho.1
  · exact validVal_lookup k _ ho.1

/-- In a well-formed heap a read on a valid value that is neither
`undefined` nor `null` succeeds and yields a valid value. -/
theorem getProp_wellFormed {h : Heap} (hwf : wellFormed h = true) {x : Val} (k : String)
    (hx : validVal h x = true) (hn : isNullish x = false) :
    ∃ w, getProp h x k = Except.ok w ∧ validVal h w = true := by
  cases x with
  | ref a =>
    have hlt : a < h.length := by simpa [validVal] using hx
    have ho : h[a]? = some h[a] := by simp [hlt]
    exact ⟨h[a].get k, by simp [getProp, ho], validVal_get _ k (wellFormed_cell hwf ho)⟩
  | undef => simp [isNullish] at hn
  | null => simp [isNullish] at hn
  | bool b => exact ⟨Val.undef, rfl, rfl⟩
  | num n => exact ⟨Val.undef, rfl, rfl⟩
  | str s => exact ⟨Val.undef, rfl, rfl⟩

theorem any_range_succ (f : Nat → Bool) (n : Nat) :
    (List.range (n + 1)).any f = (f 0 || (List.range n).any (fun i => f (i + 1))) := by
  rw [List.range_succ_eq_map, List.any_cons, List.any_map]
  rfl

theorem findPathLoop_eq_resolveSpec {h : Heap} (hwf : wellFormed h = true) (segs : List String) :
    ∀ root : Val, validVal h root = true → isNullish root = false →
      findPathLoop h root segs = Except.ok (resolveSpec h root segs) := by
  induction segs with
  | nil =>
    intro root _ _
    simp [findPathLoop, resolveSpec, reached]
  | cons seg rest ih =>
    intro root hv hn
    obtain ⟨w, hw, hwv⟩ := getProp_wellFormed hwf seg hv hn
    have hstep : ∀ i, reached h root ((seg :: rest).take (i + 1)) = reached h w (rest.take i) := by
      intro i
      simp [reached, hw]
    have hall : reached h root (seg :: rest) = reached h w rest := by
      simp [reached, hw]
    simp only [findPathLoop, hw, resolveSpec, List.length_cons, any_range_succ, hstep, hall]
    by_cases hnw : isNullish w = true
    · simp [hnw, reached]
    · have hnw2 : isNullish w = false := by simpa using hnw
      rw [ih w hwv hnw2]
      simp [hnw2, reached, resolveSpec]

/-- C11: in a well-formed heap, for every root that is neither `undefined`
nor `null` and every path, `findPath(root, path)` is `undefined` when the
value reached by some non-empty prefix of the segments is `undefined` or
`null`, and is the value reached by all the segments otherwise; so a
terminal value that is defined and falsy is returned as it is. -/
theorem c11_find_path (h : Heap) (root : Val) (path : String)
    (hwf : wellFormed h = true) (hroot : validVal h root = true)
    (hn : isNullish root = false) :
    findPath h root path = Except.ok (resolveSpec h root (split path)) ∧
    (∀ v, reached h root (split path) = v → isNullish v = false →
      (∀ i, i < (split path).length →
        isNullish (reached h root ((split path).take (i + 1))) = false) →
      findPath h root path = Except.ok v) := by
  have hmain := findPathLoop_eq_resolveSpec hwf (split path) root hroot hn
  refine ⟨hmain, ?_⟩
  intro v hv _ hall
  unfold findPath
  rw [hmain]
  have hany : (List.range (split path).length).any
      (fun i => isNullish (reached h root ((split path).take (i + 1)))) = false := by
    rw [List.any_eq_false]
    intro i hi
    have := hall i (List.mem_range.mp hi)
    simp [this]
  simp [resolveSpec, hany, hv]

/-- C11 (witness): in `{a: {n: 0, s: "", f: false, z: null}}` the path
`a.n` resolves to `0`; `a.s`, `a.f` resolve to the empty string and to
`false`, while `a.z`, `a.z.q` and `b` are absent. -/
theorem c11_find_path_witness :
    (findPath falsyPayload (Val.ref 0) "a.n"
        = Except.ok (resolveSpec falsyPayload (Val.ref 0) (split "a.n")) ∧
      (∀ v, reached falsyPayload (Val.ref 0) (split "a.n") = v → isNullish v = false →
        (∀ i, i < (split "a.n").length →
          isNullish (reached falsyPayload (Val.ref 0) ((split "a.n").take (i + 1))) = false) →
        findPath falsyPayload (Val.ref 0) "a.n" = Except.ok v)) ∧
    findPath falsyPayload (Val.ref 0) "a.n" = Except.ok (Val.num 0) ∧
    findPath falsyPayload (Val.ref 0) "a.s" = Except.ok (Val.str "") ∧
    findPath falsyPayload (Val.ref 0) "a.f" = Except.ok (Val.bool false) ∧
    findPath falsyPayload (Val.ref 0) "a.z" = Except.ok Val.undef ∧
    findPath falsyPayload (Val.ref 0) "a.z.q" = Except.ok Val.undef ∧
    findPath falsyPayload (Val.ref 0) "b" = Except.ok Val.undef :=
  ⟨c11_find_path falsyPayload (Val.ref 0) "a.n" (by decide) (by decide) (by decide),
    rfl, rfl, rfl, rfl, rfl, rfl⟩

/-! ## C12: assign, then resolve -/

theorem get_put_any (o : Obj) (k : String) (v : Val)
    (hk : (o.kind == Kind.array && k == "length") = false) : (o.put k v).get k = v := by
  obtain ⟨kind, fields, elems⟩ := o
  cases kind with
  | array =>
    have hlen : k ≠ "length" := by
      intro h1
      simp [h1] at hk
    cases hi : arrayIndex k with
    | none => simp [Obj.get, Obj.put, hi, hlen, lookup_setField]
    | some i =>
      by_cases hlt : i < elems.length
      · simp [Obj.get, Obj.put, hi, hlen, hlt]
      · have hle : elems.length ≤ i := Nat.le_of_not_lt hlt
        simp only [Obj.get, Obj.put, hi, hlen, hlt, if_false]
        rw [List.getD_eq_getElem?_getD, List.getElem?_append_right (by simp; omega)]
        simp only [List.length_append, List.length_replicate]
        have hz : i - (elems.length + (i - elems.length)) = 0 := by omega
        rw [hz]
        rfl
  | plain => simp [Obj.get, Obj.put, lookup_setField]
  | inst ty m => simp [Obj.get, Obj.put, lookup_setField]
  | holder => simp [Obj.get, Obj.put, lookup_setField]

theorem assign_then_resolve (h : Heap) (value : Val) (hv : isNullish value = false)
    (segs : List String) :
    ∀ x : Val, assignable h x segs = true → (pathCells h x segs).Nodup →
      ∃ h2 P, setPathLoop h value x segs = Except.ok h2 ∧
        findPathLoop h2 x segs = Except.ok value ∧
        P ∈ pathCells h x segs ∧
        (∀ c : Nat, c ≠ P → h2[c]? = h[c]?) ∧
        (∀ y, kindOf h2 y = kindOf h y) ∧ h2.length = h.length := by
  induction segs with
  | nil => intro x ha; simp [assignable] at ha
  | cons seg rest ih =>
    intro x ha hnd
    cases x with
    | ref c =>
      cases ho : h[c]? with
      | none => cases rest <;> simp [assignable, ho] at ha
      | some o =>
        have hcells : pathCells h (Val.ref c) (seg :: rest)
            = c :: pathCells h (o.get seg) rest := by
          simp [pathCells, ho]
        rw [hcells] at hnd
        cases rest with
        | nil =>
          simp only [assignable, ho, Bool.not_eq_true'] at ha
          refine ⟨h.set c (o.put seg value), c, ?_, ?_, ?_, ?_, ?_, ?_⟩
          · simp [setPathLoop, setProp, ho]
          · have h2c : (h.set c (o.put seg value))[c]? = some (o.put seg value) := by
              rw [List.getElem?_set]; simp [getElem?_lt ho]
            simp [findPathLoop, getProp, h2c, get_put_any o seg value ha, hv]
          · rw [hcells]; exact List.mem_cons_self _ _
          · intro d hd
            rw [List.getElem?_set_ne (Ne.symm hd)]
          · exact kindOf_set_put h c o seg value ho
          · simp
        | cons seg2 rest2 =>
          simp only [assignable, ho] at ha
          obtain ⟨hcn, hnd2⟩ := List.nodup_cons.mp hnd
          obtain ⟨h2, P, hset, hfind, hP, hframe, hkind, hlen⟩ := ih (o.get seg) ha hnd2
          have hcP : c ≠ P := by
            intro heq
            subst heq
            exact hcn hP
          have h2c : h2[c]? = some o := by rw [hframe c hcP]; exact ho
          have hnn : isNullish (o.get seg) = false := by
            cases hg : o.get seg with
            | ref d => rfl
            | _ => simp [hg, assignable] at ha
          refine ⟨h2, P, ?_, ?_, ?_, hframe, hkind, hlen⟩
          · simp only [setPathLoop, getProp, ho]
            exact hset
          · simp only [findPathLoop, getProp, h2c, hnn]
            exact hfind
          · rw [hcells]; exact List.mem_cons_of_mem _ hP
    | undef => cases rest <;> simp [assignable] at ha
    | null => cases rest <;> simp [assignable] at ha
    | bool b => cases rest <;> simp [assignable] at ha
    | num n => cases rest <;> simp [assignable] at ha
    | str s => cases rest <;> simp [assignable] at ha

/-- C12 (as stated, refuted): in the object `root` with `root.a === root`
the only intermediate segment of `a.a` resolves to an object, yet after
`_setObjectPathToValue(root, 5, "a.a")` the call `findPath(root, "a.a")`
returns `undefined`, not `5`. -/
theorem c12_counterexample :
    assignable selfLoop (Val.ref 0) (split "a.a") = true ∧
    isNullish (Val.num 5) = false ∧
    ∃ h2, _setObjectPathToValue selfLoop (Val.ref 0) (Val.num 5) "a.a" = Except.ok h2 ∧
      findPath h2 (Val.ref 0) "a.a" = Except.ok Val.undef :=
  ⟨by decide, rfl, _, rfl, rfl⟩

/-- C12 (amended): for every root, path and value `v` that is neither
`null` nor `undefined`: if every segment but the last leads from an object
to an object, these objects (the root included) are pairwise distinct, and
the last segment is not the `length` of an array, then
`_setObjectPathToValue(root, v, path)` succeeds, `findPath(root, path)`
then returns `v`, and no structure has been created: the heap holds the
same objects, of the same kinds, and only the object that received the
last segment has changed. -/
theorem c12_assign_resolve (h : Heap) (root v : Val) (path : String)
    (hv : isNullish v = false)
    (hassign : assignable h root (split path) = true)
    (hnd : (pathCells h root (split path)).Nodup) :
    ∃ h2 P, _setObjectPathToValue h root v path = Except.ok h2 ∧
      findPath h2 root path = Except.ok v ∧
      P ∈ pathCells h root (split path) ∧
      (∀ c : Nat, c ≠ P → h2[c]? = h[c]?) ∧
      (∀ y, kindOf h2 y = kindOf h y) ∧ h2.length = h.length :=
  assign_then_resolve h v hv (split path) root hassign hnd

/-- C12 (witness): in `{a: {n: 0, ...}}` the value `7` is assigned at the
new path `a.q` and read back. -/
theorem c12_assign_resolve_witness :
    ∃ h2 P, _setObjectPathToValue falsyPayload (Val.ref 0) (Val.num 7) "a.q" = Except.ok h2 ∧
      findPath h2 (Val.ref 0) "a.q" = Except.ok (Val.num 7) ∧
      P ∈ pathCells falsyPayload (Val.ref 0) (split "a.q") ∧
      (∀ c : Nat, c ≠ P → h2[c]? = falsyPayload[c]?) ∧
      (∀ y, kindOf h2 y = kindOf falsyPayload y) ∧ h2.length = falsyPayload.length :=
  c12_assign_resolve falsyPayload (Val.ref 0) (Val.num 7) "a.q" rfl (by decide) (by decide)

/-! ## C13: a declared path that is absent -/

/-- C13: when a declared path resolves to absent on an instance (`findPath`
returns `undefined`, which it does for a missing value and for `null`),
applying the schema entry raises no error and leaves every object, the
instance included, exactly as it was. -/
theorem c13_absent_skip (S : Mapping) (n : Nat) (obj : Val) (path : String) (T : ModelType)
    (h : Heap) (habsent : findPath h obj path = Except.ok Val.undef) :
    _deepFindAndApply S (n + 1) obj path T h = Except.ok h := by
  simp [_deepFindAndApply, habsent, truthy]

/-- C13 (witness): the team of `teamHeap` has no `captain`; the entry
`captain -> Address` leaves the heap as it is, and so does an entry whose
path holds `null`. -/
theorem c13_absent_skip_witness :
    _deepFindAndApply teamSchema 1 (Val.ref 0) "captain" Address teamHeap = Except.ok teamHeap ∧
    findPath falsyPayload (Val.ref 0) "a.z" = Except.ok Val.undef ∧
    _deepFindAndApply [] 1 (Val.ref 0) "a.z" Address falsyPayload = Except.ok falsyPayload :=
  ⟨c13_absent_skip teamSchema 0 (Val.ref 0) "captain" Address teamHeap rfl, rfl, rfl⟩

/-! ## C14: mapping an instance again -/

theorem set_self {α : Type} (l : List α) : ∀ (i : Nat) (a : α), l[i]? = some a → l.set i a = l := by
  induction l with
  | nil => intro i a h; simp at h
  | cons x rest ih =>
    intro i a h
    cases i with
    | zero =>
      simp at h
      simp [h]
    | succ i =>
      simp at h
      simp [ih i a h]

theorem setField_same (k : String) (v : Val) (fs : List (String × Val))
    (hl : lookup k fs = v) (hv : v ≠ Val.undef) : setField k v fs = fs := by
  induction fs with
  | nil => simp [lookup] at hl; exact absurd hl.symm hv
  | cons kv rest ih =>
    obtain ⟨k2, v2⟩ := kv
    by_cases hk : k2 = k
    · simp [lookup, hk] at hl
      simp [setField, hk, hl]
    · simp [lookup, hk] at hl
      simp [setField, hk, ih hl]

theorem put_same (o : Obj) (k : String) (a : Nat) (hget : o.get k = Val.ref a) :
    o.put k (Val.ref a) = o := by
  obtain ⟨kind, fields, elems⟩ := o
  cases kind with
  | array =>
    simp only [Obj.get] at hget
    by_cases hlen : k = "length"
    · simp [hlen] at hget
    · simp only [hlen, if_false] at hget
      cases hi : arrayIndex k with
      | none =>
        simp only [hi] at hget
        simp [Obj.put, hi, setField_same k _ _ hget (by simp)]
      | some i =>
        simp only [hi] at hget
        have hlt : i < elems.length := by
          by_contra hcon
          rw [List.getD_eq_default _ _ (Nat.le_of_not_lt hcon)] at hget
          cases hget
        have hel : elems[i]? = some (Val.ref a) := by
          rw [List.getD_eq_getElem _ _ hlt] at hget
          simp [hlt, hget]
        simp [Obj.put, hi, hlt, set_self elems i _ hel]
  | plain =>
    simp only [Obj.get] at hget
    simp [Obj.put, setField_same k _ _ hget (by simp)]
  | inst ty m =>
    simp only [Obj.get] at hget
    simp [Obj.put, setField_same k _ _ hget (by simp)]
  | holder =>
    simp only [Obj.get] at hget
    simp [Obj.put, setField_same k _ _ hget (by simp)]

/-- Assigning to a path the object it already resolves to changes nothing. -/
theorem set_same (h : Heap) (a : Nat) (segs : List String) :
    ∀ x : Val, segs ≠ [] → findPathLoop h x segs = Except.ok (Val.ref a) →
      setPathLoop h (Val.ref a) x segs = Except.ok h := by
  induction segs with
  | nil => intro x hne; exact absurd rfl hne
  | cons seg rest ih =>
    intro x _ hf
    obtain ⟨c, o, hx, ho, hn, hrest⟩ := findPathLoop_cons_ref hf
    subst hx
    cases rest with
    | nil =>
      simp only [findPathLoop] at hrest
      have hget : o.get seg = Val.ref a := by injection hrest
      simp [setPathLoop, setProp, ho, put_same o seg a hget, set_self h c o ho]
    | cons seg2 rest2 =>
      simp only [setPathLoop, getProp, ho]
      exact ih (o.get seg) (by simp) hrest

theorem isInstanceOf_ref {h : Heap} {v : Val} {t : ModelType}
    (hi : isInstanceOf h v t = true) :
    ∃ a, v = Val.ref a ∧ isArray h v = false := by
  cases v with
  | ref a =>
    refine ⟨a, rfl, ?_⟩
    unfold isInstanceOf at hi
    split at hi
    · rename_i ty m hk
      simp [isArray, hk]
    · cases hi
  | _ => simp [isInstanceOf, kindOf] at hi

theorem mapped_instance {S : Mapping} {h : Heap} {n : Nat} {t : ModelType} {x : Val}
    (hm : mapped S h n t x = true) : isInstanceOf h x t = true := by
  cases n with
  | zero => simp [mapped] at hm
  | succ n =>
    simp only [mapped, Bool.and_eq_true] at hm
    exact hm.1

theorem mapped_again (S : Mapping) (h : Heap) (n : Nat) :
    ∀ (t : ModelType) (x : Val), mapped S h n t x = true →
      applyMapping S (3 * n) t x h = Except.ok (x, h) := by
  induction n with
  | zero => intro t x hm; simp [mapped] at hm
  | succ n ih =>
    intro t x hm
    simp only [mapped, Bool.and_eq_true, List.all_eq_true] at hm
    obtain ⟨hinst, hall⟩ := hm
    obtain ⟨a, hxa, hxarr⟩ := isInstanceOf_ref hinst
    have hentries : ∀ es : List (String × ModelType), (∀ e ∈ es, e ∈ schemaOf S t) →
        forEntries (fun prop model hh => _deepFindAndApply S (3 * n + 1) x prop model hh) es h
          = Except.ok h := by
      intro es
      induction es with
      | nil => intro _; rfl
      | cons e rest ihes =>
        intro hsub
        obtain ⟨prop, model⟩ := e
        have he := hall (prop, model) (hsub _ (List.mem_cons_self _ _))
        have hstep : _deepFindAndApply S (3 * n + 1) x prop model h = Except.ok h := by
          cases hf : findPath h x prop with
          | error err => simp [hf] at he
          | ok v =>
            simp only [hf, Bool.or_eq_true, Bool.not_eq_true'] at he
            rcases he with hfalsy | hmv
            · simp [_deepFindAndApply, hf, hfalsy]
            · obtain ⟨c, hvc, hvarr⟩ := isInstanceOf_ref (mapped_instance hmv)
              subst hvc
              have hrun := ih model (Val.ref c) hmv
              have hset : _setObjectPathToValue h x (Val.ref c) prop = Except.ok h :=
                set_same h c (split prop) x (split_ne_nil prop) hf
              simp [_deepFindAndApply, hf, truthy, isObject, hvarr, hrun, hset]
        simp only [forEntries, hstep]
        exact ihes (fun e he2 => hsub e (List.mem_cons_of_mem _ he2))
    have h3 : 3 * (n + 1) = (3 * n + 1 + 1) + 1 := by omega
    rw [h3]
    simp only [applyMapping, instantiate, hinst, if_true, hxarr, _applyMapping,
      hentries _ (fun _ he => he)]
    simp

/-- C14 (as stated, refuted): with `Team.map("members", Address)` and the
payload `{name: "A", members: [{city: "X"}]}`, mapping the result of
`Team.applyMapping` again returns the same instance, but its `members`, a
Collection after the first call, is an instance of `Address` wrapped around
that Collection after the second. -/
theorem c14_counterexample :
    ∃ r h1 h2, applyMapping teamSchema 6 Team (Val.ref 0) teamPayload = Except.ok (r, h1) ∧
      applyMapping teamSchema 6 Team r h1 = Except.ok (r, h2) ∧
      (∃ c, findPath h1 r "members" = Except.ok c ∧ kindOf h1 c = some Kind.holder) ∧
      (∃ c, findPath h2 r "members" = Except.ok c ∧
        kindOf h2 c = some (Kind.inst Address.id false) ∧
        (∃ d, findPath h2 r "members.content" = Except.ok d ∧ isArray h2 d = true)) :=
  ⟨_, _, _, rfl, rfl, ⟨_, rfl, rfl⟩, ⟨_, rfl, rfl, ⟨_, rfl, rfl⟩⟩⟩

/-- C14 (amended): an instance of `M` in which every declared path, here and
in the instances found at the declared paths, is falsy or holds an instance
of its target type (so none holds a Collection) is returned by
`M.applyMapping` as it is: the very same object, no object of the heap
changed, nothing wrapped a second time. -/
theorem c14_idempotent (S : Mapping) (h : Heap) (n : Nat) (M : ModelType) (x : Val)
    (hm : mapped S h n M x = true) :
    applyMapping S (3 * n) M x h = Except.ok (x, h) :=
  mapped_again S h n M x hm

/-- C14 (witness): `User.applyMapping` of `{id: 1, address: {city: "X"}}`
yields a mapped instance, and mapping it again returns it unchanged. -/
theorem c14_idempotent_witness :
    ∃ r h1, applyMapping userSchema 5 User (Val.ref 0) userPayload = Except.ok (r, h1) ∧
      mapped userSchema h1 2 User r = true ∧
      applyMapping userSchema (3 * 2) User r h1 = Except.ok (r, h1) :=
  ⟨Val.ref 2, _, rfl, rfl, c14_idempotent userSchema _ 2 User (Val.ref 2) rfl⟩

/-! ## C15: what mapping does to the raw record -/

theorem schemaOf_setSchema_self (es : List (String × ModelType)) (S : Mapping) (A : ModelType) :
    schemaOf (setSchema A.key es S) A = es := by
  induction S with
  | nil => simp [setSchema, schemaOf]
  | cons e rest ih =>
    obtain ⟨k2, es2⟩ := e
    by_cases hk : k2 = A.key
    · simp [setSchema, schemaOf, hk]
    · simp [setSchema, schemaOf, hk, ih]

theorem targetOf_setEntry_self (k : String) (T : ModelType) (es : List (String × ModelType)) :
    targetOf (setEntry k T es) k = some T := by
  induction es with
  | nil => simp [setEntry, targetOf]
  | cons e rest ih =>
    obtain ⟨k2, t2⟩ := e
    by_cases hk : k2 = k
    · simp [setEntry, targetOf, hk]
    · simp [setEntry, targetOf, hk, ih]

theorem targetOf_setEntry_ne (k p : String) (T : ModelType) (es : List (String × ModelType))
    (hne : p ≠ k) : targetOf (setEntry k T es) p = targetOf es p := by
  induction es with
  | nil => simp [setEntry, targetOf, Ne.symm hne]
  | cons e rest ih =>
    obtain ⟨k2, t2⟩ := e
    by_cases hk : k2 = k
    · subst hk
      simp [setEntry, targetOf, Ne.symm hne]
    · by_cases hk2 : k2 = p
      · subst hk2
        simp [setEntry, targetOf, hk]
      · simp [setEntry, targetOf, hk, hk2, ih]

/-- C17: after `A.map(path, T)` the schema of `A` maps `path` to `T`,
whatever it mapped it to before; every other path has the target it had
(none if it had none); the call returns `A` and touches neither the caches
nor the heap. -/
theorem c17_map_declares (w : World) (A T : ModelType) (path : String) :
    targetOf (schemaOf (map w A path T).1.mapping A) path = some T ∧
    (∀ p, p ≠ path →
      targetOf (schemaOf (map w A path T).1.mapping A) p = targetOf (schemaOf w.mapping A) p) ∧
    (map w A path T).2 = A ∧
    (map w A path T).1.cache = w.cache ∧ (map w A path T).1.heap = w.heap := by
  refine ⟨?_, ?_, rfl, rfl, rfl⟩
  · simp only [map, schemaOf_setSchema_self]
    exact targetOf_setEntry_self _ _ _
  · intro p hp
    simp only [map, schemaOf_setSchema_self]
    exact targetOf_setEntry_ne _ _ _ _ hp

/-! ## C18: find without an id -/

theorem refBelow_ref {rk : Nat → Nat} {n b d : Nat} :
    refBelow rk n b (Val.ref d) = true ↔ d < n ∧ rk d < b := by
  simp [refBelow]

theorem refBelow_base {rk : Nat → Nat} {n b : Nat} {v : Val}
    (hv : refBelow rk n (b + 1) v = true) : base rk v ≤ b := by
  cases v with
  | ref d =>
    have := (refBelow_ref.mp hv).2
    simp only [base]; omega
  | _ => simp [base]

theorem lookup_mem {k : String} {v : Val} :
    ∀ {fs : List (String × Val)}, lookup k fs = v → v ≠ Val.undef → (k, v) ∈ fs := by
  intro fs
  induction fs with
  | nil => intro hl hv; exact absurd hl.symm hv
  | cons e rest ih =>
    obtain ⟨k2, v2⟩ := e
    intro hl hv
    simp only [lookup] at hl
    by_cases hk : k2 = k
    · simp only [hk, if_true] at hl
      subst hl; subst hk
      exact List.mem_cons_self _ _
    · simp only [hk, if_false] at hl
      exact List.mem_cons_of_mem _ (ih hl hv)

theorem setField_mem {k : String} {v : Val} {kv : String × Val} :
    ∀ {fs : List (String × Val)}, kv ∈ setField k v fs → kv ∈ fs ∨ kv = (k, v) := by
  intro fs
  induction fs with
  | nil =>
    intro hm
    simp only [setField, List.mem_singleton] at hm
    exact Or.inr hm
  | cons e rest ih =>
    obtain ⟨k2, v2⟩ := e
    intro hm
    simp only [setField] at hm
    by_cases hk : k2 = k
    · simp only [hk, if_true, List.mem_cons] at hm
      rcases hm with h1 | h1
      · exact Or.inr h1
      · exact Or.inl (List.mem_cons_of_mem _ h1)
    · simp only [hk, if_false, List.mem_cons] at hm
      rcases hm with h1 | h1
      · exact Or.inl (h1 ▸ List.mem_cons_self _ _)
      · rcases ih h1 with h2 | h2
        · exact Or.inl (List.mem_cons_of_mem _ h2)
        · exact Or.inr h2

theorem indexedFields_mem {kv : String × Val} :
    ∀ {vs : List Val} {i : Nat}, kv ∈ indexedFields vs i → kv.2 ∈ vs := by
  intro vs
  induction vs with
  | nil => intro i hm; simp [indexedFields] at hm
  | cons v rest ih =>
    intro i hm
    simp only [indexedFields, List.mem_cons] at hm
    rcases hm with h1 | h1
    · subst h1; exact List.mem_cons_self _ _
    · exact List.mem_cons_of_mem _ (ih h1)

/-- Reading a payload key of a cell of a ranked heap yields a primitive or a
reference to a cell of smaller rank. -/
theorem Ranked.get {rk : Nat → Nat} {h : Heap} (hR : Ranked rk h) {c : Nat} {o : Obj}
    (ho : h[c]? = some o) {k : String} (hk : reserved k = false) :
    refBelow rk h.length (rk c) (o.get k) = true := by
  obtain ⟨hf, he⟩ := hR c o ho
  have hlook : refBelow rk h.length (rk c) (lookup k o.fields) = true := by
    by_cases hu : lookup k o.fields = Val.undef
    · rw [hu]; rfl
    · exact hf _ (lookup_mem rfl hu) hk
  unfold Obj.get
  split
  · split
    · rfl
    · split
      · rename_i i _
        by_cases hi : i < o.elems.length
        · rw [List.getD_eq_getElem _ _ hi]
          exact he _ (List.getElem_mem _)
        · rw [List.getD_eq_default _ _ (Nat.le_of_not_lt hi)]
          rfl
      · exact hlook
  · exact hlook

theorem Ranked.own {rk : Nat → Nat} {h : Heap} (hR : Ranked rk h) {x : Val} :
    ∀ kv ∈ ownFields h x, reserved kv.1 = false →
      refBelow rk h.length (base rk x) kv.2 = true := by
  intro kv hkv hres
  cases x with
  | ref c =>
    simp only [ownFields] at hkv
    cases ho : h[c]? with
    | none => rw [ho] at hkv; simp at hkv
    | some o =>
      rw [ho] at hkv
      obtain ⟨hf, he⟩ := hR c o ho
      simp only [Obj.own] at hkv
      simp only [base]
      split at hkv
      · rcases List.mem_append.mp hkv with h1 | h1
        · exact he _ (indexedFields_mem h1)
        · exact hf _ h1 hres
      · exact hf _ hkv hres
  | _ => simp [ownFields] at hkv

theorem put_fields_mem {o : Obj} {k : String} {v : Val} {kv : String × Val}
    (hm : kv ∈ (o.put k v).fields) : kv ∈ o.fields ∨ kv.2 = v := by
  unfold Obj.put at hm
  split at hm
  · split at hm
    · split at hm
      · exact Or.inl hm
      · exact Or.inl hm
    · rcases setField_mem hm with h1 | h1
      · exact Or.inl h1
      · exact Or.inr (by rw [h1])
  · rcases setField_mem hm with h1 | h1
    · exact Or.inl h1
    · exact Or.inr (by rw [h1])

theorem put_elems_mem {o : Obj} {k : String} {v w : Val}
    (hm : w ∈ (o.put k v).elems) : w ∈ o.elems ∨ w = v ∨ w = Val.undef := by
  unfold Obj.put at hm
  split at hm
  · split at hm
    · split at hm
      · rcases List.mem_or_eq_of_mem_set hm with h1 | h1
        · exact Or.inl h1
        · exact Or.inr (Or.inl h1)
      · simp only [List.append_assoc, List.mem_append, List.mem_replicate, List.mem_singleton]
          at hm
        rcases hm with h1 | h1 | h1
        · exact Or.inl h1
        · exact Or.inr (Or.inr h1.2)
        · exact Or.inr (Or.inl h1)
    · exact Or.inl hm
  · exact Or.inl hm

theorem findPathLoop_cons_truthy {h : Heap} {x cur : Val} {seg : String} {rest : List String}
    (hf : findPathLoop h x (seg :: rest) = Except.ok cur) (ht : truthy cur = true) :
    ∃ c o, x = Val.ref c ∧ h[c]? = some o ∧ isNullish (o.get seg) = false ∧
      findPathLoop h (o.get seg) rest = Except.ok cur := by
  simp only [findPathLoop] at hf
  split at hf
  · cases hf
  · rename_i w hw
    split at hf
    · cases hf; simp [truthy] at ht
    · rename_i hn
      have hn2 : isNullish w = false := by simpa using hn
      obtain ⟨c, o, hx, ho, hwo⟩ := getProp_ref_of_not_nullish hw hn2
      subst hwo
      exact ⟨c, o, hx, ho, hn2, hf⟩

theorem schemaOf_plain {S : Mapping} (hS : plainPaths S = true) (t : ModelType) :
    ∀ e ∈ schemaOf S t, ∀ s ∈ split e.1, reserved s = false := by
  induction S with
  | nil => intro e he; simp [schemaOf] at he
  | cons entry rest ih =>
    obtain ⟨k, es⟩ := entry
    simp only [plainPaths, List.all_cons, Bool.and_eq_true] at hS
    intro e he
    simp only [schemaOf] at he
    by_cases hk : k = t.key
    · simp only [hk, if_true] at he
      intro s hs
      have h1 := hS.1
      simp only [List.all_eq_true] at h1
      simpa using h1 e he s hs
    · simp only [hk, if_false] at he
      exact ih hS.2 e he

/-- C20 (counterexample).  The declared paths `a.c` and `b.c` are apart, and
the two schemas hold the same entries in the two possible orders.  On the
`User` instance whose fields `a` and `b` hold the same object, the path
`a.c` ends up holding a `Team` when `a.c` is mapped first, and an `Address`
when `b.c` is mapped first: the second entry maps again what the first one
has written. -/
theorem c20_counterexample :
    pathsApart (schemaOf aliasSchemaAB User) = true ∧
    (schemaOf aliasSchemaAB User).Perm (schemaOf aliasSchemaBA User) ∧
    ∃ (r1 : Val) (h1 : Heap) (r2 : Val) (h2 : Heap) (v1 v2 : Val),
      applyMapping aliasSchemaAB 6 User (Val.ref 0) aliasHeap = Except.ok (r1, h1) ∧
      applyMapping aliasSchemaBA 6 User (Val.ref 0) aliasHeap = Except.ok (r2, h2) ∧
      findPath h1 r1 "a.c" = Except.ok v1 ∧ kindOf h1 v1 = some (Kind.inst Team.id false) ∧
      findPath h2 r2 "a.c" = Except.ok v2 ∧ kindOf h2 v2 = some (Kind.inst Address.id false) :=
  ⟨rfl, List.Perm.swap _ _ _, _, _, _, _, _, _, rfl, rfl, rfl, rfl, rfl, rfl⟩

/-! ## Renaming addresses -/

theorem shift_old {n0 δ a : Nat} (h : a < n0) : shift n0 δ a = a := by
  simp [shift, h]

theorem shift_new {n0 δ a : Nat} (h : n0 ≤ a) : shift n0 δ a = a + δ := by
  have : ¬ a < n0 := by omega
  simp [shift, this]

theorem shift_inj {n0 δ a b : Nat} (h : shift n0 δ a = shift n0 δ b) : a = b := by
  unfold shift at h
  split at h <;> split at h <;> omega

theorem shift_lt {n0 δ len a : Nat} (hn : n0 ≤ len) : shift n0 δ a < len + δ ↔ a < len := by
  unfold shift
  split <;> omega

theorem shift_ge {n0 a : Nat} (δ : Nat) (h : n0 ≤ a) : n0 + δ ≤ shift n0 δ a := by
  rw [shift_new h]; omega

theorem renVal_truthy (n0 δ : Nat) (v : Val) : truthy (renVal n0 δ v) = truthy v := by
  cases v <;> rfl

theorem renVal_isNullish (n0 δ : Nat) (v : Val) : isNullish (renVal n0 δ v) = isNullish v := by
  cases v <;> rfl

theorem renVal_isObject (n0 δ : Nat) (v : Val) : isObject (renVal n0 δ v) = isObject v := by
  cases v <;> rfl

theorem lookup_map (f : Val → Val) (hf : f Val.undef = Val.undef) (k : String) :
    ∀ fs : List (String × Val),
      lookup k (fs.map (fun kv => (kv.1, f kv.2))) = f (lookup k fs) := by
  intro fs
  induction fs with
  | nil => simp [lookup, hf]
  | cons e rest ih =>
    obtain ⟨k2, v2⟩ := e
    by_cases hk : k2 = k
    · simp [lookup, hk]
    · simp [lookup, hk, ih]

theorem setField_map (f : Val → Val) (k : String) (v : Val) :
    ∀ fs : List (String × Val),
      setField k (f v) (fs.map (fun kv => (kv.1, f kv.2))) =
        (setField k v fs).map (fun kv => (kv.1, f kv.2)) := by
  intro fs
  induction fs with
  | nil => simp [setField]
  | cons e rest ih =>
    obtain ⟨k2, v2⟩ := e
    by_cases hk : k2 = k
    · simp [setField, hk]
    · simp [setField, hk, ih]

theorem indexedFields_map (f : Val → Val) :
    ∀ (vs : List Val) (i : Nat),
      indexedFields (vs.map f) i = (indexedFields vs i).map (fun kv => (kv.1, f kv.2)) := by
  intro vs
  induction vs with
  | nil => intro i; simp [indexedFields]
  | cons v rest ih => intro i; simp [indexedFields, ih]

theorem renCell_get (n0 δ : Nat) (o : Obj) (k : String) :
    (renCell n0 δ o).get k = renVal n0 δ (o.get k) := by
  have hl := lookup_map (renVal n0 δ) rfl k o.fields
  unfold Obj.get
  simp only [renCell]
  split
  · split
    · simp [renVal]
    · split
      · rename_i i _
        simp only [List.getD_eq_getElem?_getD, List.getElem?_map]
        cases o.elems[i]? <;> simp [renVal]
      · exact hl
  · exact hl

theorem renCell_put (n0 δ : Nat) (o : Obj) (k : String) (v : Val) :
    renCell n0 δ (o.put k v) = (renCell n0 δ o).put k (renVal n0 δ v) := by
  have hs := setField_map (renVal n0 δ) k v o.fields
  unfold Obj.put
  simp only [renCell]
  split
  · split
    · rename_i i _
      by_cases hi : i < o.elems.length
      · simp [hi, List.map_set]
      · simp [hi, renVal]
    · simp [hs]
  · simp [hs]

theorem renCell_own (n0 δ : Nat) (o : Obj) :
    (renCell n0 δ o).own = o.own.map (fun kv => (kv.1, renVal n0 δ kv.2)) := by
  unfold Obj.own
  simp only [renCell]
  split
  · simp [indexedFields_map]
  · rfl

/-! ## The primitive operations, run later in the heap -/

theorem ValG.mono {F : List Nat} {n0 len len2 : Nat} {v : Val} (hv : ValG F n0 len v)
    (hl : len ≤ len2) : ValG F n0 len2 v :=
  fun a ha => ⟨(hv a ha).1, Nat.lt_of_lt_of_le (hv a ha).2 hl⟩

theorem CellG.grow {F : List Nat} {n0 len len2 : Nat} {o : Obj} (ho : CellG F n0 len o)
    (hl : len ≤ len2) : CellG F n0 len2 o :=
  ⟨fun kv hkv hres => (ho.1 kv hkv hres).mono hl, fun v hv => (ho.2 v hv).mono hl⟩

theorem ValG.undef (F : List Nat) (n0 len : Nat) : ValG F n0 len Val.undef := by
  intro a ha; cases ha

theorem Sim.deref {F : List Nat} {n0 δ : Nat} {h h2 : Heap} (s : Sim F n0 δ h h2) {a : Nat}
    (hv : ValG F n0 h.length (Val.ref a)) :
    ∃ o, h[a]? = some o ∧ h2[shift n0 δ a]? = some (renCell n0 δ o) ∧
      CellG F n0 h.length o := by
  obtain ⟨hG, hlt⟩ := hv a rfl
  have ho : h[a]? = some h[a] := by simp [hlt]
  exact ⟨h[a], ho, (s.cell a _ ho hG).1, (s.cell a _ ho hG).2⟩

theorem not_parent {k : String} (hk : reserved k = false) : k ≠ "_parent" := by
  intro hh
  rw [hh] at hk
  simp [reserved] at hk

theorem CellG.read {F : List Nat} {n0 len : Nat} {o : Obj} (ho : CellG F n0 len o) {k : String}
    (hk : reserved k = false) : ValG F n0 len (o.get k) := by
  have hlook : ValG F n0 len (lookup k o.fields) := by
    by_cases hu : lookup k o.fields = Val.undef
    · rw [hu]; exact ValG.undef _ _ _
    · exact ho.1 _ (lookup_mem rfl hu) (not_parent hk)
  unfold Obj.get
  split
  · split
    · intro a ha; cases ha
    · split
      · rename_i i _
        by_cases hi : i < o.elems.length
        · rw [List.getD_eq_getElem _ _ hi]
          exact ho.2 _ (List.getElem_mem _)
        · rw [List.getD_eq_default _ _ (Nat.le_of_not_lt hi)]
          exact ValG.undef _ _ _
      · exact hlook
  · exact hlook

theorem Sim.onGetProp {F : List Nat} {n0 δ : Nat} {h h2 : Heap} (s : Sim F n0 δ h h2) {x : Val}
    (hx : ValG F n0 h.length x) (k : String) :
    getProp h2 (renVal n0 δ x) k = (getProp h x k).map (renVal n0 δ) := by
  cases x with
  | ref a =>
    obtain ⟨o, ho, ho2, _⟩ := s.deref hx
    simp [SD.getProp, renVal, ho, ho2, Except.map, renCell_get]
  | _ => simp [SD.getProp, renVal, Except.map]

theorem Sim.onGetProp_val {F : List Nat} {n0 δ : Nat} {h h2 : Heap} (s : Sim F n0 δ h h2)
    {x v : Val} (hx : ValG F n0 h.length x) {k : String} (hk : reserved k = false)
    (hg : SD.getProp h x k = Except.ok v) : ValG F n0 h.length v := by
  cases x with
  | ref a =>
    obtain ⟨o, ho, _, hc⟩ := s.deref hx
    simp only [SD.getProp, ho, Except.ok.injEq] at hg
    rw [← hg]
    exact hc.read hk
  | undef => simp [SD.getProp] at hg
  | null => simp [SD.getProp] at hg
  | bool b => simp only [SD.getProp, Except.ok.injEq] at hg; rw [← hg]; exact ValG.undef _ _ _
  | num n => simp only [SD.getProp, Except.ok.injEq] at hg; rw [← hg]; exact ValG.undef _ _ _
  | str s => simp only [SD.getProp, Except.ok.injEq] at hg; rw [← hg]; exact ValG.undef _ _ _

theorem Sim.onKindOf {F : List Nat} {n0 δ : Nat} {h h2 : Heap} (s : Sim F n0 δ h h2) {x : Val}
    (hx : ValG F n0 h.length x) : kindOf h2 (renVal n0 δ x) = kindOf h x := by
  cases x with
  | ref a =>
    obtain ⟨o, ho, ho2, _⟩ := s.deref hx
    simp [SD.kindOf, renVal, ho, ho2, renCell]
  | _ => simp [SD.kindOf, renVal]

theorem Sim.onIsArray {F : List Nat} {n0 δ : Nat} {h h2 : Heap} (s : Sim F n0 δ h h2) {x : Val}
    (hx : ValG F n0 h.length x) : isArray h2 (renVal n0 δ x) = isArray h x := by
  simp [SD.isArray, s.onKindOf hx]

theorem Sim.onIsInstanceOf {F : List Nat} {n0 δ : Nat} {h h2 : Heap} (s : Sim F n0 δ h h2)
    {x : Val} (hx : ValG F n0 h.length x) (t : ModelType) :
    isInstanceOf h2 (renVal n0 δ x) t = isInstanceOf h x t := by
  simp [SD.isInstanceOf, s.onKindOf hx]

theorem Sim.onFindPathLoop {F : List Nat} {n0 δ : Nat} {h h2 : Heap} (s : Sim F n0 δ h h2) :
    ∀ segs : List String, (∀ sg ∈ segs, reserved sg = false) →
      ∀ x : Val, ValG F n0 h.length x →
        findPathLoop h2 (renVal n0 δ x) segs = (findPathLoop h x segs).map (renVal n0 δ) ∧
        ∀ v, findPathLoop h x segs = Except.ok v → ValG F n0 h.length v := by
  intro segs
  induction segs with
  | nil =>
    intro _ x hx
    refine ⟨by simp [SD.findPathLoop, Except.map], fun v hv => ?_⟩
    simp only [SD.findPathLoop, Except.ok.injEq] at hv
    rw [← hv]; exact hx
  | cons seg rest ih =>
    intro hs x hx
    have hg := s.onGetProp hx seg
    have hs2 : ∀ sg ∈ rest, reserved sg = false := fun sg hm => hs sg (List.mem_cons_of_mem _ hm)
    simp only [SD.findPathLoop, hg]
    cases hgp : SD.getProp h x seg with
    | error e => simp [Except.map]
    | ok w =>
      have hw := s.onGetProp_val hx (hs seg (List.mem_cons_self _ _)) hgp
      simp only [Except.map, renVal_isNullish]
      by_cases hn : isNullish w = true
      · simp only [hn, if_true]
        refine ⟨rfl, fun v hv => ?_⟩
        simp only [Except.ok.injEq] at hv
        rw [← hv]; exact ValG.undef _ _ _
      · simp only [hn, Bool.false_eq_true, if_false]
        exact ih hs2 w hw

theorem renVal_ref (n0 δ a : Nat) : renVal n0 δ (Val.ref a) = Val.ref (shift n0 δ a) := rfl

theorem Outside.still (F : List Nat) (n0 δ : Nat) (h : Heap) : Outside F n0 δ h h :=
  ⟨Nat.le_refl _, fun _ _ _ => rfl⟩

theorem Outside.chain {F : List Nat} {n0 δ : Nat} {h h1 h2 : Heap} (a : Outside F n0 δ h h1)
    (b : Outside F n0 δ h1 h2) : Outside F n0 δ h h2 :=
  ⟨Nat.le_trans a.1 b.1, fun c hc hF => by rw [b.2 c hc hF, a.2 c hc hF]⟩

theorem CellG.write {F : List Nat} {n0 len : Nat} {o : Obj} (ho : CellG F n0 len o) (k : String)
    {v : Val} (hv : ValG F n0 len v) : CellG F n0 len (o.put k v) := by
  refine ⟨fun kv hkv hres => ?_, fun w hw => ?_⟩
  · rcases put_fields_mem hkv with h1 | h1
    · exact ho.1 kv h1 hres
    · rw [h1]; exact hv
  · rcases put_elems_mem hw with h1 | h1 | h1
    · exact ho.2 w h1
    · rw [h1]; exact hv
    · rw [h1]; exact ValG.undef _ _ _

theorem Sim.onSetCell {F : List Nat} {n0 δ : Nat} {h h2 : Heap} (s : Sim F n0 δ h h2) {a : Nat}
    (hv : ValG F n0 h.length (Val.ref a)) {o : Obj} (ho : CellG F n0 h.length o) :
    Sim F n0 δ (h.set a o) (h2.set (shift n0 δ a) (renCell n0 δ o)) ∧
      Outside F n0 δ h2 (h2.set (shift n0 δ a) (renCell n0 δ o)) := by
  obtain ⟨hG, hlt⟩ := hv a rfl
  have hlt2 : shift n0 δ a < h2.length := by
    rw [s.len]; exact (shift_lt s.start).mpr hlt
  refine ⟨⟨by simp [s.len], by simp [s.start], s.old, ?_⟩, by simp, ?_⟩
  · intro b ob hb hGb
    rw [List.length_set]
    by_cases hba : b = a
    · subst hba
      rw [List.getElem?_set_self hlt] at hb
      simp only [Option.some.injEq] at hb
      subst hb
      exact ⟨List.getElem?_set_self hlt2, ho⟩
    · rw [List.getElem?_set_ne (fun hh => hba hh.symm)] at hb
      rw [List.getElem?_set_ne (fun hh => hba (shift_inj hh).symm)]
      exact s.cell b ob hb hGb
  · intro b hb hF
    have hne : shift n0 δ a ≠ b := by
      intro hh
      by_cases ha : a < n0
      · rw [shift_old ha] at hh
        rcases hG with h1 | h1
        · exact hF (hh ▸ h1)
        · omega
      · have := shift_ge δ (Nat.le_of_not_lt ha)
        omega
    exact List.getElem?_set_ne hne

theorem Sim.onSetProp {F : List Nat} {n0 δ : Nat} {h h2 : Heap} (s : Sim F n0 δ h h2) {x v : Val}
    (hx : ValG F n0 h.length x) (hv : ValG F n0 h.length v) (k : String) :
    SimH F n0 δ h h2 (SD.setProp h x k v) (SD.setProp h2 (renVal n0 δ x) k (renVal n0 δ v)) := by
  cases x with
  | ref a =>
    obtain ⟨o, ho, ho2, hc⟩ := s.deref hx
    obtain ⟨s2, hout⟩ := s.onSetCell hx (hc.write k hv)
    simp only [SD.setProp, ho, renVal_ref, ho2, SimH]
    exact ⟨_, by rw [renCell_put], s2, hout, by simp⟩
  | _ => simp [SD.setProp, renVal, SimH]

theorem Sim.onSetPathLoop {F : List Nat} {n0 δ : Nat} {value : Val} :
    ∀ segs : List String, (∀ sg ∈ segs, reserved sg = false) →
      ∀ (h h2 : Heap), Sim F n0 δ h h2 → ValG F n0 h.length value →
        ∀ x : Val, ValG F n0 h.length x →
          SimH F n0 δ h h2 (SD.setPathLoop h value x segs)
            (SD.setPathLoop h2 (renVal n0 δ value) (renVal n0 δ x) segs) := by
  intro segs
  induction segs with
  | nil =>
    intro _ h h2 s _ x _
    simp only [SD.setPathLoop, SimH]
    exact ⟨h2, rfl, s, Outside.still _ _ _ _, Nat.le_refl _⟩
  | cons seg rest ih =>
    intro hs h h2 s hv x hx
    cases rest with
    | nil =>
      simp only [SD.setPathLoop]
      exact s.onSetProp hx hv seg
    | cons s2 r2 =>
      have hg := s.onGetProp hx seg
      simp only [SD.setPathLoop, hg]
      cases hgp : SD.getProp h x seg with
      | error e => simp [Except.map, SimH]
      | ok w =>
        have hw := s.onGetProp_val hx (hs seg (List.mem_cons_self _ _)) hgp
        simp only [Except.map]
        exact ih (fun sg hm => hs sg (List.mem_cons_of_mem _ hm)) h h2 s hv w hw

theorem Sim.onAlloc {F : List Nat} {n0 δ : Nat} {h h2 : Heap} (s : Sim F n0 δ h h2) {o : Obj}
    (ho : CellG F n0 h.length o) :
    Sim F n0 δ (h ++ [o]) (h2 ++ [renCell n0 δ o]) ∧
      Outside F n0 δ h2 (h2 ++ [renCell n0 δ o]) ∧
      renVal n0 δ (Val.ref h.length) = Val.ref h2.length ∧
      ValG F n0 (h.length + 1) (Val.ref h.length) := by
  have hst := s.start
  refine ⟨⟨by simp [s.len]; omega, by simp; omega, s.old, ?_⟩, ⟨by simp, ?_⟩, ?_, ?_⟩
  · intro b ob hb hGb
    have hlen : (h ++ [o]).length = h.length + 1 := by simp
    rw [hlen]
    by_cases hbl : b < h.length
    · rw [List.getElem?_append_left hbl] at hb
      obtain ⟨h3, h4⟩ := s.cell b ob hb hGb
      rw [List.getElem?_append_left (getElem?_lt h3)]
      exact ⟨h3, h4.grow (Nat.le_succ _)⟩
    · have hlt := getElem?_lt hb
      rw [hlen] at hlt
      have hbe : b = h.length := by omega
      subst hbe
      simp only [List.getElem?_concat_length, Option.some.injEq] at hb
      subst hb
      rw [shift_new hst, ← s.len]
      exact ⟨by simp, ho.grow (Nat.le_succ _)⟩
  · intro b hb _
    have : b < h2.length := by rw [s.len]; omega
    exact List.getElem?_append_left this
  · simp only [renVal, shift_new hst, s.len]
  · intro a ha
    cases ha
    exact ⟨Or.inr hst, Nat.lt_succ_self _⟩

theorem Sim.onOwnFields {F : List Nat} {n0 δ : Nat} {h h2 : Heap} (s : Sim F n0 δ h h2) {x : Val}
    (hx : ValG F n0 h.length x) :
    ownFields h2 (renVal n0 δ x) =
        (ownFields h x).map (fun kv => (kv.1, renVal n0 δ kv.2)) ∧
      ∀ kv ∈ ownFields h x, kv.1 ≠ "_parent" → ValG F n0 h.length kv.2 := by
  cases x with
  | ref a =>
    obtain ⟨o, ho, ho2, hc⟩ := s.deref hx
    refine ⟨by simp [SD.ownFields, renVal, ho, ho2, renCell_own], fun kv hkv hres => ?_⟩
    simp only [SD.ownFields, ho, Obj.own] at hkv
    split at hkv
    · rcases List.mem_append.mp hkv with h1 | h1
      · exact hc.2 _ (indexedFields_mem h1)
      · exact hc.1 _ h1 hres
    · exact hc.1 _ hkv hres
  | _ => exact ⟨by simp [SD.ownFields, renVal], fun kv hkv => by simp [SD.ownFields] at hkv⟩

theorem Sim.onElemsOf {F : List Nat} {n0 δ : Nat} {h h2 : Heap} (s : Sim F n0 δ h h2) {x : Val}
    (hx : ValG F n0 h.length x) :
    elemsOf h2 (renVal n0 δ x) = (elemsOf h x).map (renVal n0 δ) ∧
      ∀ v ∈ elemsOf h x, ValG F n0 h.length v := by
  cases x with
  | ref a =>
    obtain ⟨o, ho, ho2, hc⟩ := s.deref hx
    refine ⟨by simp [SD.elemsOf, renVal, ho, ho2, renCell], fun v hv => ?_⟩
    simp only [SD.elemsOf, ho] at hv
    exact hc.2 v hv
  | _ => exact ⟨by simp [SD.elemsOf, renVal], fun v hv => by simp [SD.elemsOf] at hv⟩

theorem Sim.onCreate {F : List Nat} {n0 δ : Nat} {h h2 : Heap} (s : Sim F n0 δ h h2) {x : Val}
    (hx : ValG F n0 h.length x) (t : ModelType) :
    ∃ h3, SD.create h2 t (renVal n0 δ x) = (renVal n0 δ (SD.create h t x).1, h3) ∧
      Sim F n0 δ (SD.create h t x).2 h3 ∧ Outside F n0 δ h2 h3 ∧
      ValG F n0 (SD.create h t x).2.length (SD.create h t x).1 := by
  obtain ⟨how, hval⟩ := s.onOwnFields hx
  obtain ⟨s2, hout, hren, hg⟩ := s.onAlloc
    (o := { kind := Kind.inst t.id false, fields := SD.ownFields h x, elems := [] })
    ⟨hval, fun v hv => by simp at hv⟩
  refine ⟨_, ?_, s2, hout, by simpa [SD.create, SD.alloc] using hg⟩
  simp only [SD.create, SD.alloc, how, hren]
  rfl

theorem Sim.onCreateWithMixins {F : List Nat} {n0 δ : Nat} {h h2 : Heap} (s : Sim F n0 δ h h2)
    {x : Val} (hx : ValG F n0 h.length x) (t : ModelType) (p : Val) (path : String) :
    ∃ h3, SD.createWithMixins h2 t (renVal n0 δ x) (renVal n0 δ p) path =
        (renVal n0 δ (SD.createWithMixins h t x p path).1, h3) ∧
      Sim F n0 δ (SD.createWithMixins h t x p path).2 h3 ∧ Outside F n0 δ h2 h3 ∧
      ValG F n0 (SD.createWithMixins h t x p path).2.length
        (SD.createWithMixins h t x p path).1 := by
  obtain ⟨how, hval⟩ := s.onOwnFields hx
  obtain ⟨s2, hout, hren, hg⟩ := s.onAlloc
    (o := { kind := Kind.inst t.id true,
            fields := setField "_path" (Val.str path) (setField "_parent" p (SD.ownFields h x)),
            elems := [] })
    ⟨fun kv hkv hres => (by
        rcases setField_mem hkv with h1 | h1
        · rcases setField_mem h1 with h4 | h4
          · exact hval kv h4 hres
          · rw [h4] at hres; exact absurd rfl hres
        · rw [h1]; exact fun a ha => nomatch ha),
      fun v hv => by simp at hv⟩
  refine ⟨_, ?_, s2, hout, by simpa [SD.createWithMixins, SD.alloc] using hg⟩
  simp only [SD.createWithMixins, SD.alloc, how, hren]
  have h1 := setField_map (renVal n0 δ) "_parent" p (SD.ownFields h x)
  have h4 := setField_map (renVal n0 δ) "_path" (Val.str path)
    (setField "_parent" p (SD.ownFields h x))
  simp only [renCell, ← h4, ← h1]
  rfl

theorem Sim.onCreateHolder {F : List Nat} {n0 δ : Nat} {h h2 : Heap} (s : Sim F n0 δ h h2)
    (parent : Val) {content : Val} (hcontent : ValG F n0 h.length content) (path : String) :
    ∃ h3, SD.createHolder h2 (renVal n0 δ parent) path (renVal n0 δ content) =
        (renVal n0 δ (SD.createHolder h parent path content).1, h3) ∧
      Sim F n0 δ (SD.createHolder h parent path content).2 h3 ∧ Outside F n0 δ h2 h3 ∧
      ValG F n0 (SD.createHolder h parent path content).2.length
        (SD.createHolder h parent path content).1 := by
  obtain ⟨s2, hout, hren, hg⟩ := s.onAlloc
    (o := { kind := Kind.holder,
            fields := [("_parent", parent), ("_path", Val.str path), ("content", content)],
            elems := [] })
    ⟨fun kv hkv hres => by
        simp only [List.mem_cons, List.mem_singleton, List.not_mem_nil, or_false] at hkv
        rcases hkv with h5 | h5 | h5
        · rw [h5] at hres; exact absurd rfl hres
        · rw [h5]; intro a ha; cases ha
        · rw [h5]; exact hcontent,
      fun v hv => by simp at hv⟩
  refine ⟨_, ?_, s2, hout, by simpa [SD.createHolder, SD.alloc] using hg⟩
  simp only [SD.createHolder, SD.alloc, hren]
  rfl

/-! ## The loops and the engine, run later in the heap -/

theorem getD_map_renVal (n0 δ : Nat) (vs : List Val) (i : Nat) :
    (vs.map (renVal n0 δ)).getD i Val.undef = renVal n0 δ (vs.getD i Val.undef) := by
  simp only [List.getD_eq_getElem?_getD, List.getElem?_map]
  cases vs[i]? <;> rfl

theorem ValG.getD {F : List Nat} {n0 len : Nat} {vs : List Val}
    (hvs : ∀ v ∈ vs, ValG F n0 len v) (i : Nat) : ValG F n0 len (vs.getD i Val.undef) := by
  by_cases hi : i < vs.length
  · rw [List.getD_eq_getElem _ _ hi]
    exact hvs _ (List.getElem_mem _)
  · rw [List.getD_eq_default _ _ (Nat.le_of_not_lt hi)]
    exact ValG.undef _ _ _

theorem Sim.onMapItems {F : List Nat} {n0 δ : Nat}
    (f g : Val → Heap → Except Err (Val × Heap))
    (hf : ∀ item h h2, Sim F n0 δ h h2 → ValG F n0 h.length item →
      SimV F n0 δ h h2 (f item h) (g (renVal n0 δ item) h2))
    (arr : Val) :
    ∀ (idxs : List Nat) (h h2 : Heap), Sim F n0 δ h h2 → ValG F n0 h.length arr →
      SimL F n0 δ h h2 (SD.mapItems f arr idxs h)
        (SD.mapItems g (renVal n0 δ arr) idxs h2) := by
  intro idxs
  induction idxs with
  | nil =>
    intro h h2 s _
    simp only [SD.mapItems, SimL]
    exact ⟨h2, rfl, s, fun v hv => by simp at hv, Outside.still _ _ _ _, Nat.le_refl _⟩
  | cons i rest ih =>
    intro h h2 s harr
    obtain ⟨hel, helv⟩ := s.onElemsOf harr
    have hitem := ValG.getD helv i
    have hstep := hf _ h h2 s hitem
    simp only [SD.mapItems, hel, getD_map_renVal]
    cases hrun : f ((SD.elemsOf h arr).getD i Val.undef) h with
    | error e =>
      rw [hrun] at hstep
      simp only [SimV] at hstep
      simp only [hstep, SimL]
    | ok res =>
      obtain ⟨v, h1⟩ := res
      rw [hrun] at hstep
      simp only [SimV] at hstep
      obtain ⟨h1', hg, s1, hv, hout1, hlen1⟩ := hstep
      have hrest := ih h1 h1' s1 (harr.mono hlen1)
      simp only [hg]
      cases hrun2 : SD.mapItems f arr rest h1 with
      | error e =>
        rw [hrun2] at hrest
        simp only [SimL] at hrest
        simp only [hrest, SimL]
      | ok res2 =>
        obtain ⟨vs, h3⟩ := res2
        rw [hrun2] at hrest
        simp only [SimL] at hrest
        obtain ⟨h3', hg2, s3, hvs, hout3, hlen3⟩ := hrest
        simp only [hg2, SimL]
        refine ⟨h3', by simp, s3, ?_, hout1.chain hout3, Nat.le_trans hlen1 hlen3⟩
        intro w hw
        rcases List.mem_cons.mp hw with h4 | h4
        · rw [h4]; exact hv.mono hlen3
        · exact hvs w h4

theorem Sim.onMapToHolder {F : List Nat} {n0 δ : Nat}
    (f g : Val → Heap → Except Err (Val × Heap))
    (hf : ∀ item h h2, Sim F n0 δ h h2 → ValG F n0 h.length item →
      SimV F n0 δ h h2 (f item h) (g (renVal n0 δ item) h2))
    (parent arr : Val) (path : String) {h h2 : Heap} (s : Sim F n0 δ h h2)
    (harr : ValG F n0 h.length arr) :
    SimV F n0 δ h h2 (SD.mapToHolder f parent path arr h)
      (SD.mapToHolder g (renVal n0 δ parent) path (renVal n0 δ arr) h2) := by
  obtain ⟨hel, _⟩ := s.onElemsOf harr
  have hitems := Sim.onMapItems f g hf arr (List.range (SD.elemsOf h arr).length) h h2 s harr
  simp only [SD.mapToHolder, hel, List.length_map]
  cases hrun : SD.mapItems f arr (List.range (SD.elemsOf h arr).length) h with
  | error e =>
    rw [hrun] at hitems
    simp only [SimL] at hitems
    simp only [hitems, SimV]
  | ok res =>
    obtain ⟨vs, h1⟩ := res
    rw [hrun] at hitems
    simp only [SimL] at hitems
    obtain ⟨h1', hg, s1, hvs, hout1, hlen1⟩ := hitems
    obtain ⟨s2, hout2, hren2, hval2⟩ := s1.onAlloc
      (o := { kind := Kind.array, fields := [], elems := vs })
      ⟨fun kv hkv => by simp at hkv, hvs⟩
    have hcon : ValG F n0
        (h1 ++ [({ kind := Kind.array, fields := [], elems := vs } : Obj)]).length
        (Val.ref h1.length) := by simpa using hval2
    obtain ⟨h3', hg3, s3, hout3, hval3⟩ := s2.onCreateHolder parent hcon path
    simp only [hg, SD.alloc, SimV]
    rw [hren2] at hg3
    refine ⟨h3', ?_, s3, hval3, hout1.chain (hout2.chain hout3), ?_⟩
    · rw [← hg3]; rfl
    · simp only [SD.createHolder, SD.alloc, List.length_append, List.length_singleton]
      omega

theorem Sim.onForEntries {F : List Nat} {n0 δ : Nat}
    (f g : String → ModelType → Heap → Except Err Heap) (len0 : Nat) :
    ∀ es : List (String × ModelType),
      (∀ e ∈ es, ∀ h h2, Sim F n0 δ h h2 → len0 ≤ h.length →
        SimH F n0 δ h h2 (f e.1 e.2 h) (g e.1 e.2 h2)) →
      ∀ h h2, Sim F n0 δ h h2 → len0 ≤ h.length →
        SimH F n0 δ h h2 (SD.forEntries f es h) (SD.forEntries g es h2) := by
  intro es
  induction es with
  | nil =>
    intro _ h h2 s _
    simp only [SD.forEntries, SimH]
    exact ⟨h2, rfl, s, Outside.still _ _ _ _, Nat.le_refl _⟩
  | cons e rest ih =>
    obtain ⟨prop, model⟩ := e
    intro hf h h2 s hl
    have hstep := hf (prop, model) (List.mem_cons_self _ _) h h2 s hl
    simp only at hstep
    simp only [SD.forEntries]
    cases hrun : f prop model h with
    | error e =>
      rw [hrun] at hstep
      simp only [SimH] at hstep
      simp only [hstep, SimH]
    | ok h1 =>
      rw [hrun] at hstep
      simp only [SimH] at hstep
      obtain ⟨h1', hg, s1, hout1, hlen1⟩ := hstep
      have hrest := ih (fun e he => hf e (List.mem_cons_of_mem _ he)) h1 h1' s1
        (Nat.le_trans hl hlen1)
      simp only [hg]
      cases hrun2 : SD.forEntries f rest h1 with
      | error e =>
        rw [hrun2] at hrest
        simp only [SimH] at hrest
        simp only [hrest, SimH]
      | ok h3 =>
        rw [hrun2] at hrest
        simp only [SimH] at hrest
        obtain ⟨h3', hg2, s3, hout3, hlen3⟩ := hrest
        simp only [hg2, SimH]
        exact ⟨h3', rfl, s3, hout1.chain hout3, Nat.le_trans hlen1 hlen3⟩

theorem SimV.fromLater {F : List Nat} {n0 δ : Nat} {h h2 h1 h3 : Heap}
    {res res2 : Except Err (Val × Heap)} (hs : SimV F n0 δ h1 h3 res res2)
    (hout : Outside F n0 δ h2 h3) (hl : h.length ≤ h1.length) : SimV F n0 δ h h2 res res2 := by
  cases res with
  | error e => exact hs
  | ok r =>
    obtain ⟨v, h4⟩ := r
    simp only [SimV] at hs ⊢
    obtain ⟨h5, hg, s5, hv, hout5, hl5⟩ := hs
    exact ⟨h5, hg, s5, hv, hout.chain hout5, Nat.le_trans hl hl5⟩

theorem SimH.ofLater {F : List Nat} {n0 δ : Nat} {h h2 h1 h3 : Heap}
    {res res2 : Except Err Heap} (hs : SimH F n0 δ h1 h3 res res2)
    (hout : Outside F n0 δ h2 h3) (hl : h.length ≤ h1.length) : SimH F n0 δ h h2 res res2 := by
  cases res with
  | error e => exact hs
  | ok h4 =>
    simp only [SimH] at hs ⊢
    obtain ⟨h5, hg, s5, hout5, hl5⟩ := hs
    exact ⟨h5, hg, s5, hout.chain hout5, Nat.le_trans hl hl5⟩

/-- The engine does the same when it is run later in the heap: on a heap
that holds the region of `h` some `δ` addresses further up, every call
returns the renamed result (or raises the same error) and leaves the renamed
region, touching nothing outside it. -/
theorem engine_sim (S : Mapping) (hS : plainPaths S = true) (F : List Nat) (n0 δ : Nat) :
    ∀ n : Nat,
    (∀ t x h h2, Sim F n0 δ h h2 → ValG F n0 h.length x →
      SimV F n0 δ h h2 (applyMapping S n t x h) (applyMapping S n t (renVal n0 δ x) h2)) ∧
    (∀ t x h h2, Sim F n0 δ h h2 → ValG F n0 h.length x →
      SimV F n0 δ h h2 (_applyMapping S n t x h) (_applyMapping S n t (renVal n0 δ x) h2)) ∧
    (∀ t x p path h h2, Sim F n0 δ h h2 → ValG F n0 h.length x →
      SimV F n0 δ h h2 (applyMappingForArray S n t x p path h)
        (applyMappingForArray S n t (renVal n0 δ x) (renVal n0 δ p) path h2)) ∧
    (∀ obj path model h h2, (∀ sg ∈ split path, reserved sg = false) →
      Sim F n0 δ h h2 → ValG F n0 h.length obj →
      SimH F n0 δ h h2 (_deepFindAndApply S n obj path model h)
        (_deepFindAndApply S n (renVal n0 δ obj) path model h2)) := by
  intro n
  induction n with
  | zero =>
    refine ⟨?_, ?_, ?_, ?_⟩
    · intro t x h h2 _ _; simp [applyMapping, SimV]
    · intro t x h h2 _ _; simp [_applyMapping, SimV]
    · intro t x p path h h2 _ _; simp [applyMappingForArray, SimV]
    · intro obj path model h h2 _ _ _; simp [_deepFindAndApply, SimH]
  | succ n ih =>
    obtain ⟨ihA, ihM, ihR, ihD⟩ := ih
    refine ⟨?_, ?_, ?_, ?_⟩
    · intro t x h h2 s hx
      simp only [applyMapping, instantiate, s.onIsInstanceOf hx t, s.onIsArray hx]
      by_cases hinst : isInstanceOf h x t = true
      · simp only [hinst, if_true]
        by_cases harr : isArray h x = true
        · simp only [harr, if_true]
          exact Sim.onMapToHolder _ _
            (fun item h3 h4 s3 hitem => ihR t item x "this" h3 h4 s3 hitem) x x "this" s hx
        · simp only [harr, Bool.false_eq_true, if_false]
          exact ihM t x h h2 s hx
      · simp only [hinst, Bool.false_eq_true, if_false]
        obtain ⟨h3, hc, s3, hout3, hval3⟩ := s.onCreate hx t
        have hl3 : h.length ≤ (create h t x).2.length := by simp [create, alloc]
        rw [hc]
        by_cases harr : isArray h x = true
        · simp only [harr, if_true]
          exact (Sim.onMapToHolder _ _
            (fun item h4 h5 s4 hitem => ihR t item (create h t x).1 "this" h4 h5 s4 hitem)
            (create h t x).1 x "this" s3 (hx.mono hl3)).fromLater hout3 hl3
        · simp only [harr, Bool.false_eq_true, if_false]
          exact (ihM t (create h t x).1 (create h t x).2 h3 s3 hval3).fromLater hout3 hl3
    · intro t x h h2 s hx
      have hloop := Sim.onForEntries
        (fun prop model hh => _deepFindAndApply S n x prop model hh)
        (fun prop model hh => _deepFindAndApply S n (renVal n0 δ x) prop model hh)
        h.length (schemaOf S t)
        (fun e he h3 h4 s3 hl3 =>
          ihD x e.1 e.2 h3 h4 (schemaOf_plain hS t e he) s3 (hx.mono hl3))
        h h2 s (Nat.le_refl _)
      simp only [_applyMapping]
      cases hrun : forEntries (fun prop model hh => _deepFindAndApply S n x prop model hh)
          (schemaOf S t) h with
      | error e =>
        rw [hrun] at hloop
        simp only [SimH] at hloop
        simp only [hloop, SimV]
      | ok h1 =>
        rw [hrun] at hloop
        simp only [SimH] at hloop
        obtain ⟨h3, hg, s3, hout3, hl3⟩ := hloop
        simp only [hg, SimV]
        exact ⟨h3, rfl, s3, hx.mono hl3, hout3, hl3⟩
    · intro t x p path h h2 s hx
      obtain ⟨h3, hc, s3, hout3, hval3⟩ := s.onCreateWithMixins hx t p path
      have hl3 : h.length ≤ (createWithMixins h t x p path).2.length := by
        simp [createWithMixins, alloc]
      simp only [applyMappingForArray]
      rw [hc]
      exact (ihM t (createWithMixins h t x p path).1 (createWithMixins h t x p path).2 h3 s3
        hval3).fromLater hout3 hl3
    · intro obj path model h h2 hs s hobj
      obtain ⟨hfind, hfv⟩ := s.onFindPathLoop (split path) hs obj hobj
      simp only [_deepFindAndApply, findPath, hfind]
      cases hf : findPathLoop h obj (split path) with
      | error e => simp [Except.map, SimH]
      | ok cur =>
        have hcur := hfv cur hf
        simp only [Except.map, renVal_truthy, renVal_isObject, s.onIsArray hcur]
        by_cases ht : truthy cur = true
        · simp only [ht, Bool.not_true, Bool.false_eq_true, if_false]
          have hr : SimV F n0 δ h h2
              (if isObject cur = true then
                (if isArray h cur = true then
                  mapToHolder (fun item hh => applyMappingForArray S n model item obj path hh)
                    obj path cur h
                else applyMapping S n model cur h)
              else Except.ok (Val.undef, h))
              (if isObject cur = true then
                (if isArray h cur = true then
                  mapToHolder (fun item hh =>
                      applyMappingForArray S n model item (renVal n0 δ obj) path hh)
                    (renVal n0 δ obj) path (renVal n0 δ cur) h2
                else applyMapping S n model (renVal n0 δ cur) h2)
              else Except.ok (Val.undef, h2)) := by
            by_cases ho : isObject cur = true
            · simp only [ho, if_true]
              by_cases ha : isArray h cur = true
              · simp only [ha, if_true]
                exact Sim.onMapToHolder _ _
                  (fun item h3 h4 s3 hitem => ihR model item obj path h3 h4 s3 hitem)
                  obj cur path s hcur
              · simp only [ha, Bool.false_eq_true, if_false]
                exact ihA model cur h h2 s hcur
            · simp only [ho, Bool.false_eq_true, if_false, SimV]
              exact ⟨h2, rfl, s, ValG.undef _ _ _, Outside.still _ _ _ _, Nat.le_refl _⟩
          revert hr
          generalize (if isObject cur = true then
                (if isArray h cur = true then
                  mapToHolder (fun item hh => applyMappingForArray S n model item obj path hh)
                    obj path cur h
                else applyMapping S n model cur h)
              else Except.ok (Val.undef, h)) = r1
          generalize (if isObject cur = true then
                (if isArray h cur = true then
                  mapToHolder (fun item hh =>
                      applyMappingForArray S n model item (renVal n0 δ obj) path hh)
                    (renVal n0 δ obj) path (renVal n0 δ cur) h2
                else applyMapping S n model (renVal n0 δ cur) h2)
              else Except.ok (Val.undef, h2)) = r2
          intro hr
          cases r1 with
          | error e =>
            simp only [SimV] at hr
            simp only [hr, SimH]
          | ok res =>
            obtain ⟨value, h1⟩ := res
            simp only [SimV] at hr
            obtain ⟨h3, hg, s3, hval, hout3, hl3⟩ := hr
            simp only [hg, _setObjectPathToValue]
            exact (Sim.onSetPathLoop (split path) hs h1 h3 s3 hval obj
              (hobj.mono hl3)).ofLater hout3 hl3
        · have ht2 : truthy cur = false := by simpa using ht
          simp only [ht2, Bool.not_false, if_true, SimH]
          exact ⟨h2, rfl, s, Outside.still _ _ _ _, Nat.le_refl _⟩

/-! ## The view of a region that sits further up -/

theorem view_prim (h : Heap) (d : Nat) (v : Val) (hv : ∀ a, v ≠ Val.ref a) :
    view h d v = Tree.prim v := by
  cases v with
  | ref a => exact absurd rfl (hv a)
  | _ => cases d <;> rfl

theorem hide_renVal (n0 δ : Nat) (v : Val) : hide (renVal n0 δ v) = hide v := by
  cases v <;> rfl

theorem renVal_prim (n0 δ : Nat) (v : Val) (hv : ∀ a, v ≠ Val.ref a) : renVal n0 δ v = v := by
  cases v with
  | ref a => exact absurd rfl (hv a)
  | _ => rfl

theorem view_shift {F : List Nat} {n0 δ : Nat} {hs H : Heap} (hreg : Region F n0 δ hs H) :
    ∀ (d : Nat) (v : Val), ValG F n0 hs.length v →
      view H d (renVal n0 δ v) = view hs d v := by
  intro d
  induction d with
  | zero =>
    intro v _
    cases v <;> rfl
  | succ d ih =>
    intro v hv
    cases v with
    | ref a =>
      obtain ⟨hG, hlt⟩ := hv a rfl
      have ho : hs[a]? = some hs[a] := by simp [hlt]
      obtain ⟨hH, hc⟩ := hreg a _ ho hG
      simp only [renVal_ref, view, hH, ho, renCell, List.map_map]
      congr 1
      · apply List.map_congr_left
        intro kv hkv
        simp only [Function.comp]
        by_cases hres : kv.1 = "_parent"
        · simp [hres, hide_renVal]
        · simp only [hres, if_false]
          rw [ih kv.2 (hc.1 kv hkv hres)]
      · apply List.map_congr_left
        intro w hw
        simp only [Function.comp]
        exact ih w (hc.2 w hw)
    | undef => rfl
    | null => rfl
    | bool b => rfl
    | num n => rfl
    | str s => rfl

theorem renVal_old {n0 δ : Nat} {v : Val} (hv : ∀ a, v = Val.ref a → a < n0) :
    renVal n0 δ v = v := by
  cases v with
  | ref a => simp [renVal, shift_old (hv a rfl)]
  | _ => rfl

theorem renCell_old {n0 δ : Nat} {o : Obj}
    (hf : ∀ kv ∈ o.fields, ∀ a, kv.2 = Val.ref a → a < n0)
    (he : ∀ v ∈ o.elems, ∀ a, v = Val.ref a → a < n0) : renCell n0 δ o = o := by
  obtain ⟨kind, fields, elems⟩ := o
  simp only [renCell, Obj.mk.injEq, true_and]
  constructor
  · conv_rhs => rw [← List.map_id fields]
    apply List.map_congr_left
    intro kv hkv
    simp [renVal_old (hf kv hkv)]
  · conv_rhs => rw [← List.map_id elems]
    apply List.map_congr_left
    intro v hv
    simp [renVal_old (he v hv)]

theorem renCell_wellFormed {h : Heap} (hwf : wellFormed h = true) {a : Nat} {o : Obj}
    (ho : h[a]? = some o) (δ : Nat) : renCell h.length δ o = o := by
  obtain ⟨h1, h2⟩ := wellFormed_cell hwf ho
  apply renCell_old
  · intro kv hkv b hb
    have := h1 kv hkv
    rw [hb] at this
    simpa [validVal] using this
  · intro v hv b hb
    have := h2 v hv
    rw [hb] at this
    simpa [validVal] using this

/-- A closed footprint that a later heap `H` still holds untouched: the run
on `H` is the run on `h`, further up by the cells `H` has more. -/
theorem Sim.init {F : List Nat} {h H : Heap} (hwf : wellFormed h = true)
    (hF : closedIn h F = true) (hlen : h.length ≤ H.length)
    (hsame : ∀ a ∈ F, H[a]? = h[a]?) : Sim F h.length (H.length - h.length) h H := by
  have hold : ∀ a ∈ F, a < h.length := by
    intro a ha
    obtain ⟨o, ho, _⟩ := closedIn_cell hF ha
    exact getElem?_lt ho
  refine ⟨by omega, Nat.le_refl _, hold, ?_⟩
  intro a o ho hG
  have halt := getElem?_lt ho
  rcases hG with hG | hG
  · obtain ⟨o2, ho2, hf, he⟩ := closedIn_cell hF hG
    rw [ho] at ho2
    cases ho2
    rw [shift_old halt, hsame a hG, renCell_wellFormed hwf ho]
    exact ⟨ho, fun kv hkv _ b hb => ⟨Or.inl (hf kv hkv b hb), hold b (hf kv hkv b hb)⟩,
      fun v hv b hb => ⟨Or.inl (he v hv b hb), hold b (he v hv b hb)⟩⟩
  · omega

theorem nested_sim (S : Mapping) (hS : plainPaths S = true) {F : List Nat} {n0 δ : Nat}
    (n : Nat) (model : ModelType) (obj : Val) (path : String) {cur : Val} {h h2 : Heap}
    (s : Sim F n0 δ h h2) (hcur : ValG F n0 h.length cur) :
    SimV F n0 δ h h2 (nested S n model obj path cur h)
      (nested S n model (renVal n0 δ obj) path (renVal n0 δ cur) h2) := by
  obtain ⟨ihA, _, ihR, _⟩ := engine_sim S hS F n0 δ n
  simp only [nested, renVal_isObject, s.onIsArray hcur]
  by_cases ho : isObject cur = true
  · simp only [ho, if_true]
    by_cases ha : isArray h cur = true
    · simp only [ha, if_true]
      exact Sim.onMapToHolder _ _
        (fun item h3 h4 s3 hitem => ihR model item obj path h3 h4 s3 hitem)
        obj cur path s hcur
    · simp only [ha, Bool.false_eq_true, if_false]
      exact ihA model cur h h2 s hcur
  · simp only [ho, Bool.false_eq_true, if_false, SimV]
    exact ⟨h2, rfl, s, ValG.undef _ _ _, Outside.still _ _ _ _, Nat.le_refl _⟩

/-! ## Fields of an object, cells of a region -/

theorem closedIn_old {h : Heap} {F : List Nat} (hF : closedIn h F = true) {a : Nat}
    (ha : a ∈ F) : a < h.length := by
  obtain ⟨o, ho, _⟩ := closedIn_cell hF ha
  exact getElem?_lt ho

theorem get_put_other (o : Obj) (hk : o.kind ≠ Kind.array) (k t : String) (v : Val)
    (hne : t ≠ k) : (o.put k v).get t = o.get t := by
  obtain ⟨kind, fields, elems⟩ := o
  cases kind with
  | array => exact absurd rfl hk
  | plain => simp [Obj.put, Obj.get, lookup_setField_ne k t v _ hne]
  | inst ty mx => simp [Obj.put, Obj.get, lookup_setField_ne k t v _ hne]
  | holder => simp [Obj.put, Obj.get, lookup_setField_ne k t v _ hne]

theorem get_put_same (o : Obj) (hk : o.kind ≠ Kind.array) (k : String) (v : Val) :
    (o.put k v).get k = v := by
  apply get_put_any
  cases hkind : o.kind with
  | array => exact absurd hkind hk
  | _ => rfl

theorem Region.keep {F : List Nat} {n0 δ : Nat} {hs H H2 : Heap} (hr : Region F n0 δ hs H)
    (hold : ∀ a ∈ F, a < n0)
    (hsame : ∀ b, (b ∈ F ∨ (n0 + δ ≤ b ∧ b < hs.length + δ)) → H2[b]? = H[b]?) :
    Region F n0 δ hs H2 := by
  intro a o ho hG
  obtain ⟨h1, h2⟩ := hr a o ho hG
  refine ⟨?_, h2⟩
  rw [hsame _ ?_]
  · exact h1
  · rcases hG with hG | hG
    · left; rw [shift_old (hold a hG)]; exact hG
    · right
      rw [shift_new hG]
      have := getElem?_lt ho
      exact ⟨by omega, by omega⟩

theorem not_ref_of_falsy {v : Val} (ht : truthy v = false) : ∀ a, v ≠ Val.ref a := by
  intro a ha
  rw [ha] at ht
  cases ht

/-! ## The reads of a path, field by field -/

theorem steps_ref (h : Heap) (a : Nat) {o : Obj} (ho : h[a]? = some o) (seg : String)
    (rest : List String) :
    steps h (Val.ref a) (seg :: rest) = (a, seg) :: steps h (o.get seg) rest := by
  simp [steps, ho]

/-- A walk reads the same values in two heaps that agree on its reads. -/
theorem walk_same (h H : Heap) :
    ∀ (segs : List String) (x : Val),
      (∀ p ∈ steps h x segs, ∃ o o2, h[p.1]? = some o ∧ H[p.1]? = some o2 ∧
        o2.get p.2 = o.get p.2) →
      findPathLoop H x segs = findPathLoop h x segs ∧ steps H x segs = steps h x segs := by
  intro segs
  induction segs with
  | nil => intro x _; exact ⟨rfl, by simp [steps]⟩
  | cons seg rest ih =>
    intro x hx
    cases x with
    | ref a =>
      obtain ⟨o, o2, ho, ho2, hget⟩ := hx (a, seg) (by simp [steps])
      have hrest := ih (o.get seg) (fun p hp => hx p (by
        rw [steps_ref h a ho]; exact List.mem_cons_of_mem _ hp))
      simp only [findPathLoop, getProp, ho, ho2, hget, steps_ref h a ho, steps_ref H a ho2,
        hrest.1, hrest.2]
      exact ⟨trivial, trivial⟩
    | undef => exact ⟨rfl, by simp [steps]⟩
    | null => exact ⟨rfl, by simp [steps]⟩
    | bool b => exact ⟨by simp [findPathLoop, getProp, isNullish], by simp [steps]⟩
    | num n => exact ⟨by simp [findPathLoop, getProp, isNullish], by simp [steps]⟩
    | str s => exact ⟨by simp [findPathLoop, getProp, isNullish], by simp [steps]⟩

theorem getLast?_cons_ne {α : Type} (a : α) {l : List α} (hl : l ≠ []) :
    (a :: l).getLast? = l.getLast? := by
  cases l with
  | nil => exact absurd rfl hl
  | cons b t => simp [List.getLast?_cons_cons]

theorem dropLast_cons_ne {α : Type} (a : α) {l : List α} (hl : l ≠ []) :
    (a :: l).dropLast = a :: l.dropLast := by
  cases l with
  | nil => exact absurd rfl hl
  | cons b t => simp [List.dropLast]

theorem steps_ne_nil {h : Heap} {x cur : Val} {seg : String} {rest : List String}
    (hf : findPathLoop h x (seg :: rest) = Except.ok cur) (ht : truthy cur = true) :
    steps h x (seg :: rest) ≠ [] := by
  obtain ⟨c, o, hx, ho, _, _⟩ := findPathLoop_cons_truthy hf ht
  subst hx
  simp [steps]

/-- Where the walk ends with a truthy value, the last read is at the last
segment and `_setObjectPathToValue` assigns the field read there. -/
theorem set_last {h : Heap} :
    ∀ (segs : List String) (x cur : Val), segs ≠ [] →
      findPathLoop h x segs = Except.ok cur → truthy cur = true →
      ∃ (P : Nat) (o : Obj) (last : String),
        (steps h x segs).getLast? = some (P, last) ∧ h[P]? = some o ∧
        ∀ v, setPathLoop h v x segs = Except.ok (h.set P (o.put last v)) := by
  intro segs
  induction segs with
  | nil => intro x cur hne; exact absurd rfl hne
  | cons seg rest ih =>
    intro x cur _ hf ht
    obtain ⟨c, o, hx, ho, hn, hrest⟩ := findPathLoop_cons_truthy hf ht
    subst hx
    cases rest with
    | nil =>
      exact ⟨c, o, seg, by simp [steps, ho], ho, fun v => by simp [setPathLoop, setProp, ho]⟩
    | cons s2 r2 =>
      obtain ⟨P, o2, last, hlast, ho2, hset⟩ := ih (o.get seg) cur (by simp) hrest ht
      refine ⟨P, o2, last, ?_, ho2, fun v => ?_⟩
      · rw [steps_ref h c ho, getLast?_cons_ne _ (steps_ne_nil hrest ht)]
        exact hlast
      · simp only [setPathLoop, getProp, ho]
        exact hset v

/-- A walk that ended with a truthy value, taken again in a heap that
agrees on all its reads but the last: it ends with what is read there. -/
theorem walk_last (h H : Heap) :
    ∀ (segs : List String) (x cur : Val), segs ≠ [] →
      findPathLoop h x segs = Except.ok cur → truthy cur = true →
      (∀ p ∈ (steps h x segs).dropLast, ∃ o o2, h[p.1]? = some o ∧ H[p.1]? = some o2 ∧
        o2.get p.2 = o.get p.2) →
      ∀ (P : Nat) (last : String) (o2 : Obj), (steps h x segs).getLast? = some (P, last) →
        H[P]? = some o2 →
        findPathLoop H x segs = Except.ok (asFound (o2.get last)) ∧
          steps H x segs = steps h x segs := by
  intro segs
  induction segs with
  | nil => intro x cur hne; exact absurd rfl hne
  | cons seg rest ih =>
    intro x cur _ hf ht hreads P last o2 hlast hP
    obtain ⟨c, o, hx, ho, hn, hrest⟩ := findPathLoop_cons_truthy hf ht
    subst hx
    cases rest with
    | nil =>
      simp only [steps, ho, List.getLast?_singleton, Option.some.injEq, Prod.mk.injEq] at hlast
      obtain ⟨h1, h2⟩ := hlast
      subst h1; subst h2
      simp only [findPathLoop, getProp, hP, asFound, steps, ho]
      exact ⟨by split <;> rfl, trivial⟩
    | cons s2 r2 =>
      have hne := steps_ne_nil hrest ht
      rw [steps_ref h c ho] at hreads hlast
      rw [getLast?_cons_ne _ hne] at hlast
      rw [dropLast_cons_ne _ hne] at hreads
      obtain ⟨oc, oc2, hoc, hoc2, hget⟩ := hreads (c, seg) (List.mem_cons_self _ _)
      rw [ho] at hoc
      cases hoc
      have hrec := ih (o.get seg) cur (by simp) hrest ht
        (fun p hp => hreads p (List.mem_cons_of_mem _ hp)) P last o2 hlast hP
      simp only [findPathLoop, getProp, hoc2, hget, hn, Bool.false_eq_true, if_false,
        steps_ref h c ho, steps_ref H c hoc2, hrec.2]
      exact ⟨hrec.1, trivial⟩

/-- The call `_deepFindAndApply(obj, path, model)`, with its nested call
named. -/
theorem deep_path (S : Mapping) (n : Nat) (model : ModelType) (path : String) (H : Heap)
    (c : Nat) {cur : Val} (hf : findPath H (Val.ref c) path = Except.ok cur) :
    _deepFindAndApply S (n + 1) (Val.ref c) path model H =
      if truthy cur = true then
        (match nested S n model (Val.ref c) path cur H with
        | Except.error e => Except.error e
        | Except.ok (value, H1) => _setObjectPathToValue H1 (Val.ref c) value path)
      else Except.ok H := by
  simp only [_deepFindAndApply, hf, nested]
  by_cases ht : truthy cur = true
  · simp [ht]
  · have ht2 : truthy cur = false := by simpa using ht
    simp [ht2]

/-! ## One entry of the loop, after others -/

theorem mem_of_last {α : Type} {l : List α} {a : α} (h : l.getLast? = some a) : a ∈ l := by
  obtain ⟨ys, hy⟩ := List.getLast?_eq_some_iff.mp h
  rw [hy]; simp

theorem asFound_renVal (n0 δ : Nat) (v : Val) :
    asFound (renVal n0 δ v) = renVal n0 δ (asFound v) := by
  cases v <;> rfl

theorem ValG.found {F : List Nat} {n0 len : Nat} {v : Val} (hv : ValG F n0 len v) :
    ValG F n0 len (asFound v) := by
  cases v with
  | undef => exact hv
  | null => exact ValG.undef _ _ _
  | bool b => exact hv
  | num n => exact hv
  | str s => exact hv
  | ref a => exact hv

theorem root_step {h : Heap} {c : Nat} (path : String) :
    ∃ seg, (c, seg) ∈ steps h (Val.ref c) (split path) := by
  cases hs : split path with
  | nil => exact absurd hs (split_ne_nil path)
  | cons seg rest => exact ⟨seg, by simp [steps]⟩

/-- One entry of the loop of `_applyMapping`, applied after the entries
`done`: it returns exactly when `_deepFindAndApply` alone returns on the
heap the loop started from, and then the field it assigns holds, further up,
what that run alone puts there. -/
theorem next_entry (S : Mapping) (hS : plainPaths S = true) (n : Nat) {h : Heap}
    (hwf : wellFormed h = true) {c : Nat} {fp : String → List Nat}
    {all : List (String × ModelType)} (T : Tidy h c fp all)
    {done todo : List (String × ModelType)} {e : String × ModelType}
    (hdone : ∀ x ∈ done, x ∈ all) (he : e ∈ all) (htodo : ∀ x ∈ todo, x ∈ all)
    (hnew : ∀ x ∈ done ++ todo, x.1 ≠ e.1)
    {H : Heap} (J : Loop S (n + 1) h c fp all done (e :: todo) H) :
    match _deepFindAndApply S (n + 1) (Val.ref c) e.1 e.2 h with
    | Except.ok _ =>
      ∃ (H2 : Heap) (done2 : List (String × ModelType)),
        _deepFindAndApply S (n + 1) (Val.ref c) e.1 e.2 H = Except.ok H2 ∧
        Loop S (n + 1) h c fp all done2 todo H2 ∧
        ∀ x, x ∈ done2 ↔ (x ∈ done ∨ (x = e ∧
          ∃ cur, findPath h (Val.ref c) e.1 = Except.ok cur ∧ truthy cur = true))
    | Except.error err =>
      _deepFindAndApply S (n + 1) (Val.ref c) e.1 e.2 H = Except.error err := by
  obtain ⟨cur, hfind, hvalIn⟩ := T.found e he
  have hcl := T.closed e he
  have hlen := J.len
  have hdonew : ∀ e2 ∈ done, ∃ cur2, findPath h (Val.ref c) e2.1 = Except.ok cur2 ∧
      truthy cur2 = true := by
    intro e2 he2
    obtain ⟨_, _, _, _, _, _, _, _, _, _, _, _, _, _, hw⟩ := J.past e2 he2
    exact hw
  have hreads : ∀ p ∈ steps h (Val.ref c) (split e.1), ∃ o o2,
      h[p.1]? = some o ∧ H[p.1]? = some o2 ∧ o2.get p.2 = o.get p.2 := by
    intro p hp
    obtain ⟨o, o2, ho, ho2, _, hget⟩ := J.spine e he p hp
    refine ⟨o, o2, ho, ho2, hget p.2 ?_⟩
    intro e2 he2
    obtain ⟨cur2, hf2, ht2⟩ := hdonew e2 he2
    exact T.other e2 (hdone e2 he2) cur2 hf2 ht2 e he
      (Ne.symm (hnew e2 (List.mem_append_left _ he2))) p hp
  obtain ⟨hfH, hstH⟩ := walk_same h H (split e.1) (Val.ref c) hreads
  have hfindH : findPath H (Val.ref c) e.1 = Except.ok cur := by
    unfold findPath; rw [hfH]; exact hfind
  obtain ⟨seg0, hroot⟩ := root_step (h := h) (c := c) e.1
  obtain ⟨⟨oc, hoc, _⟩, hcF⟩ := T.spine e he _ hroot
  have hc0 : c < h.length := getElem?_lt hoc
  rw [deep_path S n e.2 e.1 h c hfind, deep_path S n e.2 e.1 H c hfindH]
  by_cases ht : truthy cur = true
  · simp only [ht, if_true]
    have hcur : ValG (fp e.1) h.length h.length cur := by
      intro b hb
      have := valIn_iff hvalIn b hb
      exact ⟨Or.inl this, closedIn_old hcl this⟩
    have hinit : Sim (fp e.1) h.length (H.length - h.length) h H :=
      Sim.init hwf hcl J.len (J.rest e (List.mem_cons_self _ _))
    have hrv : ∀ δ, renVal h.length δ cur = cur :=
      fun δ => renVal_old (fun b hb => (hcur b hb).2)
    have hrc : ∀ δ, renVal h.length δ (Val.ref c) = Val.ref c :=
      fun δ => by simp [renVal, shift_old hc0]
    have hsim := nested_sim S hS n e.2 (Val.ref c) e.1 hinit hcur
    have hself := nested_sim S hS n e.2 (Val.ref c) e.1
      (Sim.init hwf hcl (Nat.le_refl _) (fun _ _ => rfl)) hcur
    rw [hrc, hrv] at hsim hself
    cases hrun : nested S n e.2 (Val.ref c) e.1 cur h with
    | error err =>
      rw [hrun] at hsim
      simp only [SimV] at hsim
      simp only [hsim]
    | ok res =>
      obtain ⟨value, h1⟩ := res
      rw [hrun] at hsim hself
      simp only [SimV] at hsim hself
      obtain ⟨H1, hg, s1, hvval, hout, hl⟩ := hsim
      obtain ⟨h3, hg0, _, _, hout0, _⟩ := hself
      have hh3 : h1 = h3 := by
        simp only [Except.ok.injEq, Prod.mk.injEq] at hg0
        exact hg0.2
      subst hh3
      have hkeep : ∀ e3 ∈ all, ∀ p ∈ steps h (Val.ref c) (split e3.1),
          h1[p.1]? = h[p.1]? ∧ H1[p.1]? = H[p.1]? := by
        intro e3 he3 p hp
        obtain ⟨⟨o, ho, _⟩, hnF⟩ := T.spine e3 he3 p hp
        have hlt := getElem?_lt ho
        exact ⟨hout0.2 p.1 (by omega) (hnF e he), hout.2 p.1 (by omega) (hnF e he)⟩
      obtain ⟨hf1, hst1⟩ := walk_same h h1 (split e.1) (Val.ref c) (fun p hp => by
        obtain ⟨⟨o, ho, _⟩, _⟩ := T.spine e he p hp
        exact ⟨o, o, ho, by rw [(hkeep e he p hp).1]; exact ho, rfl⟩)
      obtain ⟨P, o1, last, hlast1, hP1, hset1⟩ := set_last (split e.1) (Val.ref c) cur
        (split_ne_nil _) (by rw [hf1]; exact hfind) ht
      rw [hst1] at hlast1
      obtain ⟨hfH1, hstH1⟩ := walk_same H H1 (split e.1) (Val.ref c) (fun p hp => by
        rw [hstH] at hp
        obtain ⟨o, o2, ho, ho2, _, _⟩ := J.spine e he p hp
        exact ⟨o2, o2, ho2, by rw [(hkeep e he p hp).2]; exact ho2, rfl⟩)
      obtain ⟨P2, o2, last2, hlast2, hP2, hset2⟩ := set_last (split e.1) (Val.ref c) cur
        (split_ne_nil _) (by rw [hfH1, hfH]; exact hfind) ht
      rw [hstH1, hstH, hlast1] at hlast2
      simp only [Option.some.injEq, Prod.mk.injEq] at hlast2
      obtain ⟨hPP, hll⟩ := hlast2
      subst hPP; subst hll
      have hPmem : (P, last) ∈ steps h (Val.ref c) (split e.1) := mem_of_last hlast1
      obtain ⟨⟨oP, hoP, hkP⟩, hPnF⟩ := T.spine e he (P, last) hPmem
      have hPlt : P < h.length := getElem?_lt hoP
      have ho1 : o1 = oP := by
        have := (hkeep e he (P, last) hPmem).1
        simp only at this
        rw [hP1, hoP] at this
        exact Option.some.inj this
      subst ho1
      obtain ⟨oP2, oH, hoP2, hoH, hkH, hgetH⟩ := J.spine e he (P, last) hPmem
      simp only at hoP2 hoH
      rw [hoP] at hoP2
      cases hoP2
      have ho2 : o2 = oH := by
        have := (hkeep e he (P, last) hPmem).2
        simp only at this
        rw [hP2, hoH] at this
        exact Option.some.inj this
      subst ho2
      have hko2 : o2.kind ≠ Kind.array := by rw [hkH]; exact hkP
      have hP1lt := getElem?_lt hP1
      have hP2lt := getElem?_lt hP2
      have htarget : target h c e.1 = some (P, last) := hlast1
      simp only [hg, _setObjectPathToValue, hset1, hset2]
      refine ⟨_, e :: done, rfl, ⟨?_, ?_, ?_, ?_⟩, ?_⟩
      · rw [List.length_set]
        exact Nat.le_trans J.len hout.1
      · intro e3 he3 p hp
        obtain ⟨o, o3, ho, ho3, hk3, hget3⟩ := J.spine e3 he3 p hp
        by_cases hpP : p.1 = P
        · rw [hpP] at ho ho3 hget3 ⊢
          rw [hoH] at ho3
          cases ho3
          rw [hoP] at ho
          cases ho
          refine ⟨o1, _, hoP, List.getElem?_set_self hP2lt, by rw [kind_put]; exact hk3, ?_⟩
          intro k hkk
          have hkl : k ≠ last := by
            intro hh
            apply hkk e (List.mem_cons_self _ _)
            rw [htarget, hh]
          rw [get_put_other o2 hko2 last k _ hkl]
          exact hget3 k (fun e2 he2 => hkk e2 (List.mem_cons_of_mem _ he2))
        · refine ⟨o, o3, ho, ?_, hk3, fun k hkk =>
            hget3 k (fun e2 he2 => hkk e2 (List.mem_cons_of_mem _ he2))⟩
          rw [List.getElem?_set_ne (fun hh => hpP hh.symm), (hkeep e3 he3 p hp).2]
          exact ho3
      · intro e2 he2 a ha
        have hcl2 := T.closed e2 (htodo e2 he2)
        have ha0 := closedIn_old hcl2 ha
        have hne : e2.1 ≠ e.1 := hnew e2 (List.mem_append_right _ he2)
        have haP : P ≠ a := fun hh => hPnF e2 (htodo e2 he2) (hh ▸ ha)
        rw [List.getElem?_set_ne haP,
          hout.2 a (by omega) (T.disj e2 (htodo e2 he2) e he (Ne.symm hne) a ha)]
        exact J.rest e2 (List.mem_cons_of_mem _ he2) a ha
      · intro e2 he2
        rcases List.mem_cons.mp he2 with he2 | he2
        · subst he2
          refine ⟨h1.set P (o1.put last value), H.length - h.length, asFound value, P, last,
            o2.put last (renVal h.length (H.length - h.length) value), ?_, ?_, ?_, htarget,
            List.getElem?_set_self hP2lt, ?_, ?_, ?_, ⟨cur, hfind, ht⟩⟩
          · rw [deep_path S n e2.2 e2.1 h c hfind]
            simp only [ht, if_true, hrun, _setObjectPathToValue, hset1]
          · intro a o3 ho3 hG
            have haP : P ≠ a := by
              intro hh
              rcases hG with hG | hG
              · exact hPnF e2 he (hh ▸ hG)
              · omega
            rw [List.getElem?_set_ne haP] at ho3
            obtain ⟨h5, h6⟩ := s1.cell a o3 ho3 hG
            have hsc : P ≠ shift h.length (H.length - h.length) a := by
              intro hh
              rcases hG with hG | hG
              · rw [shift_old (closedIn_old hcl hG)] at hh
                exact haP hh
              · have := shift_ge (H.length - h.length) hG
                omega
            rw [List.getElem?_set_ne hsc, List.length_set]
            exact ⟨h5, h6⟩
          · have hw := walk_last h (h1.set P (o1.put last value)) (split e2.1) (Val.ref c) cur
              (split_ne_nil _) hfind ht
              (fun p hp => by
                have hpm := List.mem_of_mem_dropLast hp
                obtain ⟨⟨o, ho, _⟩, _⟩ := T.spine e2 he p hpm
                by_cases hpP : p.1 = P
                · have hp2 : p.2 ≠ last := by
                    intro hh
                    apply T.inner e2 he cur hfind ht p hp
                    rw [htarget, ← hpP, ← hh]
                  rw [hpP] at ho ⊢
                  rw [hoP] at ho
                  cases ho
                  exact ⟨o1, _, hoP, List.getElem?_set_self hP1lt,
                    get_put_other o1 hkP last p.2 _ hp2⟩
                · refine ⟨o, o, ho, ?_, rfl⟩
                  rw [List.getElem?_set_ne (fun hh => hpP hh.symm), (hkeep e2 he p hpm).1]
                  exact ho)
              P last _ hlast1 (List.getElem?_set_self hP1lt)
            unfold findPath
            rw [hw.1, get_put_same o1 hkP]
          · rw [get_put_same o2 hko2, asFound_renVal]
          · rw [List.length_set]; exact hvval.found
          · rw [List.length_set, List.length_set, s1.len]
        · obtain ⟨hs2, δ2, v2, P2, last2, o3, hsolo2, hreg2, hg2, htar2, hoP3, hread2, hv2,
            hlen2, hw2⟩ := J.past e2 he2
          have hne : e2.1 ≠ e.1 := hnew e2 (List.mem_append_left _ he2)
          have hcl2 := T.closed e2 (hdone e2 he2)
          have hP2mem := mem_of_last htar2
          obtain ⟨⟨_, hoP4, _⟩, hP2nF⟩ := T.spine e2 (hdone e2 he2) _ hP2mem
          have hreg : Region (fp e2.1) h.length δ2 hs2
              (H1.set P (o2.put last (renVal h.length (H.length - h.length) value))) := by
            apply hreg2.keep (fun a ha => closedIn_old hcl2 ha)
            intro b hb
            have hbP : P ≠ b := by
              intro hh
              rcases hb with hb | hb
              · exact hPnF e2 (hdone e2 he2) (hh ▸ hb)
              · omega
            rw [List.getElem?_set_ne hbP]
            rcases hb with hb | hb
            · have hb0 := closedIn_old hcl2 hb
              exact hout.2 b (by omega)
                (T.disj e2 (hdone e2 he2) e he (Ne.symm hne) b hb)
            · apply hout.2 b (by omega)
              intro hbF
              have := closedIn_old hcl hbF
              omega
          by_cases hPP : P2 = P
          · subst hPP
            rw [hoH] at hoP3
            cases hoP3
            have hll : last2 ≠ last := by
              intro hh
              obtain ⟨cur2, hf2, ht2⟩ := hw2
              apply T.other e he cur hfind ht e2 (hdone e2 he2) hne _ hP2mem
              rw [htarget, hh]
            refine ⟨hs2, δ2, v2, P2, last2, _, hsolo2, hreg, hg2, htar2,
              List.getElem?_set_self hP2lt, ?_, hv2, ?_, hw2⟩
            · rw [get_put_other o2 hko2 last last2 _ hll]
              exact hread2
            · rw [List.length_set]
              exact Nat.le_trans hlen2 hout.1
          · refine ⟨hs2, δ2, v2, P2, last2, o3, hsolo2, hreg, hg2, htar2, ?_, hread2, hv2, ?_,
              hw2⟩
            · rw [List.getElem?_set_ne (fun hh => hPP hh.symm)]
              have := (hkeep e2 (hdone e2 he2) _ hP2mem).2
              simp only at this
              rw [this]
              exact hoP3
            · rw [List.length_set]
              exact Nat.le_trans hlen2 hout.1
      · intro x
        simp only [List.mem_cons]
        constructor
        · rintro (hx | hx)
          · exact Or.inr ⟨hx, cur, hfind, ht⟩
          · exact Or.inl hx
        · rintro (hx | ⟨hx, _⟩)
          · exact Or.inr hx
          · exact Or.inl hx
  · have ht2 : truthy cur = false := by simpa using ht
    simp only [ht2, Bool.false_eq_true, if_false]
    refine ⟨H, done, rfl, ⟨J.len, J.spine, ?_, J.past⟩, ?_⟩
    · intro e2 he2 a ha
      exact J.rest e2 (List.mem_cons_of_mem _ he2) a ha
    · intro x
      constructor
      · intro hx; exact Or.inl hx
      · rintro (hx | ⟨_, cur2, hf2, ht3⟩)
        · exact hx
        · rw [hfind] at hf2
          cases hf2
          rw [ht2] at ht3
          cases ht3

/-! ## The loop over the entries, in any order -/

/-- The loop returns when each entry alone returns, and then every field
assigned holds what its entry alone puts there. -/
theorem loop_all (S : Mapping) (hS : plainPaths S = true) (n : Nat) {h : Heap}
    (hwf : wellFormed h = true) {c : Nat} {fp : String → List Nat}
    {all : List (String × ModelType)} (T : Tidy h c fp all) :
    ∀ (todo done : List (String × ModelType)) (H : Heap),
      (∀ x ∈ done, x ∈ all) → (∀ x ∈ todo, x ∈ all) →
      (∀ x ∈ done, ∀ y ∈ todo, x.1 ≠ y.1) → (todo.map Prod.fst).Nodup →
      Loop S (n + 1) h c fp all done todo H →
      (∀ e ∈ todo, ∃ hs, _deepFindAndApply S (n + 1) (Val.ref c) e.1 e.2 h = Except.ok hs) →
      ∃ (H2 : Heap) (done2 : List (String × ModelType)),
        forEntries (fun prop model hh => _deepFindAndApply S (n + 1) (Val.ref c) prop model hh)
          todo H = Except.ok H2 ∧
        Loop S (n + 1) h c fp all done2 [] H2 ∧
        ∀ x, x ∈ done2 ↔ (x ∈ done ∨ (x ∈ todo ∧
          ∃ cur, findPath h (Val.ref c) x.1 = Except.ok cur ∧ truthy cur = true)) := by
  intro todo
  induction todo with
  | nil =>
    intro done H _ _ _ _ J _
    exact ⟨H, done, rfl, J, fun x => by simp⟩
  | cons e rest ih =>
    intro done H hdone htodo hd hnd J hsolo
    rw [List.map_cons, List.nodup_cons] at hnd
    have he : e ∈ all := htodo e (List.mem_cons_self _ _)
    have hnew : ∀ x ∈ done ++ rest, x.1 ≠ e.1 := by
      intro x hx
      rcases List.mem_append.mp hx with hx | hx
      · exact hd x hx e (List.mem_cons_self _ _)
      · intro hxe
        exact hnd.1 (List.mem_map.mpr ⟨x, hx, hxe⟩)
    have hstep := next_entry S hS n hwf T hdone he
      (fun x hx => htodo x (List.mem_cons_of_mem _ hx)) hnew J
    obtain ⟨hs, hrun⟩ := hsolo e (List.mem_cons_self _ _)
    rw [hrun] at hstep
    obtain ⟨H1, done1, hD, J1, hmem1⟩ := hstep
    obtain ⟨H2, done2, hloop, J2, hmem2⟩ := ih done1 H1
      (fun x hx => by
        rcases (hmem1 x).mp hx with h1 | ⟨h1, _⟩
        · exact hdone x h1
        · rw [h1]; exact he)
      (fun x hx => htodo x (List.mem_cons_of_mem _ hx))
      (fun x hx y hy => by
        rcases (hmem1 x).mp hx with h1 | ⟨h1, _⟩
        · exact hd x h1 y (List.mem_cons_of_mem _ hy)
        · rw [h1]
          intro hey
          exact hnd.1 (List.mem_map.mpr ⟨y, hy, hey.symm⟩))
      hnd.2 J1 (fun e2 he2 => hsolo e2 (List.mem_cons_of_mem _ he2))
    refine ⟨H2, done2, ?_, J2, fun x => ?_⟩
    · simp only [forEntries, hD]
      exact hloop
    · rw [hmem2 x, hmem1 x]
      simp only [List.mem_cons]
      constructor
      · rintro ((h1 | ⟨h1, h2⟩) | ⟨h1, h2⟩)
        · exact Or.inl h1
        · exact Or.inr ⟨Or.inl h1, by rw [h1]; exact h2⟩
        · exact Or.inr ⟨Or.inr h1, h2⟩
      · rintro (h1 | ⟨h1 | h1, h2⟩)
        · exact Or.inl (Or.inl h1)
        · exact Or.inl (Or.inr ⟨h1, by rw [← h1]; exact h2⟩)
        · exact Or.inr ⟨h1, h2⟩

/-- When the loop returns, each of its entries alone returns on the heap the
loop started from. -/
theorem loop_each (S : Mapping) (hS : plainPaths S = true) (n : Nat) {h : Heap}
    (hwf : wellFormed h = true) {c : Nat} {fp : String → List Nat}
    {all : List (String × ModelType)} (T : Tidy h c fp all) :
    ∀ (todo done : List (String × ModelType)) (H H2 : Heap),
      (∀ x ∈ done, x ∈ all) → (∀ x ∈ todo, x ∈ all) →
      (∀ x ∈ done, ∀ y ∈ todo, x.1 ≠ y.1) → (todo.map Prod.fst).Nodup →
      Loop S (n + 1) h c fp all done todo H →
      forEntries (fun prop model hh => _deepFindAndApply S (n + 1) (Val.ref c) prop model hh)
          todo H = Except.ok H2 →
      ∀ e ∈ todo, ∃ hs, _deepFindAndApply S (n + 1) (Val.ref c) e.1 e.2 h = Except.ok hs := by
  intro todo
  induction todo with
  | nil => intro done H H2 _ _ _ _ _ _ e he; simp at he
  | cons e rest ih =>
    intro done H H2 hdone htodo hd hnd J hloop
    rw [List.map_cons, List.nodup_cons] at hnd
    have he : e ∈ all := htodo e (List.mem_cons_self _ _)
    have hnew : ∀ x ∈ done ++ rest, x.1 ≠ e.1 := by
      intro x hx
      rcases List.mem_append.mp hx with hx | hx
      · exact hd x hx e (List.mem_cons_self _ _)
      · intro hxe
        exact hnd.1 (List.mem_map.mpr ⟨x, hx, hxe⟩)
    have hstep := next_entry S hS n hwf T hdone he
      (fun x hx => htodo x (List.mem_cons_of_mem _ hx)) hnew J
    simp only [forEntries] at hloop
    cases hrun : _deepFindAndApply S (n + 1) (Val.ref c) e.1 e.2 h with
    | error err =>
      rw [hrun] at hstep
      simp only at hstep
      rw [hstep] at hloop
      cases hloop
    | ok hs =>
      rw [hrun] at hstep
      obtain ⟨H1, done1, hD, J1, hmem1⟩ := hstep
      rw [hD] at hloop
      have hrest := ih done1 H1 H2
        (fun x hx => by
          rcases (hmem1 x).mp hx with h1 | ⟨h1, _⟩
          · exact hdone x h1
          · rw [h1]; exact he)
        (fun x hx => htodo x (List.mem_cons_of_mem _ hx))
        (fun x hx y hy => by
          rcases (hmem1 x).mp hx with h1 | ⟨h1, _⟩
          · exact hd x h1 y (List.mem_cons_of_mem _ hy)
          · rw [h1]
            intro hey
            exact hnd.1 (List.mem_map.mpr ⟨y, hy, hey.symm⟩))
        hnd.2 J1 hloop
      intro e2 he2
      rcases List.mem_cons.mp he2 with h3 | h3
      · rw [h3]; exact ⟨hs, hrun⟩
      · exact hrest e2 h3

theorem Loop.start (S : Mapping) (n : Nat) {h : Heap} {c : Nat} {fp : String → List Nat}
    {all : List (String × ModelType)} (T : Tidy h c fp all) (todo : List (String × ModelType)) :
    Loop S n h c fp all [] todo h := by
  refine ⟨Nat.le_refl _, ?_, fun _ _ _ _ => rfl, fun e he => by simp at he⟩
  intro e he p hp
  obtain ⟨⟨o, ho, _⟩, _⟩ := T.spine e he p hp
  exact ⟨o, o, ho, ho, rfl, fun _ _ => rfl⟩

/-- At the end of the loop every declared path leads to what its entry alone
puts there, seen further up. -/
theorem Loop.finish {S : Mapping} {n : Nat} {h : Heap} {c : Nat} {fp : String → List Nat}
    {all done : List (String × ModelType)} {H : Heap} (T : Tidy h c fp all)
    (J : Loop S n h c fp all done [] H) (hdone : ∀ x ∈ done, x ∈ all)
    (hnd : (all.map Prod.fst).Nodup)
    (hmem : ∀ x ∈ all, x ∈ done ↔
      ∃ cur, findPath h (Val.ref c) x.1 = Except.ok cur ∧ truthy cur = true)
    {e : String × ModelType} (he : e ∈ all) {hs : Heap}
    (hsolo : _deepFindAndApply S n (Val.ref c) e.1 e.2 h = Except.ok hs) :
    ∃ v w, findPath hs (Val.ref c) e.1 = Except.ok v ∧
      findPath H (Val.ref c) e.1 = Except.ok w ∧ ∀ d, view H d w = view hs d v := by
  have hkeys : ∀ x ∈ all, ∀ y ∈ all, x.1 = y.1 → x = y := by
    intro x hx y hy hxy
    exact List.inj_on_of_nodup_map hnd hx hy hxy
  have hwritten : ∀ e2 ∈ done, ∃ cur2, findPath h (Val.ref c) e2.1 = Except.ok cur2 ∧
      truthy cur2 = true := fun e2 he2 => (hmem e2 (hdone e2 he2)).mp he2
  by_cases hed : e ∈ done
  · obtain ⟨hs2, δ, v, P, last, o2, hsolo2, hreg, hg, htar, hoP, hread, hv, _, cur, hfind, ht⟩ :=
      J.past e hed
    rw [hsolo] at hsolo2
    cases hsolo2
    have hw := walk_last h H (split e.1) (Val.ref c) cur (split_ne_nil _) hfind ht
      (fun p hp => by
        have hpm := List.mem_of_mem_dropLast hp
        obtain ⟨o, o3, ho, ho3, _, hget⟩ := J.spine e he p hpm
        refine ⟨o, o3, ho, ho3, hget p.2 ?_⟩
        intro e2 he2
        obtain ⟨cur2, hf2, ht2⟩ := hwritten e2 he2
        by_cases hee : e2.1 = e.1
        · have := hkeys e2 (hdone e2 he2) e he hee
          subst this
          exact T.inner e2 he cur hfind ht p hp
        · exact T.other e2 (hdone e2 he2) cur2 hf2 ht2 e he (Ne.symm hee) p hpm)
      P last o2 htar hoP
    refine ⟨v, renVal h.length δ v, hg, ?_, fun d => view_shift hreg d v hv⟩
    unfold findPath
    rw [hw.1, hread]
  · obtain ⟨cur, hfind, _⟩ := T.found e he
    have ht : truthy cur = false := by
      cases htc : truthy cur with
      | false => rfl
      | true => exact absurd ((hmem e he).mpr ⟨cur, hfind, htc⟩) hed
    have hw := walk_same h H (split e.1) (Val.ref c) (fun p hp => by
      obtain ⟨o, o3, ho, ho3, _, hget⟩ := J.spine e he p hp
      refine ⟨o, o3, ho, ho3, hget p.2 ?_⟩
      intro e2 he2
      obtain ⟨cur2, hf2, ht2⟩ := hwritten e2 he2
      have hee : e.1 ≠ e2.1 := by
        intro hh
        have := hkeys e he e2 (hdone e2 he2) hh
        exact hed (this ▸ he2)
      exact T.other e2 (hdone e2 he2) cur2 hf2 ht2 e he hee p hp)
    have hsame : hs = h := by
      cases n with
      | zero => simp [_deepFindAndApply] at hsolo
      | succ m =>
        rw [deep_path S m e.2 e.1 h c hfind] at hsolo
        simp only [ht, Bool.false_eq_true, if_false, Except.ok.injEq] at hsolo
        exact hsolo.symm
    subst hsame
    refine ⟨cur, cur, hfind, by unfold findPath; rw [hw.1]; exact hfind, fun d => ?_⟩
    rw [view_prim _ _ _ (not_ref_of_falsy ht), view_prim _ _ _ (not_ref_of_falsy ht)]

/-! ## Paths that are apart, on a tree -/

theorem reads_steps (h : Heap) :
    ∀ (segs : List String) (x : Val) (pre : List String),
      (reads h x segs pre).map (fun r => (r.1, r.2.2)) = steps h x segs := by
  intro segs
  induction segs with
  | nil => intro x pre; cases x <;> simp [reads, steps]
  | cons seg rest ih =>
    intro x pre
    cases x with
    | ref a =>
      cases ho : h[a]? with
      | none => simp [reads, steps, ho]
      | some o => simp [reads, steps, ho, ih]
    | _ => simp [reads, steps]

theorem reads_pre (h : Heap) :
    ∀ (segs : List String) (x : Val) (pre : List String),
      ∀ r ∈ reads h x segs pre,
        (∃ t, pre ++ segs = r.2.1 ++ r.2.2 :: t) ∧ pre.length ≤ r.2.1.length := by
  intro segs
  induction segs with
  | nil => intro x pre r hr; cases x <;> simp [reads] at hr
  | cons seg rest ih =>
    intro x pre r hr
    cases x with
    | ref a =>
      simp only [reads, List.mem_cons] at hr
      rcases hr with hr | hr
      · subst hr
        exact ⟨⟨rest, rfl⟩, Nat.le_refl _⟩
      · cases ho : h[a]? with
        | none => rw [ho] at hr; simp at hr
        | some o =>
          rw [ho] at hr
          obtain ⟨⟨t, ht⟩, hl⟩ := ih (o.get seg) (pre ++ [seg]) r hr
          refine ⟨⟨t, ?_⟩, ?_⟩
          · rw [← ht]; simp
          · simp only [List.length_append, List.length_singleton] at hl
            omega
    | undef => simp [reads] at hr
    | null => simp [reads] at hr
    | bool b => simp [reads] at hr
    | num n => simp [reads] at hr
    | str s => simp [reads] at hr

theorem reads_sorted (h : Heap) :
    ∀ (segs : List String) (x : Val) (pre : List String),
      (reads h x segs pre).Pairwise (fun r r2 => r.2.1.length < r2.2.1.length) := by
  intro segs
  induction segs with
  | nil => intro x pre; cases x <;> simp [reads]
  | cons seg rest ih =>
    intro x pre
    cases x with
    | ref a =>
      simp only [reads]
      rw [List.pairwise_cons]
      cases ho : h[a]? with
      | none => simp
      | some o =>
        refine ⟨fun r hr => ?_, ih _ _⟩
        have := (reads_pre h rest (o.get seg) (pre ++ [seg]) r hr).2
        simp only [List.length_append, List.length_singleton] at this
        simp only
        omega
    | _ => simp [reads]

theorem reads_last (h : Heap) :
    ∀ (segs : List String) (x : Val) (pre : List String) (cur : Val), segs ≠ [] →
      findPathLoop h x segs = Except.ok cur → truthy cur = true →
      ∃ r, (reads h x segs pre).getLast? = some r ∧ r.2.1 ++ [r.2.2] = pre ++ segs := by
  intro segs
  induction segs with
  | nil => intro x pre cur hne; exact absurd rfl hne
  | cons seg rest ih =>
    intro x pre cur _ hf ht
    obtain ⟨c, o, hx, ho, hn, hrest⟩ := findPathLoop_cons_truthy hf ht
    subst hx
    cases rest with
    | nil => exact ⟨(c, pre, seg), by simp [reads, ho], rfl⟩
    | cons s2 r2 =>
      obtain ⟨r, hr, hpre⟩ := ih (o.get seg) (pre ++ [seg]) cur (by simp) hrest ht
      refine ⟨r, ?_, by rw [hpre]; simp⟩
      simp only [reads, ho]
      rw [getLast?_cons_ne _ (by intro hh; rw [hh] at hr; simp at hr)]
      exact hr

theorem startsWith_iff : ∀ (a b : List String), startsWith a b = true ↔ ∃ t, b = a ++ t := by
  intro a
  induction a with
  | nil => intro b; simp [startsWith]
  | cons x xs ih =>
    intro b
    cases b with
    | nil => simp [startsWith]
    | cons y ys =>
      simp only [startsWith, Bool.and_eq_true, beq_iff_eq, ih, List.cons_append, List.cons.injEq]
      constructor
      · rintro ⟨h1, t, ht⟩
        exact ⟨t, h1.symm, ht⟩
      · rintro ⟨t, h1, ht⟩
        exact ⟨h1.symm, t, ht⟩

theorem pathsApart_spec : ∀ es : List (String × ModelType), pathsApart es = true →
    ∀ e ∈ es, ∀ e2 ∈ es, e2.1 ≠ e.1 → startsWith (split e.1) (split e2.1) = false := by
  intro es
  induction es with
  | nil => intro _ e he; simp at he
  | cons x rest ih =>
    intro hp e he e2 he2 hne
    simp only [pathsApart, Bool.and_eq_true, List.all_eq_true, Bool.not_eq_true'] at hp
    rcases List.mem_cons.mp he with h1 | h1 <;> rcases List.mem_cons.mp he2 with h2 | h2
    · subst h1; subst h2; exact absurd rfl hne
    · subst h1; exact (hp.1 e2 h2).1
    · subst h2; exact (hp.1 e h1).2
    · exact ih hp.2 e h1 e2 h2 hne

theorem apart_nodup : ∀ es : List (String × ModelType), pathsApart es = true →
    (es.map Prod.fst).Nodup := by
  intro es
  induction es with
  | nil => intro _; exact List.nodup_nil
  | cons x rest ih =>
    intro hp
    simp only [pathsApart, Bool.and_eq_true, List.all_eq_true, Bool.not_eq_true'] at hp
    rw [List.map_cons, List.nodup_cons]
    refine ⟨?_, ih hp.2⟩
    intro hm
    obtain ⟨y, hy, hyx⟩ := List.mem_map.mp hm
    have h1 := (hp.1 y hy).1
    rw [hyx] at h1
    have h2 := (startsWith_iff (split x.1) (split x.1)).mpr ⟨[], by simp⟩
    rw [h1] at h2
    cases h2

/-- On a tree, declared paths that are apart do not get in each other's
way: an entry assigns a field that no declared path reads before its end. -/
theorem tree_tidy {h : Heap} {c : Nat} {fp : String → List Nat}
    {es : List (String × ModelType)} (hp : pathsApart es = true)
    (ht : onTree h c fp es = true) : Tidy h c fp es := by
  simp only [onTree, List.all_eq_true, Bool.and_eq_true, Bool.or_eq_true, Bool.not_eq_true',
    beq_iff_eq, bne_iff_ne, ne_eq] at ht
  have hspine : ∀ e ∈ es, ∀ p ∈ steps h (Val.ref c) (split e.1),
      (∃ o, h[p.1]? = some o ∧ o.kind ≠ Kind.array) ∧ ∀ e2 ∈ es, p.1 ∉ fp e2.1 := by
    intro e he p hpm
    rw [← reads_steps h (split e.1) (Val.ref c) []] at hpm
    obtain ⟨r, hr, hrp⟩ := List.mem_map.mp hpm
    subst hrp
    have h1 := (ht e he).1.1.2 r hr
    refine ⟨?_, fun e2 he2 hm => ?_⟩
    · have h2 := h1.1
      simp only
      cases ho : h[r.1]? with
      | none => rw [ho] at h2; cases h2
      | some o =>
        refine ⟨o, rfl, fun hk => ?_⟩
        rw [ho] at h2
        simp only [hk] at h2
        cases h2
    · have h2 := h1.2 e2 he2
      simp only at hm
      simp [hm] at h2
  have htree : ∀ e ∈ es, ∀ e2 ∈ es, ∀ r ∈ reads h (Val.ref c) (split e.1) [],
      ∀ r2 ∈ reads h (Val.ref c) (split e2.1) [], r.1 = r2.1 → r.2.1 = r2.2.1 := by
    intro e he e2 he2 r hr r2 hr2 heq
    rcases (ht e he).2 e2 he2 r hr r2 hr2 with h1 | h1
    · exact absurd heq h1
    · exact h1
  refine ⟨fun e he => (ht e he).1.1.1.1, ?_, hspine, ?_, ?_, ?_⟩
  · intro e he
    have h1 := (ht e he).1.1.1.2
    cases hf : findPath h (Val.ref c) e.1 with
    | error err => rw [hf] at h1; cases h1
    | ok cur => rw [hf] at h1; exact ⟨cur, rfl, h1⟩
  · intro e he e2 he2 hne a ha ha2
    rcases (ht e he).1.2 e2 he2 with h1 | h1
    · exact hne h1
    · have := h1 a ha
      simp [ha2] at this
  · intro e he cur hf htc e2 he2 hne p hpm htar
    obtain ⟨r, hr, hpre⟩ := reads_last h (split e.1) (Val.ref c) [] cur (split_ne_nil _) hf htc
    have hrm := mem_of_last hr
    simp only [target, ← reads_steps h (split e.1) (Val.ref c) [], List.getLast?_map, hr,
      Option.map_some', Option.some.injEq] at htar
    rw [← reads_steps h (split e2.1) (Val.ref c) []] at hpm
    obtain ⟨r2, hr2, hrp⟩ := List.mem_map.mp hpm
    rw [← htar] at hrp
    simp only [Prod.mk.injEq] at hrp
    have hpre2 := htree e he e2 he2 r hrm r2 hr2 hrp.1.symm
    obtain ⟨⟨t, ht2⟩, _⟩ := reads_pre h (split e2.1) (Val.ref c) [] r2 hr2
    have hstart : startsWith (split e.1) (split e2.1) = true := by
      rw [startsWith_iff]
      refine ⟨t, ?_⟩
      simp only [List.nil_append] at ht2 hpre
      rw [ht2, ← hpre, hpre2, hrp.2]
      simp
    rw [pathsApart_spec es hp e he e2 he2 hne] at hstart
    cases hstart
  · intro e he cur hf htc p hpm htar
    obtain ⟨r, hr, hpre⟩ := reads_last h (split e.1) (Val.ref c) [] cur (split_ne_nil _) hf htc
    have hrm := mem_of_last hr
    simp only [target, ← reads_steps h (split e.1) (Val.ref c) [], List.getLast?_map, hr,
      Option.map_some', Option.some.injEq] at htar
    rw [← reads_steps h (split e.1) (Val.ref c) [], ← List.map_dropLast] at hpm
    obtain ⟨r2, hr2, hrp⟩ := List.mem_map.mp hpm
    rw [← htar] at hrp
    simp only [Prod.mk.injEq] at hrp
    have hpre2 := htree e he e he r hrm r2 (List.mem_of_mem_dropLast hr2) hrp.1.symm
    have hsplit := List.dropLast_append_getLast? r (by rw [hr]; exact rfl)
    have hsorted := reads_sorted h (split e.1) (Val.ref c) []
    rw [← hsplit, List.pairwise_append] at hsorted
    have := hsorted.2.2 r2 hr2 r (by simp)
    rw [hpre2] at this
    exact Nat.lt_irrefl _ this

/-- C20 (amended).  Let the declared paths of `M` be pairwise apart (none
equals, or is a segment-wise beginning of, another) and let no declared path
of the schema have a segment `_parent` or `content`.  Take an object in a
heap without dangling references that is the root of a tree as far as the
declared paths of `M` go: the objects read on the way are not arrays and
none is reached by two different paths, and the values the paths lead to
have footprints `fp`, sets of cells closed under references, that share no
cell with each other nor with the objects read on the way.  If the loop of
`_applyMapping` over the entries returns, then the loop over any permutation
of the entries returns as well, and yields the same mapped object up to the
addresses of the objects made on the way: every declared path leads to a
value below which the same tree is seen, to every depth, and the objects
read on the way have the same kind and hold the same value in every field
that no entry assigns. -/
theorem c20_order_independent (S : Mapping) (hS : plainPaths S = true) (h : Heap)
    (hwf : wellFormed h = true) (c : Nat) (M : ModelType) (fp : String → List Nat)
    (hapart : pathsApart (schemaOf S M) = true)
    (htree : onTree h c fp (schemaOf S M) = true)
    (es2 : List (String × ModelType)) (hperm : (schemaOf S M).Perm es2)
    (n : Nat) (r : Val) (h1 : Heap)
    (hrun : _applyMapping S (n + 1) M (Val.ref c) h = Except.ok (r, h1)) :
    ∃ h2, forEntries (fun prop model hh => _deepFindAndApply S n (Val.ref c) prop model hh)
        es2 h = Except.ok h2 ∧
      (∀ e ∈ schemaOf S M, ∃ v1 v2, findPath h1 (Val.ref c) e.1 = Except.ok v1 ∧
        findPath h2 (Val.ref c) e.1 = Except.ok v2 ∧ ∀ d, view h2 d v2 = view h1 d v1) ∧
      ∀ e ∈ schemaOf S M, ∀ p ∈ steps h (Val.ref c) (split e.1),
        kindOf h2 (Val.ref p.1) = kindOf h1 (Val.ref p.1) ∧
        ∀ k, (∀ e2 ∈ schemaOf S M, target h c e2.1 ≠ some (p.1, k)) →
          getProp h2 (Val.ref p.1) k = getProp h1 (Val.ref p.1) k := by
  have hloop : forEntries
      (fun prop model hh => _deepFindAndApply S n (Val.ref c) prop model hh)
      (schemaOf S M) h = Except.ok h1 := by
    simp only [_applyMapping] at hrun
    split at hrun
    · cases hrun
    · rename_i h3 heq
      cases hrun
      exact heq
  cases n with
  | zero =>
    cases hes : schemaOf S M with
    | nil =>
      rw [hes] at hperm hloop
      have h2nil : es2 = [] := List.Perm.eq_nil (hperm.symm)
      subst h2nil
      simp only [forEntries, Except.ok.injEq] at hloop
      subst hloop
      exact ⟨h, rfl, fun e he => by simp at he, fun e he => by simp at he⟩
    | cons e rest =>
      rw [hes] at hloop
      simp [forEntries, _deepFindAndApply] at hloop
  | succ m =>
    have T := tree_tidy hapart htree
    have hnd := apart_nodup _ hapart
    have hsolos := loop_each S hS m hwf T (schemaOf S M) [] h h1
      (fun x hx => by simp at hx) (fun x hx => hx) (fun x hx => by simp at hx) hnd
      (Loop.start S (m + 1) T _) hloop
    obtain ⟨H1, done1, hloop1, J1, hmem1⟩ := loop_all S hS m hwf T (schemaOf S M) [] h
      (fun x hx => by simp at hx) (fun x hx => hx) (fun x hx => by simp at hx) hnd
      (Loop.start S (m + 1) T _) hsolos
    rw [hloop] at hloop1
    cases hloop1
    obtain ⟨H2, done2, hloop2, J2, hmem2⟩ := loop_all S hS m hwf T es2 [] h
      (fun x hx => by simp at hx) (fun x hx => hperm.mem_iff.mpr hx)
      (fun x hx => by simp at hx) ((hperm.map Prod.fst).nodup_iff.mp hnd)
      (Loop.start S (m + 1) T _) (fun e he => hsolos e (hperm.mem_iff.mpr he))
    have hd1 : ∀ x ∈ done1, x ∈ schemaOf S M := by
      intro x hx
      rcases (hmem1 x).mp hx with h3 | ⟨h3, _⟩
      · simp at h3
      · exact h3
    have hd2 : ∀ x ∈ done2, x ∈ schemaOf S M := by
      intro x hx
      rcases (hmem2 x).mp hx with h3 | ⟨h3, _⟩
      · simp at h3
      · exact hperm.mem_iff.mpr h3
    have hm1 : ∀ x ∈ schemaOf S M, x ∈ done1 ↔
        ∃ cur, findPath h (Val.ref c) x.1 = Except.ok cur ∧ truthy cur = true := by
      intro x hx
      rw [hmem1 x]
      simp [hx]
    have hm2 : ∀ x ∈ schemaOf S M, x ∈ done2 ↔
        ∃ cur, findPath h (Val.ref c) x.1 = Except.ok cur ∧ truthy cur = true := by
      intro x hx
      rw [hmem2 x]
      simp [hperm.mem_iff.mp hx]
    refine ⟨H2, hloop2, ?_, ?_⟩
    · intro e he
      obtain ⟨hs, hsolo⟩ := hsolos e he
      obtain ⟨v, w1, hg, hf1, hview1⟩ := Loop.finish T J1 hd1 hnd hm1 he hsolo
      obtain ⟨v2, w2, hg2, hf2, hview2⟩ := Loop.finish T J2 hd2 hnd hm2 he hsolo
      rw [hg] at hg2
      cases hg2
      exact ⟨w1, w2, hf1, hf2, fun d => by rw [hview2 d, hview1 d]⟩
    · intro e he p hp
      obtain ⟨o, o1, ho, ho1, hk1, hget1⟩ := J1.spine e he p hp
      obtain ⟨o3, o2, ho3, ho2, hk2, hget2⟩ := J2.spine e he p hp
      rw [ho] at ho3
      cases ho3
      refine ⟨by simp [kindOf, ho1, ho2, hk1, hk2], fun k hk => ?_⟩
      simp only [getProp, ho1, ho2]
      rw [hget1 k (fun e2 he2 => hk e2 (hd1 e2 he2)), hget2 k (fun e2 he2 => hk e2 (hd2 e2 he2))]

theorem c20_order_independent_witness :
    ∃ (r : Val) (h1 : Heap),
      _applyMapping treeSchema 6 User (Val.ref 0) treeHeap = Except.ok (r, h1) ∧
      ∃ h2, forEntries
          (fun prop model hh => _deepFindAndApply treeSchema 5 (Val.ref 0) prop model hh)
          [("friends", Member), ("address.owner", Team), ("address.geo", Address)] treeHeap
            = Except.ok h2 ∧
        (∀ e ∈ schemaOf treeSchema User, ∃ v1 v2,
          findPath h1 (Val.ref 0) e.1 = Except.ok v1 ∧
          findPath h2 (Val.ref 0) e.1 = Except.ok v2 ∧ ∀ d, view h2 d v2 = view h1 d v1) ∧
        ∀ e ∈ schemaOf treeSchema User, ∀ p ∈ steps treeHeap (Val.ref 0) (split e.1),
          kindOf h2 (Val.ref p.1) = kindOf h1 (Val.ref p.1) ∧
          ∀ k, (∀ e2 ∈ schemaOf treeSchema User, target treeHeap 0 e2.1 ≠ some (p.1, k)) →
            getProp h2 (Val.ref p.1) k = getProp h1 (Val.ref p.1) k :=
  ⟨_, _, rfl, c20_order_independent treeSchema rfl treeHeap rfl 0 User treeFp rfl rfl
    [("friends", Member), ("address.owner", Team), ("address.geo", Address)]
    (List.reverse_perm _).symm 5 _ _ rfl⟩

end SD
